import Mathlib

/-!
# ARMCI over MPI-2: one-sided operations, lifecycle, the binary tree and the LU layout

A shallow embedding of `src/onesided.c` (with the accumulate tags of `src/armci.h`), of the
lifecycle, fence and barrier functions of `src/util.c`, of `armci_msg_bintree` of
`src/src/message.c`, and of the processor grid and the block layout of
`src/tests/contrib/lu/lu.c`.

Conventions of the embedding.

* Addresses and ranks are mathematical integers; pointer arithmetic does not wrap.  A
  value stored in a C `int` (the cast of a pointer difference, the sums of
  `armci_msg_bintree`, the sizes and `proc_bytes` of the LU test) is converted by `to_int`.
* The memory of the whole job is one map `process -> address -> byte`.  A window exposes,
  for each rank of its group, a region of the memory of the process that has this rank.
  Local buffers are addresses in the memory of the calling process, so a local buffer may lie
  inside a slice of the caller.
* Typed elements are stored little-endian; `int` and `float` have 4 bytes, `long` and
  `double` 8 bytes.  Integer elements are handled as bit patterns with arithmetic modulo
  `256 ^ size` (two's complement); `int_val` gives the signed value of a pattern.
* The transport (MPI) is not part of the repository.  It is modelled permissively: every
  call is performed as asked, recorded in `State.calls`, and never rejected.  The calls
  recorded are those with an effect outside the calling process (lock, unlock, get, put,
  accumulate, abort, barrier, duplication and release of a communicator); purely local
  queries (`MPI_Type_size`, `MPI_Comm_rank`,
  `MPI_Win_get_group`, `MPI_Group_rank`, `MPI_Group_free`) are evaluated, not recorded.
  A data transfer reads all the bytes it moves before it writes any.  An epoch is open from
  the lock that begins it to the unlock that ends it.
* `assert` is taken to be enabled: a failed assertion ends the call.  `malloc` of a size that
  is not negative succeeds.
-/

namespace ARMCI

/-! ## Machine integers -/

/-- Conversion of an integer to the C type `int` (32 bits, two's complement). -/
def to_int (x : Int) : Int := (x + 2147483648) % 4294967296 - 2147483648

/-! ## Data model (`mem_region.h` is not among the sources; the fields are those used by
`onesided.c`) -/

/-- One entry of the slice table: `base` and `size` of the slice at one rank. -/
structure mem_region_slice_t where
  base : Int
  size : Int
deriving DecidableEq, Repr

/-- An allocation record: the window handle and the slice table indexed by rank. -/
structure mem_region_t where
  window : Nat
  slices : List mem_region_slice_t
deriving DecidableEq, Repr

/-- The group record of `armci.h`. -/
structure ARMCI_Group where
  comm : Nat
  rank : Int
  size : Int
deriving DecidableEq, Repr

/-- The expression `mreg->slices[rank]`; `none` when `rank` is outside the table. -/
def slice_at (mreg : mem_region_t) (rank : Int) : Option mem_region_slice_t :=
  if 0 ≤ rank then mreg.slices[rank.toNat]? else none

/-- The test made on one record by the registry scan: the slice at `proc` brackets `ptr`. -/
def brackets (ptr proc : Int) (mreg : mem_region_t) : Bool :=
  match slice_at mreg proc with
  | some sl => decide (sl.base ≤ ptr ∧ ptr < sl.base + sl.size)
  | none => false

/-- Modelled from the spec: `mem_region_lookup` (declared in `mem_region.h`, which is not
among the sources).  "Lookup takes (address, participant_rank) and returns the allocation
record whose slice at that rank contains the address, or none"; it is "resolved by scanning
the registry for a record whose slice at that rank brackets the address". -/
def mem_region_lookup (registry : List mem_region_t) (ptr proc : Int) : Option mem_region_t :=
  registry.find? (brackets ptr proc)

/-- The slice sizes of a registry are values of the C type `int`
(`ARMCI_Malloc (void **base_ptrs, int size)` in `armci.h`). -/
def int_sizes (registry : List mem_region_t) : Bool :=
  registry.all (fun mreg =>
    mreg.slices.all (fun sl => decide (-2147483648 ≤ sl.size ∧ sl.size < 2147483648)))

/-! ## The transport -/

/-- The MPI datatypes used by `onesided.c`. -/
inductive MPI_Datatype where
  | MPI_BYTE | MPI_INT | MPI_LONG | MPI_FLOAT | MPI_DOUBLE
deriving DecidableEq, Repr

/-- The lock types of `MPI_Win_lock`. -/
inductive MPI_Lock_type where
  | MPI_LOCK_EXCLUSIVE | MPI_LOCK_SHARED
deriving DecidableEq, Repr

/-- The reduction operations of `MPI_Accumulate`. -/
inductive MPI_Op where
  | MPI_SUM
deriving DecidableEq, Repr

/-- The origin buffer of an accumulate: the caller's buffer at an address, or the scratch
buffer obtained from `malloc`, given by its elements. -/
inductive Origin where
  | user (addr : Int)
  | scratch (data : List Nat)
deriving DecidableEq, Repr

/-- A call made on the transport, with its arguments in the order of the C binding. -/
inductive MPI_Call where
  | Win_lock (lock_type : MPI_Lock_type) (rank : Int) (assertion : Int) (win : Nat)
  | Win_unlock (rank : Int) (win : Nat)
  | Get (origin_addr : Int) (origin_count : Int) (origin_type : MPI_Datatype)
      (target_rank : Int) (target_disp : Int) (target_count : Int)
      (target_type : MPI_Datatype) (win : Nat)
  | Put (origin_addr : Int) (origin_count : Int) (origin_type : MPI_Datatype)
      (target_rank : Int) (target_disp : Int) (target_count : Int)
      (target_type : MPI_Datatype) (win : Nat)
  | Accumulate (origin : Origin) (origin_count : Int) (origin_type : MPI_Datatype)
      (target_rank : Int) (target_disp : Int) (target_count : Int)
      (target_type : MPI_Datatype) (op : MPI_Op) (win : Nat)
  | Abort (errorcode : Int)
  | Barrier (comm : Nat)
  | Comm_dup (comm : Nat) (newcomm : Nat)
  | Comm_free (comm : Nat)
deriving DecidableEq, Repr

/-- What the modelled functions only query: the identity of the calling process, the rank
and size queries of the transport, the handle it gives to the duplicate of a communicator,
the placement of every window (which process has a given rank of the window's group, and the
base address of the window there), and the floating-point unit (multiplication and addition
on the bit patterns of `float` and `double`). -/
structure Env where
  self : Int
  comm_rank : Nat → Int
  comm_size : Nat → Int
  comm_dup : Nat → Nat
  win_group_rank : Nat → Int
  win_proc : Nat → Int → Int
  win_base : Nat → Int → Int
  fmul32 : Nat → Nat → Nat
  fadd32 : Nat → Nat → Nat
  fmul64 : Nat → Nat → Nat
  fadd64 : Nat → Nat → Nat

/-- The state acted upon: the world group, the registry, the memory of every process, the
epochs this initiator has opened and not yet closed, and the transport calls it has made
(oldest first). -/
structure State where
  ARMCI_GROUP_WORLD : ARMCI_Group
  registry : List mem_region_t
  mem : Int → Int → Nat
  epochs : List (Nat × Int)
  calls : List MPI_Call

/-- How a call ends when it does not return: a failed `assert`, an access outside the slice
table, or `MPI_Abort` with an error code. -/
inductive Failure where
  | assertion
  | out_of_table
  | abort (code : Int)
deriving DecidableEq, Repr

/-- The outcome of a call: the returned value and the state, or a failure and the state in
which it occurred. -/
abbrev Result (α : Type) := Except (Failure × State) (α × State)

/-- The bytes at addresses `a, ..., a + n - 1` of process `p`. -/
def mem_read (mem : Int → Int → Nat) (p a : Int) (n : Nat) : List Nat :=
  (List.range n).map (fun (i : Nat) => mem p (a + (i : Int)))

/-- The memory after storing the bytes `bs` at addresses `a, a + 1, ...` of process `p`. -/
def mem_write (mem : Int → Int → Nat) (p a : Int) (bs : List Nat) : Int → Int → Nat :=
  fun q x => if q = p ∧ a ≤ x ∧ x < a + (bs.length : Int) then bs.getD (x - a).toNat 0 else mem q x

/-- The size in bytes of a datatype (`MPI_Type_size`; LP64: `int` 4, `long` 8). -/
def MPI_Type_size : MPI_Datatype → Int
  | .MPI_BYTE => 1
  | .MPI_INT => 4
  | .MPI_LONG => 8
  | .MPI_FLOAT => 4
  | .MPI_DOUBLE => 8

/-- The call `MPI_Win_lock`: opens an epoch on `(win, rank)`. -/
def MPI_Win_lock (lock_type : MPI_Lock_type) (rank : Int) (assertion : Int) (win : Nat)
    (st : State) : State :=
  { st with epochs := (win, rank) :: st.epochs,
            calls := st.calls ++ [MPI_Call.Win_lock lock_type rank assertion win] }

/-- The call `MPI_Win_unlock`: closes one epoch on `(win, rank)`. -/
def MPI_Win_unlock (rank : Int) (win : Nat) (st : State) : State :=
  { st with epochs := st.epochs.erase (win, rank),
            calls := st.calls ++ [MPI_Call.Win_unlock rank win] }

/-- The call `MPI_Get`: copies `target_count` elements from displacement `target_disp` of the
window at `target_rank` (displacement unit 1) to the caller's memory at `origin_addr`. -/
def MPI_Get (env : Env) (origin_addr origin_count : Int) (origin_type : MPI_Datatype)
    (target_rank target_disp target_count : Int) (target_type : MPI_Datatype) (win : Nat)
    (st : State) : State :=
  let data := mem_read st.mem (env.win_proc win target_rank)
    (env.win_base win target_rank + target_disp) (target_count * MPI_Type_size target_type).toNat
  { st with mem := mem_write st.mem env.self origin_addr data,
            calls := st.calls ++ [MPI_Call.Get origin_addr origin_count origin_type
              target_rank target_disp target_count target_type win] }

/-- The call `MPI_Put`: copies `origin_count` elements from the caller's memory at
`origin_addr` to displacement `target_disp` of the window at `target_rank`. -/
def MPI_Put (env : Env) (origin_addr origin_count : Int) (origin_type : MPI_Datatype)
    (target_rank target_disp target_count : Int) (target_type : MPI_Datatype) (win : Nat)
    (st : State) : State :=
  let data := mem_read st.mem env.self origin_addr (origin_count * MPI_Type_size origin_type).toNat
  { st with mem := mem_write st.mem (env.win_proc win target_rank)
              (env.win_base win target_rank + target_disp) data,
            calls := st.calls ++ [MPI_Call.Put origin_addr origin_count origin_type
              target_rank target_disp target_count target_type win] }

/-! ## `onesided.c`: get and put -/

/-- The function `ARMCI_Get` of `onesided.c`. -/
def ARMCI_Get (env : Env) (src dst size target : Int) (st : State) : Result Int :=
  match mem_region_lookup st.registry src target with
  | none => .error (.assertion, st)
  | some mreg =>
    match slice_at mreg target with
    | none => .error (.out_of_table, st)
    | some sl =>
      let disp := to_int (src - sl.base)
      if ¬ (disp ≥ 0 ∧ disp < sl.size) then .error (.assertion, st)
      else if ¬ (src ≥ sl.base) then .error (.assertion, st)
      else if ¬ (src + size ≤ sl.base + sl.size) then .error (.assertion, st)
      else
        let st1 := MPI_Win_lock .MPI_LOCK_EXCLUSIVE target 0 mreg.window st
        let st2 := MPI_Get env dst size .MPI_BYTE target disp size .MPI_BYTE mreg.window st1
        let st3 := MPI_Win_unlock target mreg.window st2
        .ok (0, st3)

/-- The function `ARMCI_Put` of `onesided.c`. -/
def ARMCI_Put (env : Env) (src dst size target : Int) (st : State) : Result Int :=
  match mem_region_lookup st.registry dst target with
  | none => .error (.assertion, st)
  | some mreg =>
    match slice_at mreg target with
    | none => .error (.out_of_table, st)
    | some sl =>
      let disp := to_int (dst - sl.base)
      if ¬ (disp ≥ 0 ∧ disp < sl.size) then .error (.assertion, st)
      else if ¬ (dst ≥ sl.base) then .error (.assertion, st)
      else if ¬ (dst + size ≤ sl.base + sl.size) then .error (.assertion, st)
      else
        let st1 := MPI_Win_lock .MPI_LOCK_EXCLUSIVE target 0 mreg.window st
        let st2 := MPI_Put env src size .MPI_BYTE target disp size .MPI_BYTE mreg.window st1
        let st3 := MPI_Win_unlock target mreg.window st2
        .ok (0, st3)

/-! ## `onesided.c`: local access epochs -/

/-- The function `ARMCI_Access_start` of `onesided.c`. -/
def ARMCI_Access_start (env : Env) (ptr : Int) (st : State) : Result Unit :=
  let me := env.comm_rank st.ARMCI_GROUP_WORLD.comm
  match mem_region_lookup st.registry ptr me with
  | none => .error (.assertion, st)
  | some mreg =>
    let grp_rank := env.win_group_rank mreg.window
    .ok ((), MPI_Win_lock .MPI_LOCK_EXCLUSIVE grp_rank 0 mreg.window st)

/-- The function `ARMCI_Access_end` of `onesided.c`. -/
def ARMCI_Access_end (env : Env) (ptr : Int) (st : State) : Result Unit :=
  let me := env.comm_rank st.ARMCI_GROUP_WORLD.comm
  match mem_region_lookup st.registry ptr me with
  | none => .error (.assertion, st)
  | some mreg =>
    let grp_rank := env.win_group_rank mreg.window
    .ok ((), MPI_Win_unlock grp_rank mreg.window st)

/-! ## Typed elements in memory -/

/-- The value of a little-endian byte string. -/
def le_decode (bs : List Nat) : Nat :=
  bs.foldr (fun b acc => b % 256 + 256 * acc) 0

/-- The `w` little-endian bytes of `v` (the low `8 * w` bits). -/
def le_encode (w : Nat) (v : Nat) : List Nat :=
  (List.range w).map (fun k => v / 256 ^ k % 256)

/-- The bit pattern of the `w`-byte element at address `a` of process `p`. -/
def load_elem (w : Nat) (mem : Int → Int → Nat) (p a : Int) : Nat :=
  le_decode (mem_read mem p a w)

/-- The bit patterns of `n` consecutive `w`-byte elements starting at address `a`. -/
def load_elems (w : Nat) (mem : Int → Int → Nat) (p a : Int) (n : Nat) : List Nat :=
  (List.range n).map (fun (i : Nat) => load_elem w mem p (a + (w : Int) * (i : Int)))

/-- The memory after storing the `w`-byte elements `vs` one after the other from address `a`
of process `p`. -/
def store_elems (w : Nat) (mem : Int → Int → Nat) (p a : Int) : List Nat → Int → Int → Nat
  | [] => mem
  | v :: vs => store_elems w (mem_write mem p a (le_encode w v)) p (a + (w : Int)) vs

/-- The signed value of a `w`-byte two's complement bit pattern. -/
def int_val (w : Nat) (bits : Nat) : Int :=
  if bits % 256 ^ w < 256 ^ w / 2 then ((bits % 256 ^ w : Nat) : Int)
  else ((bits % 256 ^ w : Nat) : Int) - ((256 ^ w : Nat) : Int)

/-- Reduction of an integer to the range of a `w`-byte signed integer. -/
def wrap (w : Nat) (v : Int) : Int :=
  (v + ((256 ^ w / 2 : Nat) : Int)) % ((256 ^ w : Nat) : Int) - ((256 ^ w / 2 : Nat) : Int)

/-- The product computed by `src[i]*s` on elements of a datatype, on bit patterns: two's
complement multiplication for the integer types, the floating-point unit otherwise. -/
def type_mul (env : Env) : MPI_Datatype → Nat → Nat → Nat
  | .MPI_BYTE, a, b => (a * b) % 256
  | .MPI_INT, a, b => (a * b) % 256 ^ 4
  | .MPI_LONG, a, b => (a * b) % 256 ^ 8
  | .MPI_FLOAT, a, b => env.fmul32 a b
  | .MPI_DOUBLE, a, b => env.fmul64 a b

/-- The reduction `MPI_SUM` on elements of a datatype, on bit patterns. -/
def type_sum (env : Env) : MPI_Datatype → Nat → Nat → Nat
  | .MPI_BYTE, a, b => (a + b) % 256
  | .MPI_INT, a, b => (a + b) % 256 ^ 4
  | .MPI_LONG, a, b => (a + b) % 256 ^ 8
  | .MPI_FLOAT, a, b => env.fadd32 a b
  | .MPI_DOUBLE, a, b => env.fadd64 a b

/-- The call `MPI_Accumulate`: element `i` of the target, at displacement
`target_disp + i * size` of the window at `target_rank`, becomes `op` of its value and
element `i` of the origin buffer, for `i < target_count`. -/
def MPI_Accumulate (env : Env) (origin : Origin) (origin_count : Int)
    (origin_type : MPI_Datatype) (target_rank target_disp target_count : Int)
    (target_type : MPI_Datatype) (op : MPI_Op) (win : Nat) (st : State) : State :=
  let w := (MPI_Type_size target_type).toNat
  let n := target_count.toNat
  let data := match origin with
    | .user a => load_elems w st.mem env.self a n
    | .scratch d => d
  let p := env.win_proc win target_rank
  let a := env.win_base win target_rank + target_disp
  let old := load_elems w st.mem p a n
  let new := match op with
    | .MPI_SUM => List.zipWith (type_sum env target_type) old data
  { st with mem := store_elems w st.mem p a new,
            calls := st.calls ++ [MPI_Call.Accumulate origin origin_count origin_type
              target_rank target_disp target_count target_type op win] }

/-! ## `armci.h`, `util.c` -/

/-- The tag `ARMCI_ACC_INT` of `enum ARMCI_Acc_e`. -/
def ARMCI_ACC_INT : Int := 0

/-- The tag `ARMCI_ACC_LNG` of `enum ARMCI_Acc_e`. -/
def ARMCI_ACC_LNG : Int := 1

/-- The tag `ARMCI_ACC_FLT` of `enum ARMCI_Acc_e`. -/
def ARMCI_ACC_FLT : Int := 2

/-- The tag `ARMCI_ACC_DBL` of `enum ARMCI_Acc_e`. -/
def ARMCI_ACC_DBL : Int := 3

/-- The tag `ARMCI_ACC_CPL` of `enum ARMCI_Acc_e`. -/
def ARMCI_ACC_CPL : Int := 4

/-- The tag `ARMCI_ACC_DCPL` of `enum ARMCI_Acc_e`. -/
def ARMCI_ACC_DCPL : Int := 5

/-- The function `ARMCI_Error` of `util.c`: prints the message and calls
`MPI_Abort (MPI_COMM_WORLD, code)`, which does not return. -/
def ARMCI_Error (_msg : String) (code : Int) (st : State) : Failure × State :=
  (.abort code, { st with calls := st.calls ++ [MPI_Call.Abort code] })

/-! ## `onesided.c`: accumulate -/

/-- The message passed to `ARMCI_Error` by `ARMCI_Acc`. -/
def acc_unsupported : String := "ARMCI_Acc() unsupported operation"

/-- The bit pattern of the value one in each datatype (`1`, `1L`, `1.0f`, `1.0`):
what `*scale == 1` compares against. -/
def type_one : MPI_Datatype → Nat
  | .MPI_FLOAT => 1065353216
  | .MPI_DOUBLE => 4607182418800017408
  | _ => 1

/-- The locals of `ARMCI_Acc` that are set by its `switch`. -/
structure acc_locals where
  type_size : Int
  type : MPI_Datatype
  count : Int
  scaled_data : Option (List Nat)
deriving DecidableEq, Repr

/-- One `case` of the `switch` of `ARMCI_Acc`, for the MPI datatype `ty`: sets `type_size`,
`type` and `count = bytes/type_size`; leaves `scaled_data` null when `*scale == 1`, and
otherwise fills a scratch buffer from `malloc (bytes)` with `src[i]*s` for `i < count`.
`malloc` is taken to succeed for a size that is not negative and to return null for a
negative one (which, converted to `size_t`, exceeds any memory). -/
def acc_case (env : Env) (ty : MPI_Datatype) (scale src bytes : Int) (st : State) :
    acc_locals :=
  let type_size := MPI_Type_size ty
  let count := Int.tdiv bytes type_size
  let s := load_elem type_size.toNat st.mem env.self scale
  if s = type_one ty then
    { type_size := type_size, type := ty, count := count, scaled_data := none }
  else
    let scl := (load_elems type_size.toNat st.mem env.self src count.toNat).map
      (fun x => type_mul env ty x s)
    { type_size := type_size, type := ty, count := count,
      scaled_data := if 0 ≤ bytes then some scl else none }

/-- The statement `if (scaled_data) src_data = scaled_data; else src_data = src;` of
`ARMCI_Acc`. -/
def acc_src_data (l : acc_locals) (src : Int) : Origin :=
  match l.scaled_data with
  | some scl => Origin.scratch scl
  | none => Origin.user src

/-- The `switch (datatype)` of `ARMCI_Acc`: four cases, and the default that calls
`ARMCI_Error`. -/
def acc_switch (env : Env) (datatype scale src bytes : Int) (st : State) :
    Except (Failure × State) acc_locals :=
  if datatype = ARMCI_ACC_INT then .ok (acc_case env .MPI_INT scale src bytes st)
  else if datatype = ARMCI_ACC_LNG then .ok (acc_case env .MPI_LONG scale src bytes st)
  else if datatype = ARMCI_ACC_FLT then .ok (acc_case env .MPI_FLOAT scale src bytes st)
  else if datatype = ARMCI_ACC_DBL then .ok (acc_case env .MPI_DOUBLE scale src bytes st)
  else .error (ARMCI_Error acc_unsupported 100 st)

/-- The function `ARMCI_Acc` of `onesided.c`. -/
def ARMCI_Acc (env : Env) (datatype scale src dst bytes proc : Int) (st : State) :
    Result Int :=
  match acc_switch env datatype scale src bytes st with
  | .error e => .error e
  | .ok l =>
    let src_data := acc_src_data l src
    match mem_region_lookup st.registry dst proc with
    | none => .error (.assertion, st)
    | some mreg =>
      if ¬ (Int.tmod bytes l.type_size = 0) then .error (.assertion, st)
      else
        match slice_at mreg proc with
        | none => .error (.out_of_table, st)
        | some sl =>
          let disp := to_int (dst - sl.base)
          if ¬ (disp ≥ 0 ∧ disp < sl.size) then .error (.assertion, st)
          else if ¬ (dst ≥ sl.base) then .error (.assertion, st)
          else if ¬ (dst + bytes ≤ sl.base + sl.size) then .error (.assertion, st)
          else
            let st1 := MPI_Win_lock .MPI_LOCK_EXCLUSIVE proc 0 mreg.window st
            let st2 := MPI_Accumulate env src_data l.count l.type proc disp l.count l.type
              .MPI_SUM mreg.window st1
            let st3 := MPI_Win_unlock proc mreg.window st2
            .ok (0, st3)

/-! ## Vocabulary of the properties -/

/-- The byte at displacement `k` of window `win` at rank `rank`. -/
def window_content (env : Env) (st : State) (win : Nat) (rank k : Int) : Nat :=
  st.mem (env.win_proc win rank) (env.win_base win rank + k)

/-- The range `[addr, addr + bytes)` lies wholly inside the slice. -/
def range_inside (sl : mem_region_slice_t) (addr bytes : Int) : Prop :=
  ∀ a : Int, addr ≤ a → a < addr + bytes → sl.base ≤ a ∧ a < sl.base + sl.size

/-- The address resolves to a record at `target`, and the range `[addr, addr + bytes)` lies
wholly inside that record's slice at `target`. -/
def resolves_in_range (registry : List mem_region_t) (addr bytes target : Int) : Prop :=
  ∃ mreg sl, mem_region_lookup registry addr target = some mreg ∧
    slice_at mreg target = some sl ∧ range_inside sl addr bytes

/-- A call is a one-sided operation (get, put or accumulate) on window `win` at `rank`. -/
def is_one_sided_on (win : Nat) (rank : Int) : MPI_Call → Bool
  | .Get _ _ _ r _ _ _ w => decide (w = win ∧ r = rank)
  | .Put _ _ _ r _ _ _ w => decide (w = win ∧ r = rank)
  | .Accumulate _ _ _ r _ _ _ _ w => decide (w = win ∧ r = rank)
  | _ => false

/-- The open epochs after the transport calls `calls`, starting from the epochs `es`. -/
def replay_epochs : List (Nat × Int) → List MPI_Call → List (Nat × Int)
  | es, [] => es
  | es, .Win_lock _ r _ w :: cs => replay_epochs ((w, r) :: es) cs
  | es, .Win_unlock r w :: cs => replay_epochs (es.erase (w, r)) cs
  | es, _ :: cs => replay_epochs es cs

/-- Every one-sided call among `calls` is made while an epoch on its window and target is
open, the epochs open before the first call being `es`. -/
def enclosed : List (Nat × Int) → List MPI_Call → Bool
  | _, [] => true
  | es, .Win_lock _ r _ w :: cs => enclosed ((w, r) :: es) cs
  | es, .Win_unlock r w :: cs => enclosed (es.erase (w, r)) cs
  | es, .Get _ _ _ r _ _ _ w :: cs => decide ((w, r) ∈ es) && enclosed es cs
  | es, .Put _ _ _ r _ _ _ w :: cs => decide ((w, r) ∈ es) && enclosed es cs
  | es, .Accumulate _ _ _ r _ _ _ _ w :: cs => decide ((w, r) ∈ es) && enclosed es cs
  | es, .Abort _ :: cs => enclosed es cs
  | es, .Barrier _ :: cs => enclosed es cs
  | es, .Comm_dup _ _ :: cs => enclosed es cs
  | es, .Comm_free _ :: cs => enclosed es cs

/-- A call of the interface of `onesided.c`. -/
inductive Call where
  | Access_start (ptr : Int)
  | Access_end (ptr : Int)
  | Get (src dst size target : Int)
  | Put (src dst size target : Int)
  | Acc (datatype scale src dst bytes proc : Int)
deriving DecidableEq, Repr

/-- The state after one call of the interface, or its failure. -/
def step (env : Env) : Call → State → Except (Failure × State) State
  | .Access_start ptr, st =>
    match ARMCI_Access_start env ptr st with
    | .ok r => .ok r.2
    | .error e => .error e
  | .Access_end ptr, st =>
    match ARMCI_Access_end env ptr st with
    | .ok r => .ok r.2
    | .error e => .error e
  | .Get src dst size target, st =>
    match ARMCI_Get env src dst size target st with
    | .ok r => .ok r.2
    | .error e => .error e
  | .Put src dst size target, st =>
    match ARMCI_Put env src dst size target st with
    | .ok r => .ok r.2
    | .error e => .error e
  | .Acc datatype scale src dst bytes proc, st =>
    match ARMCI_Acc env datatype scale src dst bytes proc st with
    | .ok r => .ok r.2
    | .error e => .error e

/-- The state after a sequence of calls of the interface made by one initiator; the first
failure ends the sequence. -/
def run (env : Env) : List Call → State → Except (Failure × State) State
  | [], st => .ok st
  | c :: cs, st =>
    match step env c st with
    | .ok st1 => run env cs st1
    | .error e => .error e

/-- At most one epoch is open per (window, target). -/
def at_most_one_epoch (st : State) : Prop := st.epochs.Nodup

instance (st : State) : Decidable (at_most_one_epoch st) :=
  inferInstanceAs (Decidable st.epochs.Nodup)

/-- The call is not an `ARMCI_Access_start` on a pointer whose (window, rank) already has
an epoch open. -/
def start_is_fresh (env : Env) : Call → State → Bool
  | .Access_start ptr, st =>
    match mem_region_lookup st.registry ptr (env.comm_rank st.ARMCI_GROUP_WORLD.comm) with
    | some mreg => decide ((mreg.window, env.win_group_rank mreg.window) ∉ st.epochs)
    | none => true
  | _, _ => true

/-- No `ARMCI_Access_start` of the sequence is made, at the time it is reached, on a
(window, rank) that already has an epoch open. -/
def starts_fresh (env : Env) : List Call → State → Bool
  | [], _ => true
  | c :: cs, st =>
    start_is_fresh env c st &&
      match step env c st with
      | .ok st1 => starts_fresh env cs st1
      | .error _ => true

/-- The tag is one of the six accumulate tags of `enum ARMCI_Acc_e`. -/
def is_acc_tag (datatype : Int) : Bool :=
  datatype = ARMCI_ACC_INT || datatype = ARMCI_ACC_LNG || datatype = ARMCI_ACC_FLT ||
    datatype = ARMCI_ACC_DBL || datatype = ARMCI_ACC_CPL || datatype = ARMCI_ACC_DCPL

/-- The MPI datatype of the four tags that `ARMCI_Acc` handles. -/
def acc_type (datatype : Int) : Option MPI_Datatype :=
  if datatype = ARMCI_ACC_INT then some .MPI_INT
  else if datatype = ARMCI_ACC_LNG then some .MPI_LONG
  else if datatype = ARMCI_ACC_FLT then some .MPI_FLOAT
  else if datatype = ARMCI_ACC_DBL then some .MPI_DOUBLE
  else none

/-- The scale and source buffer of one accumulate call. -/
structure acc_args where
  scale : Int
  src : Int
deriving DecidableEq, Repr

/-- The sequence of `ARMCI_Acc` calls with the given scales and sources onto the same
destination. -/
def acc_calls (datatype dst bytes proc : Int) (cs : List acc_args) : List Call :=
  cs.map (fun c => Call.Acc datatype c.scale c.src dst bytes proc)

/-- The exact sum over the calls of `s_k * src_k[i]`, the scales and sources being read as
`w`-byte signed integers from the memory `mem` of process `p`. -/
def scaled_sum (w : Nat) (mem : Int → Int → Nat) (p : Int) (i : Nat) (cs : List acc_args) : Int :=
  (cs.map (fun c => int_val w (load_elem w mem p c.scale) *
    int_val w (load_elem w mem p (c.src + (w : Int) * (i : Int))))).sum

/-- The address resolves to no record at `target`, or the range `[addr, addr + bytes)` is not
wholly inside the slice at `target` of the record it resolves to. -/
def unresolved_or_outside (registry : List mem_region_t) (addr bytes target : Int) : Prop :=
  mem_region_lookup registry addr target = none ∨
    ∃ mreg sl, mem_region_lookup registry addr target = some mreg ∧
      slice_at mreg target = some sl ∧ ¬ range_inside sl addr bytes

/-- One call took the state `st` to `st'` inside an epoch of its own on window `win` at rank
`target`: it added to the transport calls exactly the exclusive lock, the call `op` and the
unlock; `op` is a one-sided operation on that window and rank; the open epochs are those at
entry; and if every earlier one-sided call was made inside an open epoch, so is every call up
to the return. -/
def bracketed (st st' : State) (win : Nat) (target : Int) (op : MPI_Call) : Prop :=
  st'.calls = st.calls ++ [MPI_Call.Win_lock .MPI_LOCK_EXCLUSIVE target 0 win, op,
    MPI_Call.Win_unlock target win] ∧
  is_one_sided_on win target op = true ∧
  st'.epochs = st.epochs ∧
  ∀ e0, enclosed e0 st.calls = true → replay_epochs e0 st.calls = st.epochs →
    enclosed e0 st'.calls = true ∧ replay_epochs e0 st'.calls = st'.epochs

/-- The scale and the source buffer of one accumulate call (a `w`-byte scale and `n` elements
of `w` bytes, in the memory of the initiator) do not overlap the `n` target elements, which
start at address `a` of process `p`. -/
def acc_buffers_clear (env : Env) (p a : Int) (w n : Nat) (c : acc_args) : Prop :=
  env.self ≠ p ∨
    ((c.scale + (w : Int) ≤ a ∨ a + (w : Int) * (n : Int) ≤ c.scale) ∧
      (c.src + (w : Int) * (n : Int) ≤ a ∨ a + (w : Int) * (n : Int) ≤ c.src))

instance (env : Env) (p a : Int) (w n : Nat) (c : acc_args) :
    Decidable (acc_buffers_clear env p a w n c) :=
  inferInstanceAs (Decidable (_ ∨ _))

/-- The sum over the calls of `src_k[i] * s_k` on bit patterns. -/
def pattern_sum (w : Nat) (mem : Int → Int → Nat) (p : Int) (i : Nat) (cs : List acc_args) :
    Nat :=
  (cs.map (fun c => load_elem w mem p (c.src + (w : Int) * (i : Int)) *
    load_elem w mem p c.scale)).sum

/-! ## `util.c`: lifecycle, fences and barrier -/

/-- The handle `MPI_COMM_WORLD` (`mpi.h` is not among the sources; the value is the one of
MPICH, and only its being one fixed handle matters). -/
def MPI_COMM_WORLD : Nat := 1140850688

/-- The call `MPI_Comm_dup`: the transport creates a duplicate of `comm` and returns its
handle. -/
def MPI_Comm_dup (env : Env) (comm : Nat) (st : State) : Nat × State :=
  (env.comm_dup comm,
    { st with calls := st.calls ++ [MPI_Call.Comm_dup comm (env.comm_dup comm)] })

/-- The call `MPI_Barrier` on the communicator `comm`. -/
def MPI_Barrier (comm : Nat) (st : State) : State :=
  { st with calls := st.calls ++ [MPI_Call.Barrier comm] }

/-- The function `ARMCI_Init` of `util.c`. -/
def ARMCI_Init (env : Env) (st : State) : Result Int :=
  let r := MPI_Comm_dup env MPI_COMM_WORLD st
  let st1 := { r.2 with ARMCI_GROUP_WORLD := { r.2.ARMCI_GROUP_WORLD with comm := r.1 } }
  let st2 := { st1 with ARMCI_GROUP_WORLD :=
    { st1.ARMCI_GROUP_WORLD with rank := env.comm_rank st1.ARMCI_GROUP_WORLD.comm } }
  let st3 := { st2 with ARMCI_GROUP_WORLD :=
    { st2.ARMCI_GROUP_WORLD with size := env.comm_size st2.ARMCI_GROUP_WORLD.comm } }
  .ok (0, st3)

/-- The function `ARMCI_Init_args` of `util.c`: its body is `return 0;`. -/
def ARMCI_Init_args (_argc _argv : Int) (st : State) : Result Int :=
  .ok (0, st)

/-- The function `ARMCI_Finalize` of `util.c`: its body is `return 0;`. -/
def ARMCI_Finalize (st : State) : Result Int :=
  .ok (0, st)

/-- The function `ARMCI_Cleanup` of `util.c`: its body is `return;`. -/
def ARMCI_Cleanup (st : State) : Result Unit :=
  .ok ((), st)

/-- The function `ARMCI_Fence` of `util.c`: its body is `return;`. -/
def ARMCI_Fence (_proc : Int) (st : State) : Result Unit :=
  .ok ((), st)

/-- The function `ARMCI_AllFence` of `util.c`: its body is `return;`. -/
def ARMCI_AllFence (st : State) : Result Unit :=
  .ok ((), st)

/-- The function `ARMCI_Barrier` of `util.c`. -/
def ARMCI_Barrier (st : State) : Result Unit :=
  match ARMCI_AllFence st with
  | .error e => .error e
  | .ok r => .ok ((), MPI_Barrier MPI_COMM_WORLD r.2)

/-- The communicators that were obtained by duplication and not released since, after the
transport calls `calls`. -/
def held_comms (calls : List MPI_Call) : List Nat :=
  calls.foldl (fun held c =>
    match c with
    | .Comm_dup _ newcomm => newcomm :: held
    | .Comm_free comm => held.erase comm
    | _ => held) []

/-- Modelled from the spec: the default group ("One group is designated the default group
for allocations that do not name one").  `ARMCI_Group_set_default` is declared in `armci.h`;
the variable that holds the default group and the functions on it are not among the sources.
The runtime is the state together with that variable. -/
structure Runtime where
  st : State
  ARMCI_GROUP_DEFAULT : ARMCI_Group

/-- Modelled from the spec: `ARMCI_Group_set_default` designates `group` as the default
group. -/
def ARMCI_Group_set_default (group : ARMCI_Group) (rt : Runtime) : Runtime :=
  { rt with ARMCI_GROUP_DEFAULT := group }

/-! ## `message.c`: the binary tree of processes -/

/-- The four output locations of `armci_msg_bintree`, with the values they hold. -/
structure bintree_out where
  root : Int
  up : Int
  left : Int
  right : Int
deriving DecidableEq, Repr

/-- The function `armci_msg_bintree` of `message.c`.  `SCOPE_NODE` is the constant of that
name (`armci_msg.h` is not among the sources), `me` and `nproc` are the values returned by
`armci_msg_me ()` and `armci_msg_nproc ()`, and `out` holds the contents of the four output
locations before the call; the result holds their contents on return.  The arithmetic is
that of `int`. -/
def armci_msg_bintree (SCOPE_NODE scope me nproc : Int) (out : bintree_out) : bintree_out :=
  if scope = SCOPE_NODE then
    { out with root := 0, left := -1, right := -1 }
  else
    let root := 0
    let up := if me = 0 then -1 else Int.tdiv (to_int (me - 1)) 2
    let left := to_int (to_int (2 * me) + 1)
    let left := if left ≥ nproc then -1 else left
    let right := to_int (to_int (2 * me) + 2)
    let right := if right ≥ nproc then -1 else right
    { root := root, up := up, left := left, right := right }

/-! ## `tests/contrib/lu/lu.c`: the processor grid and the layout of the blocks -/

/-- The value of `(int) sqrt((double) nproc)`: for an `int` that is not negative the square
root in double precision truncates to the integer square root. -/
def lu_sqrt (nproc : Int) : Nat := Nat.sqrt nproc.toNat

/-- The loop of `main` that searches the processor grid, entered with `num_rows = rows`;
`none` stands for the division by zero in `nproc/num_rows`.  (The product
`num_rows*num_cols` is at most `nproc` and so exact in `int`.) -/
def lu_grid_loop (nproc : Int) : Nat → Option (Int × Int)
  | 0 => none
  | r + 1 =>
    let num_rows : Int := ((r + 1 : Nat) : Int)
    let num_cols := Int.tdiv nproc num_rows
    if num_rows * num_cols = nproc then some (num_rows, num_cols)
    else lu_grid_loop nproc r

/-- The processor grid `(num_rows, num_cols)` computed by `main`. -/
def lu_grid (nproc : Int) : Option (Int × Int) :=
  lu_grid_loop nproc (lu_sqrt nproc)

/-- The function `block_owner` of `lu.c`, with the globals `num_rows` and `num_cols` as
arguments. -/
def block_owner (num_rows num_cols I J : Int) : Int :=
  Int.tmod J num_cols + Int.tmod I num_rows * num_cols

/-- The globals of `lu.c` that the layout depends on. -/
structure lu_globals where
  n : Int
  block_size : Int
  nproc : Int
  num_rows : Int
  num_cols : Int
  nblocks : Int
  edge : Int
deriving DecidableEq, Repr

/-- The value of `nblocks` computed by `main`. -/
def lu_nblocks (n block_size : Int) : Int :=
  let nblocks := Int.tdiv n block_size
  if to_int (block_size * nblocks) ≠ n then to_int (nblocks + 1) else nblocks

/-- The value of `edge` computed by `main` (and again by `get_remote`). -/
def lu_edge (n block_size : Int) : Int :=
  let edge := Int.tmod n block_size
  if edge = 0 then block_size else edge

/-- The part of `main` that sets the globals from `n`, `block_size` and `nproc`; `none`
stands for the abort when `n` is not a multiple of `block_size` and for a division by zero
in the search of the grid. -/
def lu_setup (n block_size nproc : Int) : Option lu_globals :=
  if Int.tmod n block_size ≠ 0 then none
  else
    match lu_grid nproc with
    | none => none
    | some (num_rows, num_cols) =>
      some { n := n, block_size := block_size, nproc := nproc, num_rows := num_rows,
             num_cols := num_cols, nblocks := lu_nblocks n block_size,
             edge := lu_edge n block_size }

/-- The number of doubles `size` of the block `(i, j)`, as computed in `main` (twice) and in
`get_remote`; the products are those of `int`. -/
def lu_size (g : lu_globals) (i j : Int) : Int :=
  if i = g.nblocks - 1 ∧ j = g.nblocks - 1 then to_int (g.edge * g.edge)
  else if i = g.nblocks - 1 ∨ j = g.nblocks - 1 then to_int (g.edge * g.block_size)
  else to_int (g.block_size * g.block_size)

/-- The pairs `(i, j)` in the order of the loops
`for (i=0;i<nblocks;i++) for (j=0;j<nblocks;j++)`. -/
def lu_blocks (nblocks : Int) : List (Nat × Nat) :=
  List.product (List.range nblocks.toNat) (List.range nblocks.toNat)

/-- The index `i+j*nblocks` into the array `a`, computed in `int`. -/
def lu_index (g : lu_globals) (i j : Int) : Int :=
  to_int (i + to_int (j * g.nblocks))

/-- The loop of `main` that computes `proc_bytes` on the process `me`, over the blocks
`blocks`: `proc_bytes += size*sizeof(double)` for each block owned by `me`, the sum being
narrowed to `int`. -/
def lu_proc_bytes_loop (g : lu_globals) (me : Int) (blocks : List (Nat × Nat))
    (proc_bytes : Int) : Int :=
  blocks.foldl (fun pb b =>
    if block_owner g.num_rows g.num_cols (b.1 : Int) (b.2 : Int) = me then
      to_int (pb + lu_size g (b.1 : Int) (b.2 : Int) * 8)
    else pb) proc_bytes

/-- The value of the global `proc_bytes` on the process `me` (it starts at 0). -/
def lu_proc_bytes (g : lu_globals) (me : Int) : Int :=
  lu_proc_bytes_loop g me (lu_blocks g.nblocks) 0

/-- The arrays `ptr_loc` (indexed by process) and `a` (indexed by `i+j*nblocks`) of
`main`, holding addresses. -/
structure lu_arrays where
  ptr_loc : Int → Int
  a : Int → Int

/-- The loop of `main` that lays out the blocks, over the blocks `blocks`:
`a[i+j*nblocks] = ptr_loc[block_owner(i, j)]; ptr_loc[block_owner(i, j)] += size;`
(an addition to a `double *`, so of `size*8` bytes). -/
def lu_layout_loop (g : lu_globals) (blocks : List (Nat × Nat)) (s : lu_arrays) : lu_arrays :=
  blocks.foldl (fun s b =>
    let owner := block_owner g.num_rows g.num_cols (b.1 : Int) (b.2 : Int)
    { a := Function.update s.a (lu_index g (b.1 : Int) (b.2 : Int)) (s.ptr_loc owner),
      ptr_loc := Function.update s.ptr_loc owner
        (s.ptr_loc owner + lu_size g (b.1 : Int) (b.2 : Int) * 8) }) s

/-- The array `a` after the layout loop of `main`: `ptr` holds the base addresses returned
by `ARMCI_Malloc`, `a0` the contents of `a` as returned by `malloc`. -/
def lu_a (g : lu_globals) (ptr a0 : Int → Int) : Int → Int :=
  (lu_layout_loop g (lu_blocks g.nblocks) { ptr_loc := ptr, a := a0 }).a

/-- The function `get_remote` of `lu.c` (without `MPI2_ONESIDED`); the timing and the
counter of gets are left out, the value returned by `ARMCI_Get` is dropped. -/
def get_remote (env : Env) (g : lu_globals) (a : Int → Int) (buf I J : Int) (st : State) :
    Result Unit :=
  let proc_owner := block_owner g.num_rows g.num_cols I J
  let size := lu_size g I J
  let size := to_int (size * 8)
  match ARMCI_Get env (a (lu_index g I J)) buf size proc_owner st with
  | .ok r => .ok ((), r.2)
  | .error e => .error e

/-- Modelled from the spec: the registry after the call `ARMCI_Malloc (ptr, proc_bytes)` of
`main` (`ARMCI_Malloc` is declared in `armci.h`, its definition is not among the sources).
"Each member allocates `size` bytes", and the record carries a slice table "each entry giving
(base_address_at_that_participant, byte_size_at_that_participant)": the slice of process `p`
has the base `ptr p` and the size `proc_bytes` computed on `p`. -/
def lu_registry (g : lu_globals) (win : Nat) (ptr : Int → Int) : List mem_region_t :=
  [{ window := win,
     slices := (List.range g.nproc.toNat).map (fun (p : Nat) =>
       { base := ptr (p : Int), size := lu_proc_bytes g (p : Int) }) }]

/-- The number of blocks owned by the process `p`. -/
def lu_owned (g : lu_globals) (p : Int) : Nat :=
  (lu_blocks g.nblocks).countP
    (fun b => decide (block_owner g.num_rows g.num_cols (b.1 : Int) (b.2 : Int) = p))

/-! ## A small job used for the concrete instances

Two processes, one allocation of 64 bytes on each (window 7, at address 1000 on process 0 and
2000 on process 1); the initiator is process 1.  Process 1 holds, outside its slice, the
eight 64-bit integers 1, ..., 8 at addresses 0, 8, ..., 56 and the 64-bit integer 1 at
address 100. -/

/-- The registry of the example: one record. -/
def ex_registry : List mem_region_t :=
  [{ window := 7, slices := [{ base := 1000, size := 64 }, { base := 2000, size := 64 }] }]

/-- The transport of the example: rank `r` of the window is process `r`. -/
def ex_env : Env :=
  { self := 1, comm_rank := fun _ => 1, comm_size := fun _ => 2, comm_dup := fun _ => 1,
    win_group_rank := fun _ => 1,
    win_proc := fun _ r => r, win_base := fun _ r => if r = 0 then 1000 else 2000,
    fmul32 := fun _ _ => 0, fadd32 := fun _ _ => 0,
    fmul64 := fun _ _ => 0, fadd64 := fun _ _ => 0 }

/-- The memory of the example. -/
def ex_mem : Int → Int → Nat :=
  fun p a =>
    if p = 1 then
      if 0 ≤ a ∧ a < 64 ∧ a % 8 = 0 then (a / 8 + 1).toNat
      else if a = 100 then 1 else 0
    else 0

/-- The state of the example: no epoch open, no call made. -/
def ex_state : State :=
  { ARMCI_GROUP_WORLD := { comm := 1, rank := 1, size := 2 },
    registry := ex_registry, mem := ex_mem, epochs := [], calls := [] }

/-- A state of the example job in which process 0 holds the byte 5 everywhere and the
initiator (process 1) holds the byte 9 at address 2001, inside its own slice. -/
def ex_state_own_slice : State :=
  { ARMCI_GROUP_WORLD := { comm := 1, rank := 1, size := 2 },
    registry := ex_registry,
    mem := fun p a => if p = 0 then 5 else if a = 2001 then 9 else 0,
    epochs := [], calls := [] }

/-- The state of a process in which no function of the library has been called: the world
group is zero-initialised, the registry is empty. -/
def ex_fresh : State :=
  { ARMCI_GROUP_WORLD := { comm := 0, rank := 0, size := 0 },
    registry := [], mem := fun _ _ => 0, epochs := [], calls := [] }

/-- The runtime of the example job, with the world group as the default group. -/
def ex_runtime : Runtime :=
  { st := ex_state, ARMCI_GROUP_DEFAULT := ex_state.ARMCI_GROUP_WORLD }

/-- A proper sub-group of the example job: the initiator alone, on communicator 5. -/
def ex_subgroup : ARMCI_Group :=
  { comm := 5, rank := 0, size := 1 }

/-! ## The registry lookup -/

theorem to_int_of_range (x : Int) (h0 : 0 ≤ x) (h1 : x < 2147483648) : to_int x = x := by
  unfold to_int
  omega

theorem slice_at_mem {mreg : mem_region_t} {rank : Int} {sl : mem_region_slice_t}
    (h : slice_at mreg rank = some sl) : sl ∈ mreg.slices := by
  unfold slice_at at h
  split at h
  · exact List.getElem?_mem h
  · cases h

theorem lookup_sound {registry : List mem_region_t} {ptr proc : Int} {mreg : mem_region_t}
    (h : mem_region_lookup registry ptr proc = some mreg) :
    mreg ∈ registry ∧ ∃ sl, slice_at mreg proc = some sl ∧ sl.base ≤ ptr ∧
      ptr < sl.base + sl.size := by
  unfold mem_region_lookup at h
  refine ⟨List.mem_of_find?_eq_some h, ?_⟩
  have hb := List.find?_some h
  unfold brackets at hb
  split at hb
  · rename_i sl hsl
    exact ⟨sl, hsl, of_decide_eq_true hb⟩
  · cases hb

theorem int_sizes_slice {registry : List mem_region_t} {mreg : mem_region_t}
    {sl : mem_region_slice_t} (h : int_sizes registry = true) (hm : mreg ∈ registry)
    (hs : sl ∈ mreg.slices) : sl.size < 2147483648 := by
  unfold int_sizes at h
  rw [List.all_eq_true] at h
  have h1 := h mreg hm
  rw [List.all_eq_true] at h1
  exact (of_decide_eq_true (h1 sl hs)).2

theorem range_inside_iff {sl : mem_region_slice_t} {addr bytes : Int} (hb : 0 ≤ bytes)
    (h0 : sl.base ≤ addr) (h1 : addr < sl.base + sl.size) :
    range_inside sl addr bytes ↔ addr + bytes ≤ sl.base + sl.size := by
  unfold range_inside
  constructor
  · intro h
    by_cases hz : bytes = 0
    · omega
    · have := h (addr + bytes - 1) (by omega) (by omega)
      omega
  · intro h a ha1 ha2
    omega

/-! ## Get and put: outcome in closed form -/

theorem ARMCI_Get_eq (env : Env) (src dst size target : Int) (st : State)
    {mreg : mem_region_t} {sl : mem_region_slice_t}
    (hl : mem_region_lookup st.registry src target = some mreg)
    (hs : slice_at mreg target = some sl) (hsz : sl.size < 2147483648) :
    ARMCI_Get env src dst size target st =
      if src + size ≤ sl.base + sl.size then
        .ok (0, MPI_Win_unlock target mreg.window
          (MPI_Get env dst size .MPI_BYTE target (src - sl.base) size .MPI_BYTE mreg.window
            (MPI_Win_lock .MPI_LOCK_EXCLUSIVE target 0 mreg.window st)))
      else .error (.assertion, st) := by
  obtain ⟨_, sl1, hs1, hb0, hb1⟩ := lookup_sound hl
  rw [hs] at hs1
  cases hs1
  have hd : to_int (src - sl.base) = src - sl.base := to_int_of_range _ (by omega) (by omega)
  unfold ARMCI_Get
  simp only [hl, hs, hd]
  have h1 : src - sl.base ≥ 0 ∧ src - sl.base < sl.size := ⟨by omega, by omega⟩
  have h2 : src ≥ sl.base := hb0
  simp only [h1, h2, not_true_eq_false, if_false, and_self]
  by_cases h3 : src + size ≤ sl.base + sl.size
  · simp [h3]
  · simp [h3]

theorem ARMCI_Put_eq (env : Env) (src dst size target : Int) (st : State)
    {mreg : mem_region_t} {sl : mem_region_slice_t}
    (hl : mem_region_lookup st.registry dst target = some mreg)
    (hs : slice_at mreg target = some sl) (hsz : sl.size < 2147483648) :
    ARMCI_Put env src dst size target st =
      if dst + size ≤ sl.base + sl.size then
        .ok (0, MPI_Win_unlock target mreg.window
          (MPI_Put env src size .MPI_BYTE target (dst - sl.base) size .MPI_BYTE mreg.window
            (MPI_Win_lock .MPI_LOCK_EXCLUSIVE target 0 mreg.window st)))
      else .error (.assertion, st) := by
  obtain ⟨_, sl1, hs1, hb0, hb1⟩ := lookup_sound hl
  rw [hs] at hs1
  cases hs1
  have hd : to_int (dst - sl.base) = dst - sl.base := to_int_of_range _ (by omega) (by omega)
  unfold ARMCI_Put
  simp only [hl, hs, hd]
  have h1 : dst - sl.base ≥ 0 ∧ dst - sl.base < sl.size := ⟨by omega, by omega⟩
  have h2 : dst ≥ sl.base := hb0
  simp only [h1, h2, not_true_eq_false, if_false, and_self]
  by_cases h3 : dst + size ≤ sl.base + sl.size
  · simp [h3]
  · simp [h3]

theorem ARMCI_Get_none (env : Env) (src dst size target : Int) (st : State)
    (hl : mem_region_lookup st.registry src target = none) :
    ARMCI_Get env src dst size target st = .error (.assertion, st) := by
  unfold ARMCI_Get
  simp only [hl]

theorem ARMCI_Put_none (env : Env) (src dst size target : Int) (st : State)
    (hl : mem_region_lookup st.registry dst target = none) :
    ARMCI_Put env src dst size target st = .error (.assertion, st) := by
  unfold ARMCI_Put
  simp only [hl]

/-! ## C1: get and put fail exactly on an unresolved or out-of-range address -/

theorem cases_in_range (registry : List mem_region_t) (addr bytes target : Int)
    (hb : 0 ≤ bytes) :
    (unresolved_or_outside registry addr bytes target ∧
      (mem_region_lookup registry addr target = none ∨
        ∃ mreg sl, mem_region_lookup registry addr target = some mreg ∧
          slice_at mreg target = some sl ∧ mreg ∈ registry ∧
          ¬ addr + bytes ≤ sl.base + sl.size)) ∨
    (¬ unresolved_or_outside registry addr bytes target ∧
      ∃ mreg sl, mem_region_lookup registry addr target = some mreg ∧
        slice_at mreg target = some sl ∧ mreg ∈ registry ∧
        addr + bytes ≤ sl.base + sl.size) := by
  cases hl : mem_region_lookup registry addr target with
  | none => exact Or.inl ⟨Or.inl hl, Or.inl rfl⟩
  | some mreg =>
    obtain ⟨hm, sl, hs, h0, h1⟩ := lookup_sound hl
    have hiff := @range_inside_iff sl addr bytes hb h0 h1
    by_cases h : addr + bytes ≤ sl.base + sl.size
    · right
      refine ⟨?_, mreg, sl, rfl, hs, hm, h⟩
      rintro (hn | ⟨m2, s2, hm2, hs2, hr⟩)
      · rw [hl] at hn
        cases hn
      · rw [hl] at hm2
        cases hm2
        rw [hs] at hs2
        cases hs2
        exact hr (hiff.mpr h)
    · left
      refine ⟨Or.inr ⟨mreg, sl, hl, hs, fun hr => h (hiff.mp hr)⟩, Or.inr ⟨mreg, sl, rfl, hs, hm, h⟩⟩

/-- C1. For every registry (with slice sizes of type `int`), address, byte count `>= 0` and
target rank: `ARMCI_Get` and `ARMCI_Put` fail if and only if the address resolves to no
record at the target or the range `[address, address + bytes)` is not wholly inside that
record's slice at the target; the failure is an assertion failure in the unchanged state (no
transport call was made); otherwise they return 0 after issuing, on the record's window, the
lock, the byte transfer of `bytes` bytes at displacement `address - base`, and the unlock. -/
theorem C1_get_put_fail_iff_unresolved_or_outside (env : Env) (st : State)
    (addr buf bytes target : Int) (hbytes : 0 ≤ bytes)
    (hreg : int_sizes st.registry = true) :
    ((∃ e, ARMCI_Get env addr buf bytes target st = .error e) ↔
      unresolved_or_outside st.registry addr bytes target) ∧
    ((∃ e, ARMCI_Put env buf addr bytes target st = .error e) ↔
      unresolved_or_outside st.registry addr bytes target) ∧
    (unresolved_or_outside st.registry addr bytes target →
      ARMCI_Get env addr buf bytes target st = .error (.assertion, st) ∧
      ARMCI_Put env buf addr bytes target st = .error (.assertion, st)) ∧
    (¬ unresolved_or_outside st.registry addr bytes target →
      ∃ mreg sl, mem_region_lookup st.registry addr target = some mreg ∧
        slice_at mreg target = some sl ∧
        (∃ st', ARMCI_Get env addr buf bytes target st = .ok (0, st') ∧
          st'.calls = st.calls ++
            [MPI_Call.Win_lock .MPI_LOCK_EXCLUSIVE target 0 mreg.window,
             MPI_Call.Get buf bytes .MPI_BYTE target (addr - sl.base) bytes .MPI_BYTE mreg.window,
             MPI_Call.Win_unlock target mreg.window]) ∧
        (∃ st', ARMCI_Put env buf addr bytes target st = .ok (0, st') ∧
          st'.calls = st.calls ++
            [MPI_Call.Win_lock .MPI_LOCK_EXCLUSIVE target 0 mreg.window,
             MPI_Call.Put buf bytes .MPI_BYTE target (addr - sl.base) bytes .MPI_BYTE mreg.window,
             MPI_Call.Win_unlock target mreg.window])) := by
  rcases cases_in_range st.registry addr bytes target hbytes with
    ⟨hbad, hn | ⟨mreg, sl, hl, hs, hm, h⟩⟩ | ⟨hgood, mreg, sl, hl, hs, hm, h⟩
  · have hg := ARMCI_Get_none env addr buf bytes target st hn
    have hp := ARMCI_Put_none env buf addr bytes target st hn
    refine ⟨⟨fun _ => hbad, fun _ => ⟨_, hg⟩⟩, ⟨fun _ => hbad, fun _ => ⟨_, hp⟩⟩,
      fun _ => ⟨hg, hp⟩, fun hc => absurd hbad hc⟩
  · have hsz := int_sizes_slice hreg hm (slice_at_mem hs)
    have hg := ARMCI_Get_eq env addr buf bytes target st hl hs hsz
    have hp := ARMCI_Put_eq env buf addr bytes target st hl hs hsz
    rw [if_neg h] at hg hp
    refine ⟨⟨fun _ => hbad, fun _ => ⟨_, hg⟩⟩, ⟨fun _ => hbad, fun _ => ⟨_, hp⟩⟩,
      fun _ => ⟨hg, hp⟩, fun hc => absurd hbad hc⟩
  · have hsz := int_sizes_slice hreg hm (slice_at_mem hs)
    have hg := ARMCI_Get_eq env addr buf bytes target st hl hs hsz
    have hp := ARMCI_Put_eq env buf addr bytes target st hl hs hsz
    rw [if_pos h] at hg hp
    refine ⟨⟨?_, fun hc => absurd hc hgood⟩, ⟨?_, fun hc => absurd hc hgood⟩,
      fun hc => absurd hc hgood, fun _ => ⟨mreg, sl, hl, hs, ⟨_, hg, ?_⟩, ⟨_, hp, ?_⟩⟩⟩
    · rintro ⟨e, he⟩
      rw [hg] at he
      cases he
    · rintro ⟨e, he⟩
      rw [hp] at he
      cases he
    · simp [MPI_Win_unlock, MPI_Get, MPI_Win_lock]
    · simp [MPI_Win_unlock, MPI_Put, MPI_Win_lock]

/-- Witness of C1 in the example job: 8 bytes at the base of the slice of rank 0 are in
range, and the get returns 0. -/
theorem C1_witness :
    (0 : Int) ≤ 8 ∧ int_sizes ex_state.registry = true ∧
    ∃ st', ARMCI_Get ex_env 1000 0 8 0 ex_state = .ok (0, st') := by
  refine ⟨by decide, by decide, ?_⟩
  have h := (C1_get_put_fail_iff_unresolved_or_outside ex_env ex_state 1000 0 8 0
    (by decide) (by decide)).1
  cases hg : ARMCI_Get ex_env 1000 0 8 0 ex_state with
  | ok r =>
    obtain ⟨v, st'⟩ := r
    have hv : v = 0 := by
      have h3 := (C1_get_put_fail_iff_unresolved_or_outside ex_env ex_state 1000 0 8 0
        (by decide) (by decide)).2.2.2
      by_cases hb : unresolved_or_outside ex_state.registry 1000 8 0
      · rw [(h.mpr hb).choose_spec] at hg
        cases hg
      · obtain ⟨_, _, _, _, ⟨st2, h5, _⟩, _⟩ := h3 hb
        rw [h5] at hg
        cases hg
        rfl
    exact ⟨st', by rw [hv]⟩
  | error e =>
    exfalso
    rcases h.mp ⟨e, hg⟩ with hn | ⟨mreg, sl, hl, hs, hr⟩
    · revert hn
      decide
    · have hl2 : mem_region_lookup ex_state.registry 1000 0 = some
          { window := 7, slices := [{ base := 1000, size := 64 }, { base := 2000, size := 64 }] } := by
        decide
      rw [hl2] at hl
      cases hl
      have hs2 : slice_at
          { window := 7, slices := [{ base := 1000, size := 64 }, { base := 2000, size := 64 }] } 0 =
          some { base := 1000, size := 64 } := by decide
      rw [hs2] at hs
      cases hs
      apply hr
      intro a h1 h2
      constructor
      · exact h1
      · show a < 1000 + 64
        omega

/-! ## Memory -/

theorem mem_read_length (mem : Int → Int → Nat) (p a : Int) (n : Nat) :
    (mem_read mem p a n).length = n := by
  simp [mem_read]

theorem mem_write_outside (mem : Int → Int → Nat) (p a : Int) (bs : List Nat) (q x : Int)
    (h : ¬ (q = p ∧ a ≤ x ∧ x < a + (bs.length : Int))) :
    mem_write mem p a bs q x = mem q x := by
  unfold mem_write
  rw [if_neg h]

theorem mem_write_inside (mem : Int → Int → Nat) (p a : Int) (bs : List Nat) (i : Nat)
    (h : i < bs.length) : mem_write mem p a bs p (a + (i : Int)) = bs.getD i 0 := by
  unfold mem_write
  have hc : p = p ∧ a ≤ a + (i : Int) ∧ a + (i : Int) < a + (bs.length : Int) :=
    ⟨rfl, by omega, by omega⟩
  rw [if_pos hc]
  congr 1
  omega

theorem mem_read_congr (m1 m2 : Int → Int → Nat) (p a : Int) (n : Nat)
    (h : ∀ i : Nat, i < n → m1 p (a + (i : Int)) = m2 p (a + (i : Int))) :
    mem_read m1 p a n = mem_read m2 p a n := by
  unfold mem_read
  apply List.map_congr_left
  intro i hi
  exact h i (List.mem_range.mp hi)

theorem mem_read_write_same (mem : Int → Int → Nat) (p a : Int) (bs : List Nat) :
    mem_read (mem_write mem p a bs) p a bs.length = bs := by
  apply List.ext_getElem
  · simp [mem_read]
  · intro i h1 h2
    simp only [mem_read, List.getElem_map, List.getElem_range]
    rw [mem_write_inside mem p a bs i h2]
    simp [List.getD_eq_getElem?_getD, h2]

/-! ## C2: put then get -/

/-- C2. Put-then-get round trip: for every address that is in range at the target and every
byte count `n >= 0`, an `ARMCI_Put` of the `n` bytes `B` of a local buffer to that address
followed by an `ARMCI_Get` of `n` bytes from the same address at the same target, by the same
initiator, both return 0, and the local destination then holds exactly `B`. -/
theorem C2_put_then_get_round_trip (env : Env) (st : State)
    (addr src_buf dst_buf n target : Int) (hn : 0 ≤ n)
    (hreg : int_sizes st.registry = true)
    (hin : resolves_in_range st.registry addr n target) :
    ∃ st1 st2, ARMCI_Put env src_buf addr n target st = .ok (0, st1) ∧
      ARMCI_Get env addr dst_buf n target st1 = .ok (0, st2) ∧
      mem_read st2.mem env.self dst_buf n.toNat = mem_read st.mem env.self src_buf n.toNat := by
  obtain ⟨mreg, sl, hl, hs, hr⟩ := hin
  obtain ⟨hm, sl1, hs1, h0, h1⟩ := lookup_sound hl
  rw [hs] at hs1
  cases hs1
  have hle := (range_inside_iff hn h0 h1).mp hr
  have hsz := int_sizes_slice hreg hm (slice_at_mem hs)
  have hp := ARMCI_Put_eq env src_buf addr n target st hl hs hsz
  rw [if_pos hle] at hp
  have hg := ARMCI_Get_eq env addr dst_buf n target
    (MPI_Win_unlock target mreg.window
      (MPI_Put env src_buf n .MPI_BYTE target (addr - sl.base) n .MPI_BYTE mreg.window
        (MPI_Win_lock .MPI_LOCK_EXCLUSIVE target 0 mreg.window st))) hl hs hsz
  rw [if_pos hle] at hg
  refine ⟨_, _, hp, hg, ?_⟩
  simp only [MPI_Win_unlock, MPI_Get, MPI_Put, MPI_Win_lock, MPI_Type_size, mul_one]
  have hlen : (mem_read st.mem env.self src_buf n.toNat).length = n.toNat :=
    mem_read_length _ _ _ _
  have e1 := mem_read_write_same st.mem (env.win_proc mreg.window target)
    (env.win_base mreg.window target + (addr - sl.base))
    (mem_read st.mem env.self src_buf n.toNat)
  rw [hlen] at e1
  rw [e1]
  have e2 := mem_read_write_same
    (mem_write st.mem (env.win_proc mreg.window target)
      (env.win_base mreg.window target + (addr - sl.base))
      (mem_read st.mem env.self src_buf n.toNat)) env.self dst_buf
    (mem_read st.mem env.self src_buf n.toNat)
  rw [hlen] at e2
  exact e2


theorem ex_resolves (a n : Int) (ha : 1000 ≤ a) (hb : a < 1064)
    (hc : a + n ≤ 1064) : resolves_in_range ex_state.registry a n 0 := by
  refine ⟨{ window := 7, slices := [{ base := 1000, size := 64 }, { base := 2000, size := 64 }] },
    { base := 1000, size := 64 }, ?_, by decide, ?_⟩
  · have hbr : brackets a 0
        { window := 7, slices := [{ base := 1000, size := 64 }, { base := 2000, size := 64 }] } =
        true := by
      have hs : slice_at
          { window := 7, slices := [{ base := 1000, size := 64 }, { base := 2000, size := 64 }] } 0 =
          some { base := 1000, size := 64 } := by decide
      unfold brackets
      rw [hs]
      exact decide_eq_true ⟨ha, hb⟩
    show List.find? (brackets a 0) ex_registry = _
    unfold ex_registry
    rw [List.find?_cons_of_pos _ hbr]
  · intro x h1 h2
    constructor
    · exact le_trans ha h1
    · show x < 1000 + 64
      omega

/-- Witness of C2 in the example job: the 8 bytes at address 0 of the initiator are put at
the base of the slice of rank 0 and got back at address 200. -/
theorem C2_witness :
    (0 : Int) ≤ 8 ∧ int_sizes ex_state.registry = true ∧
    resolves_in_range ex_state.registry 1000 8 0 ∧
    ∃ st1 st2, ARMCI_Put ex_env 0 1000 8 0 ex_state = .ok (0, st1) ∧
      ARMCI_Get ex_env 1000 200 8 0 st1 = .ok (0, st2) ∧
      mem_read st2.mem ex_env.self 200 (8 : Int).toNat =
        mem_read ex_state.mem ex_env.self 0 (8 : Int).toNat :=
  ⟨by decide, by decide, ex_resolves 1000 8 (by decide) (by decide) (by decide),
    C2_put_then_get_round_trip ex_env ex_state 1000 0 200 8 0 (by decide) (by decide)
      (ex_resolves 1000 8 (by decide) (by decide) (by decide))⟩

/-! ## C3: what put and get change -/

/-- C3 (as amended). With the remote address resolving to a record at the target, at offset
`d = address - slice base`, and `n` the byte count: after a successful `ARMCI_Put` the bytes
at window displacements `d .. d+n-1` of the target hold the source bytes, and no other byte
of any memory has changed; in particular every other byte of the target's slice is unchanged,
the slice of every rank held by another process is unchanged, and the caller's source buffer
is unchanged when it does not overlap the bytes written.  After a successful `ARMCI_Get` no
byte of any memory has changed other than the `n` bytes of the caller's destination buffer;
in particular window contents that are not in that buffer are unchanged. -/
theorem C3_put_get_frame (env : Env) (st : State) (buf addr size target : Int)
    (mreg : mem_region_t) (sl : mem_region_slice_t)
    (hreg : int_sizes st.registry = true)
    (hl : mem_region_lookup st.registry addr target = some mreg)
    (hs : slice_at mreg target = some sl) :
    (∀ r st', ARMCI_Put env buf addr size target st = .ok (r, st') →
      (∀ i : Nat, i < size.toNat →
        window_content env st' mreg.window target (addr - sl.base + (i : Int)) =
          st.mem env.self (buf + (i : Int))) ∧
      (∀ q x, ¬ (q = env.win_proc mreg.window target ∧
          env.win_base mreg.window target + (addr - sl.base) ≤ x ∧
          x < env.win_base mreg.window target + (addr - sl.base) + (size.toNat : Int)) →
        st'.mem q x = st.mem q x) ∧
      (∀ k, (k < addr - sl.base ∨ addr - sl.base + (size.toNat : Int) ≤ k) →
        window_content env st' mreg.window target k =
          window_content env st mreg.window target k) ∧
      (∀ rank k, env.win_proc mreg.window rank ≠ env.win_proc mreg.window target →
        window_content env st' mreg.window rank k =
          window_content env st mreg.window rank k) ∧
      ((env.self ≠ env.win_proc mreg.window target ∨
          buf + (size.toNat : Int) ≤ env.win_base mreg.window target + (addr - sl.base) ∨
          env.win_base mreg.window target + (addr - sl.base) + (size.toNat : Int) ≤ buf) →
        mem_read st'.mem env.self buf size.toNat = mem_read st.mem env.self buf size.toNat)) ∧
    (∀ r st', ARMCI_Get env addr buf size target st = .ok (r, st') →
      (∀ q x, ¬ (q = env.self ∧ buf ≤ x ∧ x < buf + (size.toNat : Int)) →
        st'.mem q x = st.mem q x) ∧
      (∀ win rank k, (env.win_proc win rank ≠ env.self ∨ env.win_base win rank + k < buf ∨
          buf + (size.toNat : Int) ≤ env.win_base win rank + k) →
        window_content env st' win rank k = window_content env st win rank k)) := by
  obtain ⟨hm, sl1, hs1, h0, h1⟩ := lookup_sound hl
  rw [hs] at hs1
  cases hs1
  have hsz := int_sizes_slice hreg hm (slice_at_mem hs)
  constructor
  · intro r st' hput
    rw [ARMCI_Put_eq env buf addr size target st hl hs hsz] at hput
    split at hput
    swap
    · cases hput
    cases hput
    have hlen : (mem_read st.mem env.self buf size.toNat).length = size.toNat :=
      mem_read_length _ _ _ _
    have hframe : ∀ q x, ¬ (q = env.win_proc mreg.window target ∧
          env.win_base mreg.window target + (addr - sl.base) ≤ x ∧
          x < env.win_base mreg.window target + (addr - sl.base) + (size.toNat : Int)) →
        mem_write st.mem (env.win_proc mreg.window target)
          (env.win_base mreg.window target + (addr - sl.base))
          (mem_read st.mem env.self buf size.toNat) q x = st.mem q x := by
      intro q x hq
      apply mem_write_outside
      rw [hlen]
      exact hq
    simp only [MPI_Win_unlock, MPI_Put, MPI_Win_lock, MPI_Type_size, mul_one, window_content]
    refine ⟨?_, hframe, ?_, ?_, ?_⟩
    · intro i hi
      rw [← add_assoc, mem_write_inside _ _ _ _ i (by rw [hlen]; exact hi)]
      simp [mem_read, List.getD_eq_getElem?_getD, hi]
    · intro k hk
      apply hframe
      omega
    · intro rank k hne
      apply hframe
      intro hc
      exact hne hc.1
    · intro hdis
      apply mem_read_congr
      intro i hi
      apply hframe
      omega
  · intro r st' hget
    rw [ARMCI_Get_eq env addr buf size target st hl hs hsz] at hget
    split at hget
    swap
    · cases hget
    cases hget
    have hlen : (mem_read st.mem (env.win_proc mreg.window target)
        (env.win_base mreg.window target + (addr - sl.base)) size.toNat).length = size.toNat :=
      mem_read_length _ _ _ _
    have hframe : ∀ q x, ¬ (q = env.self ∧ buf ≤ x ∧ x < buf + (size.toNat : Int)) →
        mem_write st.mem env.self buf
          (mem_read st.mem (env.win_proc mreg.window target)
            (env.win_base mreg.window target + (addr - sl.base)) size.toNat) q x =
          st.mem q x := by
      intro q x hq
      apply mem_write_outside
      rw [hlen]
      exact hq
    simp only [MPI_Win_unlock, MPI_Get, MPI_Win_lock, MPI_Type_size, mul_one, window_content]
    refine ⟨hframe, ?_⟩
    intro win rank k hk
    apply hframe
    omega


/-- C3 fails as stated.  In the example job a successful `ARMCI_Get` from rank 0 into a
destination buffer that lies in the initiator's own slice changes window contents (byte 0 of
the window at rank 1), and a successful `ARMCI_Put` to the initiator's own slice from a source
buffer that overlaps the destination changes the source buffer. -/
theorem C3_counterexample :
    (∃ st', ARMCI_Get ex_env 1000 2000 8 0 ex_state_own_slice = .ok (0, st') ∧
      window_content ex_env st' 7 1 0 ≠ window_content ex_env ex_state_own_slice 7 1 0) ∧
    (∃ st', ARMCI_Put ex_env 2001 2000 2 1 ex_state_own_slice = .ok (0, st') ∧
      mem_read st'.mem ex_env.self 2001 2 ≠
        mem_read ex_state_own_slice.mem ex_env.self 2001 2) := by
  have hl0 : mem_region_lookup ex_state_own_slice.registry 1000 0 = some
      { window := 7, slices := [{ base := 1000, size := 64 }, { base := 2000, size := 64 }] } := by
    decide
  have hs0 : slice_at
      { window := 7, slices := [{ base := 1000, size := 64 }, { base := 2000, size := 64 }] } 0 =
      some { base := 1000, size := 64 } := by decide
  have hg := ARMCI_Get_eq ex_env 1000 2000 8 0 ex_state_own_slice hl0 hs0 (by decide)
  rw [if_pos (by decide)] at hg
  have hl1 : mem_region_lookup ex_state_own_slice.registry 2000 1 = some
      { window := 7, slices := [{ base := 1000, size := 64 }, { base := 2000, size := 64 }] } := by
    decide
  have hs1 : slice_at
      { window := 7, slices := [{ base := 1000, size := 64 }, { base := 2000, size := 64 }] } 1 =
      some { base := 2000, size := 64 } := by decide
  have hp := ARMCI_Put_eq ex_env 2001 2000 2 1 ex_state_own_slice hl1 hs1 (by decide)
  rw [if_pos (by decide)] at hp
  exact ⟨⟨_, hg, by decide⟩, ⟨_, hp, by decide⟩⟩


/-- Witness of C3 in the example job: after the put of 8 bytes from address 0 to the base of
the slice of rank 0, the window of rank 0 holds the source bytes at displacements 0 to 7. -/
theorem C3_witness :
    int_sizes ex_state.registry = true ∧
    mem_region_lookup ex_state.registry 1000 0 = some
      { window := 7, slices := [{ base := 1000, size := 64 }, { base := 2000, size := 64 }] } ∧
    ∀ r st', ARMCI_Put ex_env 0 1000 8 0 ex_state = .ok (r, st') →
      ∀ i : Nat, i < (8 : Int).toNat →
        window_content ex_env st' 7 0 (1000 - 1000 + (i : Int)) =
          ex_state.mem ex_env.self (0 + (i : Int)) :=
  ⟨by decide, by decide, fun r st' h =>
    ((C3_put_get_frame ex_env ex_state 0 1000 8 0
      { window := 7, slices := [{ base := 1000, size := 64 }, { base := 2000, size := 64 }] }
      { base := 1000, size := 64 } (by decide) (by decide) (by decide)).1 r st' h).1⟩

/-! ## Accumulate: outcome in closed form -/

theorem acc_case_fields (env : Env) (ty : MPI_Datatype) (scale src bytes : Int) (st : State) :
    (acc_case env ty scale src bytes st).type_size = MPI_Type_size ty ∧
    (acc_case env ty scale src bytes st).type = ty ∧
    (acc_case env ty scale src bytes st).count = Int.tdiv bytes (MPI_Type_size ty) := by
  unfold acc_case
  dsimp only
  split_ifs <;> exact ⟨rfl, rfl, rfl⟩

theorem acc_switch_of_type {datatype : Int} {ty : MPI_Datatype}
    (h : acc_type datatype = some ty) (env : Env) (scale src bytes : Int) (st : State) :
    acc_switch env datatype scale src bytes st = .ok (acc_case env ty scale src bytes st) := by
  unfold acc_type at h
  unfold acc_switch
  split_ifs at h with h0 h1 h2 h3 <;> simp_all

theorem acc_switch_of_none {datatype : Int} (h : acc_type datatype = none) (env : Env)
    (scale src bytes : Int) (st : State) :
    acc_switch env datatype scale src bytes st =
      .error (.abort 100, { st with calls := st.calls ++ [MPI_Call.Abort 100] }) := by
  unfold acc_type at h
  unfold acc_switch
  split_ifs at h with h0 h1 h2 h3
  simp [h0, h1, h2, h3, ARMCI_Error]

theorem ARMCI_Acc_eq (env : Env) (datatype scale src dst bytes proc : Int) (st : State)
    {ty : MPI_Datatype} {mreg : mem_region_t} {sl : mem_region_slice_t}
    (hty : acc_type datatype = some ty)
    (hl : mem_region_lookup st.registry dst proc = some mreg)
    (hs : slice_at mreg proc = some sl) (hsz : sl.size < 2147483648) :
    ARMCI_Acc env datatype scale src dst bytes proc st =
      if Int.tmod bytes (MPI_Type_size ty) = 0 ∧ dst + bytes ≤ sl.base + sl.size then
        .ok (0, MPI_Win_unlock proc mreg.window
          (MPI_Accumulate env (acc_src_data (acc_case env ty scale src bytes st) src)
            (Int.tdiv bytes (MPI_Type_size ty)) ty proc (dst - sl.base)
            (Int.tdiv bytes (MPI_Type_size ty)) ty .MPI_SUM mreg.window
            (MPI_Win_lock .MPI_LOCK_EXCLUSIVE proc 0 mreg.window st)))
      else .error (.assertion, st) := by
  obtain ⟨_, sl1, hs1, hb0, hb1⟩ := lookup_sound hl
  rw [hs] at hs1
  cases hs1
  have hd : to_int (dst - sl.base) = dst - sl.base := to_int_of_range _ (by omega) (by omega)
  obtain ⟨f1, f2, f3⟩ := acc_case_fields env ty scale src bytes st
  unfold ARMCI_Acc
  simp only [acc_switch_of_type hty, hl, hs, hd, f1, f2, f3]
  have h1 : dst - sl.base ≥ 0 ∧ dst - sl.base < sl.size := ⟨by omega, by omega⟩
  have h2 : dst ≥ sl.base := hb0
  simp only [h1, h2, not_true_eq_false, if_false, and_self]
  by_cases h3 : Int.tmod bytes (MPI_Type_size ty) = 0
  · by_cases h4 : dst + bytes ≤ sl.base + sl.size
    · simp [h3, h4]
    · simp [h3, h4]
  · simp [h3]

theorem ARMCI_Acc_of_none (env : Env) (datatype scale src dst bytes proc : Int) (st : State)
    (h : acc_type datatype = none) :
    ARMCI_Acc env datatype scale src dst bytes proc st =
      .error (.abort 100, { st with calls := st.calls ++ [MPI_Call.Abort 100] }) := by
  unfold ARMCI_Acc
  rw [acc_switch_of_none h]


/-! ## C4: every transfer is bracketed by a lock and an unlock -/

theorem ARMCI_Get_ok {env : Env} {src dst size target r : Int} {st st' : State}
    (h : ARMCI_Get env src dst size target st = .ok (r, st')) :
    ∃ mreg sl, mem_region_lookup st.registry src target = some mreg ∧
      slice_at mreg target = some sl ∧ r = 0 ∧
      st' = MPI_Win_unlock target mreg.window
        (MPI_Get env dst size .MPI_BYTE target (to_int (src - sl.base)) size .MPI_BYTE
          mreg.window (MPI_Win_lock .MPI_LOCK_EXCLUSIVE target 0 mreg.window st)) := by
  unfold ARMCI_Get at h
  split at h
  · cases h
  · rename_i mreg hl
    split at h
    · cases h
    · rename_i sl hs
      dsimp only at h
      split_ifs at h
      simp only [Except.ok.injEq, Prod.mk.injEq] at h
      exact ⟨mreg, sl, hl, hs, h.1.symm, h.2.symm⟩

theorem ARMCI_Put_ok {env : Env} {src dst size target r : Int} {st st' : State}
    (h : ARMCI_Put env src dst size target st = .ok (r, st')) :
    ∃ mreg sl, mem_region_lookup st.registry dst target = some mreg ∧
      slice_at mreg target = some sl ∧ r = 0 ∧
      st' = MPI_Win_unlock target mreg.window
        (MPI_Put env src size .MPI_BYTE target (to_int (dst - sl.base)) size .MPI_BYTE
          mreg.window (MPI_Win_lock .MPI_LOCK_EXCLUSIVE target 0 mreg.window st)) := by
  unfold ARMCI_Put at h
  split at h
  · cases h
  · rename_i mreg hl
    split at h
    · cases h
    · rename_i sl hs
      dsimp only at h
      split_ifs at h
      simp only [Except.ok.injEq, Prod.mk.injEq] at h
      exact ⟨mreg, sl, hl, hs, h.1.symm, h.2.symm⟩

theorem ARMCI_Acc_ok {env : Env} {datatype scale src dst bytes proc r : Int} {st st' : State}
    (h : ARMCI_Acc env datatype scale src dst bytes proc st = .ok (r, st')) :
    ∃ l mreg sl, acc_switch env datatype scale src bytes st = .ok l ∧
      mem_region_lookup st.registry dst proc = some mreg ∧
      slice_at mreg proc = some sl ∧ r = 0 ∧
      st' = MPI_Win_unlock proc mreg.window
        (MPI_Accumulate env (acc_src_data l src) l.count l.type proc (to_int (dst - sl.base))
          l.count l.type .MPI_SUM mreg.window
          (MPI_Win_lock .MPI_LOCK_EXCLUSIVE proc 0 mreg.window st)) := by
  unfold ARMCI_Acc at h
  split at h
  · cases h
  · rename_i l hsw
    split at h
    · cases h
    · rename_i mreg hl
      split_ifs at h
      split at h
      · cases h
      · rename_i sl hs
        dsimp only at h
        split_ifs at h
        simp only [Except.ok.injEq, Prod.mk.injEq] at h
        exact ⟨l, mreg, sl, hsw, hl, hs, h.1.symm, h.2.symm⟩

theorem replay_epochs_append (es : List (Nat × Int)) (a b : List MPI_Call) :
    replay_epochs es (a ++ b) = replay_epochs (replay_epochs es a) b := by
  induction a generalizing es with
  | nil => rfl
  | cons c cs ih =>
    cases c <;> simp only [List.cons_append, replay_epochs] <;> exact ih _

theorem enclosed_append (es : List (Nat × Int)) (a b : List MPI_Call) :
    enclosed es (a ++ b) = (enclosed es a && enclosed (replay_epochs es a) b) := by
  induction a generalizing es with
  | nil => simp [enclosed, replay_epochs]
  | cons c cs ih =>
    cases c <;> simp only [List.cons_append, replay_epochs, enclosed] <;>
      simp only [List.append_eq, ih, Bool.and_assoc]

theorem bracket_enclosed (es : List (Nat × Int)) (win : Nat) (rank : Int) (op : MPI_Call)
    (lt : MPI_Lock_type) (a : Int) (hop : is_one_sided_on win rank op = true) :
    enclosed es [MPI_Call.Win_lock lt rank a win, op, MPI_Call.Win_unlock rank win] = true ∧
    replay_epochs es [MPI_Call.Win_lock lt rank a win, op, MPI_Call.Win_unlock rank win] = es := by
  cases op <;> simp [is_one_sided_on] at hop <;>
    (obtain ⟨rfl, rfl⟩ := hop; simp [enclosed, replay_epochs])

theorem bracketed_intro (st st' : State) (win : Nat) (target : Int) (op : MPI_Call)
    (hop : is_one_sided_on win target op = true)
    (hc : st'.calls = st.calls ++ [MPI_Call.Win_lock .MPI_LOCK_EXCLUSIVE target 0 win, op,
      MPI_Call.Win_unlock target win]) (he : st'.epochs = st.epochs) :
    bracketed st st' win target op := by
  refine ⟨hc, hop, he, ?_⟩
  intro e0 h1 h2
  obtain ⟨b1, b2⟩ := bracket_enclosed st.epochs win target op .MPI_LOCK_EXCLUSIVE 0 hop
  rw [hc, enclosed_append, replay_epochs_append, h1, h2, b1, b2, he]
  exact ⟨rfl, rfl⟩


/-- C4. Every successful call of `ARMCI_Get`, `ARMCI_Put` or `ARMCI_Acc` emits on the
transport, in this order and nothing else, an exclusive lock on (record.window, target),
exactly one one-sided operation (get, put or accumulate respectively) on that same window and
target, and the matching unlock; the one-sided call is thus made inside an open epoch on its
window and target (and, over the whole history of calls, no one-sided call is made outside
one), and the open epochs on return are those at entry. -/
theorem C4_transfer_in_own_epoch (env : Env) (st : State) :
    (∀ src dst size target r st', ARMCI_Get env src dst size target st = .ok (r, st') →
      ∃ mreg disp, mem_region_lookup st.registry src target = some mreg ∧
        bracketed st st' mreg.window target
          (MPI_Call.Get dst size .MPI_BYTE target disp size .MPI_BYTE mreg.window)) ∧
    (∀ src dst size target r st', ARMCI_Put env src dst size target st = .ok (r, st') →
      ∃ mreg disp, mem_region_lookup st.registry dst target = some mreg ∧
        bracketed st st' mreg.window target
          (MPI_Call.Put src size .MPI_BYTE target disp size .MPI_BYTE mreg.window)) ∧
    (∀ datatype scale src dst bytes proc r st',
      ARMCI_Acc env datatype scale src dst bytes proc st = .ok (r, st') →
      ∃ mreg origin count ty disp, mem_region_lookup st.registry dst proc = some mreg ∧
        bracketed st st' mreg.window proc
          (MPI_Call.Accumulate origin count ty proc disp count ty .MPI_SUM mreg.window)) := by
  refine ⟨?_, ?_, ?_⟩
  · intro src dst size target r st' h
    obtain ⟨mreg, sl, hl, _, _, rfl⟩ := ARMCI_Get_ok h
    refine ⟨mreg, to_int (src - sl.base), hl, bracketed_intro _ _ _ _ _ ?_ ?_ ?_⟩
    · simp [is_one_sided_on]
    · simp [MPI_Win_unlock, MPI_Get, MPI_Win_lock]
    · simp [MPI_Win_unlock, MPI_Get, MPI_Win_lock]
  · intro src dst size target r st' h
    obtain ⟨mreg, sl, hl, _, _, rfl⟩ := ARMCI_Put_ok h
    refine ⟨mreg, to_int (dst - sl.base), hl, bracketed_intro _ _ _ _ _ ?_ ?_ ?_⟩
    · simp [is_one_sided_on]
    · simp [MPI_Win_unlock, MPI_Put, MPI_Win_lock]
    · simp [MPI_Win_unlock, MPI_Put, MPI_Win_lock]
  · intro datatype scale src dst bytes proc r st' h
    obtain ⟨l, mreg, sl, _, hl, _, _, rfl⟩ := ARMCI_Acc_ok h
    refine ⟨mreg, acc_src_data l src, l.count, l.type, to_int (dst - sl.base), hl,
      bracketed_intro _ _ _ _ _ ?_ ?_ ?_⟩
    · simp [is_one_sided_on]
    · simp [MPI_Win_unlock, MPI_Accumulate, MPI_Win_lock]
    · simp [MPI_Win_unlock, MPI_Accumulate, MPI_Win_lock]

/-- Witness of C4 in the example job: the get of 8 bytes from the base of the slice of rank 0
returns 0 and is bracketed by the lock and the unlock of window 7 at rank 0. -/
theorem C4_witness :
    ∃ st', ARMCI_Get ex_env 1000 200 8 0 ex_state = .ok (0, st') ∧
      ∃ mreg disp, mem_region_lookup ex_state.registry 1000 0 = some mreg ∧
        bracketed ex_state st' mreg.window 0
          (MPI_Call.Get 200 8 .MPI_BYTE 0 disp 8 .MPI_BYTE mreg.window) := by
  have hl0 : mem_region_lookup ex_state.registry 1000 0 = some
      { window := 7, slices := [{ base := 1000, size := 64 }, { base := 2000, size := 64 }] } := by
    decide
  have hs0 : slice_at
      { window := 7, slices := [{ base := 1000, size := 64 }, { base := 2000, size := 64 }] } 0 =
      some { base := 1000, size := 64 } := by decide
  have hg := ARMCI_Get_eq ex_env 1000 200 8 0 ex_state hl0 hs0 (by decide)
  rw [if_pos (by decide)] at hg
  exact ⟨_, hg, (C4_transfer_in_own_epoch ex_env ex_state).1 1000 200 8 0 0 _ hg⟩


/-! ## C5: open epochs along a sequence of calls -/

/-- C5 fails as stated.  In the example job `ARMCI_Access_start` twice on the same pointer
(address 2000, in the initiator's own slice) succeeds twice and leaves two epochs open on the
same (window, target). -/
theorem C5_counterexample :
    ∃ st', run ex_env [Call.Access_start 2000, Call.Access_start 2000] ex_state = .ok st' ∧
      st'.epochs = [(7, 1), (7, 1)] ∧ ¬ at_most_one_epoch st' :=
  ⟨_, rfl, rfl, by decide⟩

theorem ARMCI_Access_start_ok {env : Env} {ptr : Int} {r : Unit} {st st' : State}
    (h : ARMCI_Access_start env ptr st = .ok (r, st')) :
    ∃ mreg, mem_region_lookup st.registry ptr (env.comm_rank st.ARMCI_GROUP_WORLD.comm) =
        some mreg ∧
      st' = MPI_Win_lock .MPI_LOCK_EXCLUSIVE (env.win_group_rank mreg.window) 0 mreg.window
        st := by
  unfold ARMCI_Access_start at h
  dsimp only at h
  split at h
  · cases h
  · rename_i mreg hl
    simp only [Except.ok.injEq, Prod.mk.injEq] at h
    exact ⟨mreg, hl, h.2.symm⟩

theorem ARMCI_Access_end_ok {env : Env} {ptr : Int} {r : Unit} {st st' : State}
    (h : ARMCI_Access_end env ptr st = .ok (r, st')) :
    ∃ mreg, mem_region_lookup st.registry ptr (env.comm_rank st.ARMCI_GROUP_WORLD.comm) =
        some mreg ∧
      st' = MPI_Win_unlock (env.win_group_rank mreg.window) mreg.window st := by
  unfold ARMCI_Access_end at h
  dsimp only at h
  split at h
  · cases h
  · rename_i mreg hl
    simp only [Except.ok.injEq, Prod.mk.injEq] at h
    exact ⟨mreg, hl, h.2.symm⟩

theorem step_start_epochs {env : Env} {ptr : Int} {st st1 : State}
    (h : step env (Call.Access_start ptr) st = .ok st1) :
    ∃ mreg, mem_region_lookup st.registry ptr (env.comm_rank st.ARMCI_GROUP_WORLD.comm) =
        some mreg ∧
      st1.epochs = (mreg.window, env.win_group_rank mreg.window) :: st.epochs := by
  cases hr : ARMCI_Access_start env ptr st with
  | error e => simp [step, hr] at h
  | ok r =>
    obtain ⟨r1, r2⟩ := r
    simp only [step, hr, Except.ok.injEq] at h
    subst h
    obtain ⟨mreg, hl, hst⟩ := ARMCI_Access_start_ok hr
    exact ⟨mreg, hl, by rw [hst]; rfl⟩

theorem step_end_epochs {env : Env} {ptr : Int} {st st1 : State}
    (h : step env (Call.Access_end ptr) st = .ok st1) :
    ∃ mreg, mem_region_lookup st.registry ptr (env.comm_rank st.ARMCI_GROUP_WORLD.comm) =
        some mreg ∧
      st1.epochs = st.epochs.erase (mreg.window, env.win_group_rank mreg.window) := by
  cases hr : ARMCI_Access_end env ptr st with
  | error e => simp [step, hr] at h
  | ok r =>
    obtain ⟨r1, r2⟩ := r
    simp only [step, hr, Except.ok.injEq] at h
    subst h
    obtain ⟨mreg, hl, hst⟩ := ARMCI_Access_end_ok hr
    exact ⟨mreg, hl, by rw [hst]; rfl⟩

theorem step_get_epochs {env : Env} {src dst size target : Int} {st st1 : State}
    (h : step env (Call.Get src dst size target) st = .ok st1) : st1.epochs = st.epochs := by
  cases hr : ARMCI_Get env src dst size target st with
  | error e => simp [step, hr] at h
  | ok r =>
    obtain ⟨r1, r2⟩ := r
    simp only [step, hr, Except.ok.injEq] at h
    subst h
    obtain ⟨mreg, sl, _, _, _, hst⟩ := ARMCI_Get_ok hr
    rw [hst]
    simp [MPI_Win_unlock, MPI_Get, MPI_Win_lock]

theorem step_put_epochs {env : Env} {src dst size target : Int} {st st1 : State}
    (h : step env (Call.Put src dst size target) st = .ok st1) : st1.epochs = st.epochs := by
  cases hr : ARMCI_Put env src dst size target st with
  | error e => simp [step, hr] at h
  | ok r =>
    obtain ⟨r1, r2⟩ := r
    simp only [step, hr, Except.ok.injEq] at h
    subst h
    obtain ⟨mreg, sl, _, _, _, hst⟩ := ARMCI_Put_ok hr
    rw [hst]
    simp [MPI_Win_unlock, MPI_Put, MPI_Win_lock]

theorem step_acc_epochs {env : Env} {datatype scale src dst bytes proc : Int}
    {st st1 : State}
    (h : step env (Call.Acc datatype scale src dst bytes proc) st = .ok st1) :
    st1.epochs = st.epochs := by
  cases hr : ARMCI_Acc env datatype scale src dst bytes proc st with
  | error e => simp [step, hr] at h
  | ok r =>
    obtain ⟨r1, r2⟩ := r
    simp only [step, hr, Except.ok.injEq] at h
    subst h
    obtain ⟨l, mreg, sl, _, _, _, _, hst⟩ := ARMCI_Acc_ok hr
    rw [hst]
    simp [MPI_Win_unlock, MPI_Accumulate, MPI_Win_lock]

/-- C5 (as amended). From a state with at most one epoch open per (window, target), every
state reached by a sequence of `ARMCI_Access_start`, `ARMCI_Access_end`, `ARMCI_Get`,
`ARMCI_Put` and `ARMCI_Acc` calls in which no `ARMCI_Access_start` is made on a
(window, rank) that already has an epoch open has at most one epoch open per
(window, target).  (The three transfers return with the open epochs they found,
`ARMCI_Access_end` closes one epoch, and `ARMCI_Access_start` opens one without looking at
the epochs already open.) -/
theorem C5_at_most_one_epoch_when_starts_fresh (env : Env) (calls : List Call)
    (st st' : State) (h0 : at_most_one_epoch st)
    (hfresh : starts_fresh env calls st = true) (hrun : run env calls st = .ok st') :
    at_most_one_epoch st' := by
  induction calls generalizing st with
  | nil =>
    simp only [run, Except.ok.injEq] at hrun
    rw [← hrun]
    exact h0
  | cons c cs ih =>
    simp only [run] at hrun
    simp only [starts_fresh, Bool.and_eq_true] at hfresh
    obtain ⟨hf1, hf2⟩ := hfresh
    cases hs : step env c st with
    | error e =>
      rw [hs] at hrun
      cases hrun
    | ok st1 =>
      rw [hs] at hrun hf2
      refine ih st1 ?_ hf2 hrun
      unfold at_most_one_epoch at h0 ⊢
      cases c with
      | Access_start ptr =>
        obtain ⟨mreg, hl, he1⟩ := step_start_epochs hs
        simp only [start_is_fresh, hl, decide_eq_true_eq] at hf1
        rw [he1]
        exact List.Nodup.cons hf1 h0
      | Access_end ptr =>
        obtain ⟨mreg, hl, he1⟩ := step_end_epochs hs
        rw [he1]
        exact List.Nodup.erase _ h0
      | Get src dst size target =>
        rw [step_get_epochs hs]
        exact h0
      | Put src dst size target =>
        rw [step_put_epochs hs]
        exact h0
      | Acc datatype scale src dst bytes proc =>
        rw [step_acc_epochs hs]
        exact h0

/-- Witness of C5 (as amended) in the example job: a local epoch on the initiator's own
slice, a get from rank 0 inside it, and the end of the local epoch. -/
theorem C5_witness :
    at_most_one_epoch ex_state ∧
    starts_fresh ex_env [Call.Access_start 2000, Call.Get 1000 200 8 0, Call.Access_end 2000]
      ex_state = true ∧
    ∃ st', run ex_env [Call.Access_start 2000, Call.Get 1000 200 8 0, Call.Access_end 2000]
      ex_state = .ok st' ∧ at_most_one_epoch st' :=
  ⟨by decide, by decide, _, rfl,
    C5_at_most_one_epoch_when_starts_fresh ex_env
      [Call.Access_start 2000, Call.Get 1000 200 8 0, Call.Access_end 2000] ex_state _
      (by decide) (by decide) rfl⟩


/-! ## C6, C7: the datatype tags of accumulate -/

/-- C6 (the code departs from the claim). For the tags `ARMCI_ACC_CPL` and `ARMCI_ACC_DCPL`
of `enum ARMCI_Acc_e`, whatever the other arguments and the state (so also with an in-range
destination and a byte count that is a positive multiple of the element size), `ARMCI_Acc`
performs no accumulate: it invokes the error sink `ARMCI_Error` with code 100, which aborts. -/
theorem C6_complex_tags_reach_error_sink (env : Env) (st : State)
    (scale src dst bytes proc : Int) :
    ARMCI_Acc env ARMCI_ACC_CPL scale src dst bytes proc st =
      .error (.abort 100, { st with calls := st.calls ++ [MPI_Call.Abort 100] }) ∧
    ARMCI_Acc env ARMCI_ACC_DCPL scale src dst bytes proc st =
      .error (.abort 100, { st with calls := st.calls ++ [MPI_Call.Abort 100] }) :=
  ⟨ARMCI_Acc_of_none env ARMCI_ACC_CPL scale src dst bytes proc st (by decide),
    ARMCI_Acc_of_none env ARMCI_ACC_DCPL scale src dst bytes proc st (by decide)⟩

theorem acc_type_none_of_not_tag {datatype : Int} (h : is_acc_tag datatype = false) :
    acc_type datatype = none := by
  unfold is_acc_tag at h
  simp only [Bool.or_eq_false_iff, decide_eq_false_iff_not] at h
  unfold acc_type
  simp [h.1.1.1.1.1, h.1.1.1.1.2, h.1.1.1.2, h.1.1.2]

/-- C7. For every datatype tag that is not one of the accumulate tags, `ARMCI_Acc` reports
the failure through the error sink `ARMCI_Error`, which aborts the job with the code it is
given, here 100; the only transport call made is that abort (no lock, no accumulate), and the
memory of every process, hence the contents of every window, is unchanged. -/
theorem C7_unknown_tag_reaches_error_sink (env : Env) (st : State)
    (datatype scale src dst bytes proc : Int) (htag : is_acc_tag datatype = false) :
    ∃ st', ARMCI_Acc env datatype scale src dst bytes proc st = .error (.abort 100, st') ∧
      (.abort 100, st') = ARMCI_Error acc_unsupported 100 st ∧
      st'.calls = st.calls ++ [MPI_Call.Abort 100] ∧
      st'.mem = st.mem ∧ st'.epochs = st.epochs ∧
      ∀ win rank k, window_content env st' win rank k = window_content env st win rank k :=
  ⟨_, ARMCI_Acc_of_none env datatype scale src dst bytes proc st
      (acc_type_none_of_not_tag htag), rfl, rfl, rfl, rfl, fun _ _ _ => rfl⟩

/-- Witness of C7 in the example job: the tag 7. -/
theorem C7_witness :
    is_acc_tag 7 = false ∧
    ∃ st', ARMCI_Acc ex_env 7 100 0 1000 8 0 ex_state = .error (.abort 100, st') ∧
      (Failure.abort 100, st') = ARMCI_Error acc_unsupported 100 ex_state ∧
      st'.calls = ex_state.calls ++ [MPI_Call.Abort 100] ∧
      st'.mem = ex_state.mem ∧ st'.epochs = ex_state.epochs ∧
      ∀ win rank k, window_content ex_env st' win rank k =
        window_content ex_env ex_state win rank k :=
  ⟨by decide, C7_unknown_tag_reaches_error_sink ex_env ex_state 7 100 0 1000 8 0 (by decide)⟩

/-! ## C8: the byte count of accumulate -/

/-- C8 fails as stated.  In the example job, with the tag `ARMCI_ACC_LNG` and an in-range
destination, a byte count of 0 is accepted: `ARMCI_Acc` issues a transport accumulate of zero
elements and returns 0.  A negative multiple of the element size (-8) also passes every check
of `ARMCI_Acc`, which issues a transport accumulate with count -1. -/
theorem C8_counterexample :
    (∃ st', ARMCI_Acc ex_env ARMCI_ACC_LNG 100 0 1000 0 0 ex_state = .ok (0, st') ∧
      st'.calls = [MPI_Call.Win_lock .MPI_LOCK_EXCLUSIVE 0 0 7,
        MPI_Call.Accumulate (.user 0) 0 .MPI_LONG 0 0 0 .MPI_LONG .MPI_SUM 7,
        MPI_Call.Win_unlock 0 7]) ∧
    (∃ st', ARMCI_Acc ex_env ARMCI_ACC_LNG 100 0 1000 (-8) 0 ex_state = .ok (0, st') ∧
      st'.calls = [MPI_Call.Win_lock .MPI_LOCK_EXCLUSIVE 0 0 7,
        MPI_Call.Accumulate (.user 0) (-1) .MPI_LONG 0 0 (-1) .MPI_LONG .MPI_SUM 7,
        MPI_Call.Win_unlock 0 7]) :=
  ⟨⟨_, rfl, rfl⟩, ⟨_, rfl, rfl⟩⟩

/-- C8 (as amended). For every datatype that `ARMCI_Acc` handles (INT, LNG, FLT, DBL) and
every byte count that leaves a non-zero remainder on division by the element size,
`ARMCI_Acc` fails by assertion in the unchanged state, so without any transport call.  A byte
count of 0 is not rejected: with a destination that resolves at the target, `ARMCI_Acc`
issues a lock, an accumulate of zero elements and the unlock, changes no memory and
returns 0. -/
theorem C8_acc_rejects_nonzero_remainder (env : Env) (st : State)
    (datatype scale src dst bytes proc : Int) (ty : MPI_Datatype)
    (hty : acc_type datatype = some ty) :
    (Int.tmod bytes (MPI_Type_size ty) ≠ 0 →
      ARMCI_Acc env datatype scale src dst bytes proc st = .error (.assertion, st)) ∧
    (bytes = 0 → int_sizes st.registry = true →
      ∀ mreg, mem_region_lookup st.registry dst proc = some mreg →
      ∃ st' origin disp, ARMCI_Acc env datatype scale src dst bytes proc st = .ok (0, st') ∧
        st'.calls = st.calls ++ [MPI_Call.Win_lock .MPI_LOCK_EXCLUSIVE proc 0 mreg.window,
          MPI_Call.Accumulate origin 0 ty proc disp 0 ty .MPI_SUM mreg.window,
          MPI_Call.Win_unlock proc mreg.window] ∧
        st'.mem = st.mem) := by
  constructor
  · intro hrem
    obtain ⟨f1, _, _⟩ := acc_case_fields env ty scale src bytes st
    unfold ARMCI_Acc
    simp only [acc_switch_of_type hty, f1]
    cases hl : mem_region_lookup st.registry dst proc with
    | none => rfl
    | some mreg => simp [hrem]
  · intro hb hreg mreg hl
    subst hb
    obtain ⟨hm, sl, hs, h0, h1⟩ := lookup_sound hl
    have hsz := int_sizes_slice hreg hm (slice_at_mem hs)
    have ha := ARMCI_Acc_eq env datatype scale src dst 0 proc st hty hl hs hsz
    have hc : Int.tmod 0 (MPI_Type_size ty) = 0 ∧ dst + 0 ≤ sl.base + sl.size :=
      ⟨Int.zero_tmod _, by omega⟩
    rw [if_pos hc] at ha
    refine ⟨_, acc_src_data (acc_case env ty scale src 0 st) src, dst - sl.base, ha, ?_, ?_⟩
    · simp [MPI_Win_unlock, MPI_Accumulate, MPI_Win_lock, Int.zero_tdiv]
    · simp [MPI_Win_unlock, MPI_Accumulate, MPI_Win_lock, load_elems, store_elems,
        Int.zero_tdiv]

/-- Witness of C8 (as amended) in the example job: 12 bytes are not a multiple of the size
of a `long`. -/
theorem C8_witness :
    acc_type ARMCI_ACC_LNG = some .MPI_LONG ∧
    Int.tmod 12 (MPI_Type_size .MPI_LONG) ≠ 0 ∧
    ARMCI_Acc ex_env ARMCI_ACC_LNG 100 0 1000 12 0 ex_state = .error (.assertion, ex_state) :=
  ⟨by decide, by decide,
    (C8_acc_rejects_nonzero_remainder ex_env ex_state ARMCI_ACC_LNG 100 0 1000 12 0 .MPI_LONG
      (by decide)).1 (by decide)⟩


/-! ## Typed elements: encoding, loads and stores -/

theorem le_encode_length (w v : Nat) : (le_encode w v).length = w := by
  simp [le_encode]

theorem le_encode_succ (w v : Nat) :
    le_encode (w + 1) v = v % 256 :: le_encode w (v / 256) := by
  unfold le_encode
  rw [List.range_succ_eq_map, List.map_cons, List.map_map]
  congr 1
  · simp
  · apply List.map_congr_left
    intro k _
    simp only [Function.comp_apply, pow_succ]
    rw [Nat.mul_comm, ← Nat.div_div_eq_div_mul]

theorem le_decode_encode (w v : Nat) : le_decode (le_encode w v) = v % 256 ^ w := by
  induction w generalizing v with
  | zero => simp [le_encode, le_decode, Nat.mod_one]
  | succ w ih =>
    rw [le_encode_succ]
    have h := ih (v / 256)
    unfold le_decode at h ⊢
    rw [List.foldr_cons, h, Nat.mod_mod, pow_succ, Nat.mul_comm (256 ^ w) 256, Nat.mod_mul]

theorem le_decode_lt (bs : List Nat) : le_decode bs < 256 ^ bs.length := by
  induction bs with
  | nil => simp [le_decode]
  | cons b bs ih =>
    unfold le_decode at ih ⊢
    rw [List.foldr_cons, List.length_cons, pow_succ]
    have := Nat.mod_lt b (show 0 < 256 by decide)
    omega

theorem load_elem_lt (w : Nat) (mem : Int → Int → Nat) (p a : Int) :
    load_elem w mem p a < 256 ^ w := by
  unfold load_elem
  have h := le_decode_lt (mem_read mem p a w)
  rw [mem_read_length] at h
  exact h

theorem load_elem_congr (w : Nat) (m1 m2 : Int → Int → Nat) (p a : Int)
    (h : ∀ x, a ≤ x → x < a + (w : Int) → m1 p x = m2 p x) :
    load_elem w m1 p a = load_elem w m2 p a := by
  unfold load_elem
  rw [mem_read_congr m1 m2 p a w]
  intro i hi
  exact h _ (by omega) (by omega)

theorem load_elem_write_same (w : Nat) (mem : Int → Int → Nat) (p a : Int) (v : Nat) :
    load_elem w (mem_write mem p a (le_encode w v)) p a = v % 256 ^ w := by
  unfold load_elem
  have h := mem_read_write_same mem p a (le_encode w v)
  rw [le_encode_length] at h
  rw [h, le_decode_encode]

theorem store_elems_outside (w : Nat) (vs : List Nat) (mem : Int → Int → Nat) (p a q x : Int)
    (h : ¬ (q = p ∧ a ≤ x ∧ x < a + (w : Int) * (vs.length : Int))) :
    store_elems w mem p a vs q x = mem q x := by
  induction vs generalizing mem a with
  | nil => rfl
  | cons v vs ih =>
    unfold store_elems
    have hw : (0 : Int) ≤ (w : Int) * (vs.length : Int) := by positivity
    rw [ih]
    · apply mem_write_outside
      rw [le_encode_length]
      simp only [List.length_cons, Nat.cast_add, Nat.cast_one] at h
      intro hc
      apply h
      refine ⟨hc.1, hc.2.1, ?_⟩
      nlinarith [hc.2.2]
    · simp only [List.length_cons, Nat.cast_add, Nat.cast_one] at h
      intro hc
      apply h
      refine ⟨hc.1, by omega, ?_⟩
      nlinarith [hc.2.2]

theorem load_store_elems (w : Nat) (vs : List Nat) (mem : Int → Int → Nat) (p a : Int)
    (i : Nat) (hi : i < vs.length) :
    load_elem w (store_elems w mem p a vs) p (a + (w : Int) * (i : Int)) =
      vs.getD i 0 % 256 ^ w := by
  induction vs generalizing mem a i with
  | nil => simp at hi
  | cons v vs ih =>
    unfold store_elems
    cases i with
    | zero =>
      simp only [Nat.cast_zero, mul_zero, add_zero, List.getD_cons_zero]
      rw [load_elem_congr w _ (mem_write mem p a (le_encode w v)) p a]
      · exact load_elem_write_same w mem p a v
      · intro x h1 h2
        apply store_elems_outside
        intro hc
        omega
    | succ j =>
      have hj : j < vs.length := by simpa using hi
      have e : a + (w : Int) * ((j + 1 : Nat) : Int) = a + (w : Int) + (w : Int) * (j : Int) := by
        push_cast
        ring
      rw [e, ih _ _ j hj]
      simp
theorem load_elems_length (w : Nat) (mem : Int → Int → Nat) (p a : Int) (n : Nat) :
    (load_elems w mem p a n).length = n := by
  simp [load_elems]

theorem load_elems_getElem? (w : Nat) (mem : Int → Int → Nat) (p a : Int) (n i : Nat)
    (hi : i < n) :
    (load_elems w mem p a n)[i]? = some (load_elem w mem p (a + (w : Int) * (i : Int))) := by
  simp [load_elems, hi]

theorem load_elems_getD (w : Nat) (mem : Int → Int → Nat) (p a : Int) (n i : Nat)
    (hi : i < n) :
    (load_elems w mem p a n).getD i 0 = load_elem w mem p (a + (w : Int) * (i : Int)) := by
  simp [load_elems, List.getD_eq_getElem?_getD, hi]

theorem tdiv_toNat_of_neg (b s : Int) (hb : b < 0) (hs : 0 < s) : (Int.tdiv b s).toNat = 0 := by
  have h : Int.tdiv b s ≤ 0 := by
    have h1 : Int.tdiv (-b) s = -Int.tdiv b s := Int.neg_tdiv b s
    have h2 : 0 ≤ Int.tdiv (-b) s := Int.tdiv_nonneg (by omega) (by omega)
    omega
  omega

/-- The elements that `MPI_Accumulate` takes from an origin buffer. -/
theorem acc_origin_data (env : Env) (ty : MPI_Datatype) (w : Nat)
    (hw : (ty = .MPI_INT ∧ w = 4) ∨ (ty = .MPI_LONG ∧ w = 8))
    (scale src bytes : Int) (st : State) :
    ∃ data : List Nat,
      (match acc_src_data (acc_case env ty scale src bytes st) src with
        | .user a => load_elems (MPI_Type_size ty).toNat st.mem env.self a
            (Int.tdiv bytes (MPI_Type_size ty)).toNat
        | .scratch d => d) = data ∧
      data.length = (Int.tdiv bytes (MPI_Type_size ty)).toNat ∧
      ∀ i : Nat, i < (Int.tdiv bytes (MPI_Type_size ty)).toNat →
        data.getD i 0 % 256 ^ w =
          (load_elem w st.mem env.self (src + (w : Int) * (i : Int)) *
            load_elem w st.mem env.self scale) % 256 ^ w := by
  have hsz : (MPI_Type_size ty).toNat = w ∧ type_one ty = 1 ∧ 0 < MPI_Type_size ty ∧
      ∀ a b, type_mul env ty a b = (a * b) % 256 ^ w := by
    rcases hw with ⟨rfl, rfl⟩ | ⟨rfl, rfl⟩
    · exact ⟨rfl, rfl, by decide, fun _ _ => rfl⟩
    · exact ⟨rfl, rfl, by decide, fun _ _ => rfl⟩
  obtain ⟨hsz1, hone, hpos, hmul⟩ := hsz
  refine ⟨_, rfl, ?_, ?_⟩
  · unfold acc_src_data acc_case
    dsimp only
    split_ifs <;> simp [load_elems_length]
  · intro i hi
    unfold acc_src_data acc_case
    dsimp only
    rw [hsz1, hone]
    by_cases h1 : load_elem w st.mem env.self scale = 1
    · simp only [h1, if_true, mul_one]
      rw [load_elems_getD _ _ _ _ _ _ hi]
    · simp only [h1, if_false]
      by_cases h2 : 0 ≤ bytes
      · simp only [h2, if_true]
        rw [List.getD_eq_getElem?_getD, List.getElem?_map,
          load_elems_getElem? _ _ _ _ _ _ hi]
        simp only [Option.map_some', Option.getD_some, hmul, Nat.mod_mod]
      · have := tdiv_toNat_of_neg bytes (MPI_Type_size ty) (by omega) hpos
        omega

/-- The memory after `MPI_Accumulate` of integer elements: element `i` of the target holds
the sum, modulo `256 ^ w`, of its previous value and element `i` of the data; nothing else
changes. -/
theorem MPI_Accumulate_int_mem (env : Env) (ty : MPI_Datatype) (w : Nat)
    (hw : (ty = .MPI_INT ∧ w = 4) ∨ (ty = .MPI_LONG ∧ w = 8))
    (origin : Origin) (count rank disp : Int) (win : Nat) (st : State) (data : List Nat)
    (hdata : (match origin with
        | .user a => load_elems (MPI_Type_size ty).toNat st.mem env.self a count.toNat
        | .scratch d => d) = data)
    (hlen : data.length = count.toNat) :
    (∀ i : Nat, i < count.toNat →
      load_elem w (MPI_Accumulate env origin count ty rank disp count ty .MPI_SUM win st).mem
          (env.win_proc win rank) (env.win_base win rank + disp + (w : Int) * (i : Int)) =
        (load_elem w st.mem (env.win_proc win rank)
            (env.win_base win rank + disp + (w : Int) * (i : Int)) + data.getD i 0) %
          256 ^ w) ∧
    (∀ q x, ¬ (q = env.win_proc win rank ∧ env.win_base win rank + disp ≤ x ∧
        x < env.win_base win rank + disp + (w : Int) * (count.toNat : Int)) →
      (MPI_Accumulate env origin count ty rank disp count ty .MPI_SUM win st).mem q x =
        st.mem q x) := by
  have hsz : (MPI_Type_size ty).toNat = w ∧
      ∀ a b, type_sum env ty a b = (a + b) % 256 ^ w := by
    rcases hw with ⟨rfl, rfl⟩ | ⟨rfl, rfl⟩
    · exact ⟨rfl, fun _ _ => rfl⟩
    · exact ⟨rfl, fun _ _ => rfl⟩
  obtain ⟨hsz1, hsum⟩ := hsz
  have hmem : (MPI_Accumulate env origin count ty rank disp count ty .MPI_SUM win st).mem =
      store_elems w st.mem (env.win_proc win rank) (env.win_base win rank + disp)
        (List.zipWith (type_sum env ty)
          (load_elems w st.mem (env.win_proc win rank) (env.win_base win rank + disp)
            count.toNat) data) := by
    rw [← hdata, ← hsz1]
    rfl
  have hzl : (List.zipWith (type_sum env ty)
      (load_elems w st.mem (env.win_proc win rank) (env.win_base win rank + disp)
        count.toNat) data).length = count.toNat := by
    simp [load_elems_length, hlen]
  rw [hmem]
  constructor
  · intro i hi
    rw [load_store_elems w _ _ _ _ i (by rw [hzl]; exact hi)]
    have hi2 : i < data.length := by rw [hlen]; exact hi
    rw [List.getD_eq_getElem?_getD, List.getElem?_zipWith,
      load_elems_getElem? _ _ _ _ _ _ hi, List.getElem?_eq_getElem hi2]
    simp only [Option.map_some', Option.getD_some, Option.bind_some, hsum, Nat.mod_mod,
      List.getD_eq_getElem?_getD, List.getElem?_eq_getElem hi2]
  · intro q x hq
    apply store_elems_outside
    rw [hzl]
    exact hq

/-- A successful integer `ARMCI_Acc`, on bit patterns: element `i` of the target becomes its
previous value plus `src[i] * s` modulo `256 ^ w`, and nothing else changes. -/
theorem ARMCI_Acc_int_mem (env : Env) (st : State) (datatype : Int) (ty : MPI_Datatype)
    (w : Nat) (scale src dst bytes proc : Int) (mreg : mem_region_t) (sl : mem_region_slice_t)
    (hdt : acc_type datatype = some ty)
    (hw : (ty = .MPI_INT ∧ w = 4) ∨ (ty = .MPI_LONG ∧ w = 8))
    (hl : mem_region_lookup st.registry dst proc = some mreg)
    (hs : slice_at mreg proc = some sl) (hsz : sl.size < 2147483648)
    (hc : Int.tmod bytes (MPI_Type_size ty) = 0 ∧ dst + bytes ≤ sl.base + sl.size) :
    ∃ st', ARMCI_Acc env datatype scale src dst bytes proc st = .ok (0, st') ∧
      st'.registry = st.registry ∧
      (∀ i : Nat, i < (Int.tdiv bytes (MPI_Type_size ty)).toNat →
        load_elem w st'.mem (env.win_proc mreg.window proc)
            (env.win_base mreg.window proc + (dst - sl.base) + (w : Int) * (i : Int)) =
          (load_elem w st.mem (env.win_proc mreg.window proc)
              (env.win_base mreg.window proc + (dst - sl.base) + (w : Int) * (i : Int)) +
            load_elem w st.mem env.self (src + (w : Int) * (i : Int)) *
              load_elem w st.mem env.self scale) % 256 ^ w) ∧
      (∀ q x, ¬ (q = env.win_proc mreg.window proc ∧
          env.win_base mreg.window proc + (dst - sl.base) ≤ x ∧
          x < env.win_base mreg.window proc + (dst - sl.base) +
            (w : Int) * ((Int.tdiv bytes (MPI_Type_size ty)).toNat : Int)) →
        st'.mem q x = st.mem q x) := by
  have ha := ARMCI_Acc_eq env datatype scale src dst bytes proc st hdt hl hs hsz
  rw [if_pos hc] at ha
  obtain ⟨data, hdata, hlen, hval⟩ := acc_origin_data env ty w hw scale src bytes st
  obtain ⟨h1, h2⟩ := MPI_Accumulate_int_mem env ty w hw
    (acc_src_data (acc_case env ty scale src bytes st) src)
    (Int.tdiv bytes (MPI_Type_size ty)) proc (dst - sl.base) mreg.window
    (MPI_Win_lock .MPI_LOCK_EXCLUSIVE proc 0 mreg.window st) data hdata hlen
  refine ⟨_, ha, rfl, ?_, ?_⟩
  · intro i hi
    have e := h1 i hi
    have v := hval i hi
    simp only [MPI_Win_unlock, MPI_Win_lock] at e ⊢
    rw [e, Nat.add_mod, v, ← Nat.add_mod]
  · intro q x hq
    exact h2 q x hq

/-! ## Two's complement -/

theorem int_val_eq_wrap (w : Nat) (hw : w = 4 ∨ w = 8) (x : Nat) :
    int_val w x = wrap w (x : Int) := by
  rcases hw with rfl | rfl
  · unfold int_val wrap
    norm_num
    split_ifs <;> omega
  · unfold int_val wrap
    norm_num
    split_ifs <;> omega

theorem wrap_congr (w : Nat) (a b : Int)
    (h : a % ((256 ^ w : Nat) : Int) = b % ((256 ^ w : Nat) : Int)) : wrap w a = wrap w b := by
  unfold wrap
  rw [Int.add_emod a, Int.add_emod b, h]

theorem int_val_emod (w : Nat) (hw : w = 4 ∨ w = 8) (x : Nat) :
    int_val w x % ((256 ^ w : Nat) : Int) = (x : Int) % ((256 ^ w : Nat) : Int) := by
  rcases hw with rfl | rfl
  · unfold int_val
    norm_num
    split_ifs <;> omega
  · unfold int_val
    norm_num
    split_ifs <;> omega

theorem int_val_acc (w : Nat) (hw : w = 4 ∨ w = 8) (old src s : Nat) :
    int_val w ((old + src * s) % 256 ^ w) =
      wrap w (int_val w old + int_val w s * int_val w src) := by
  rw [int_val_eq_wrap w hw]
  apply wrap_congr
  have h1 := int_val_emod w hw old
  have h2 := int_val_emod w hw src
  have h3 := int_val_emod w hw s
  have e : (((old + src * s) % 256 ^ w : Nat) : Int) % ((256 ^ w : Nat) : Int) =
      ((old : Int) + (s : Int) * (src : Int)) % ((256 ^ w : Nat) : Int) := by
    push_cast
    rw [Int.emod_emod_of_dvd _ (dvd_refl _), mul_comm (src : Int)]
  rw [e]
  exact (Int.ModEq.add h1 (Int.ModEq.mul h3 h2)).symm

/-! ## C9: one integer accumulate -/

theorem scratch_of_one (env : Env) (ty : MPI_Datatype) (w : Nat)
    (hw : (ty = .MPI_INT ∧ w = 4) ∨ (ty = .MPI_LONG ∧ w = 8))
    (mem : Int → Int → Nat) (p a : Int) (n : Nat) :
    (load_elems w mem p a n).map (fun x => type_mul env ty x (type_one ty)) =
      load_elems w mem p a n := by
  have hmul : ∀ x, x < 256 ^ w → type_mul env ty x (type_one ty) = x := by
    intro x hx
    rcases hw with ⟨rfl, rfl⟩ | ⟨rfl, rfl⟩
    · simp only [type_mul, type_one, mul_one]
      exact Nat.mod_eq_of_lt hx
    · simp only [type_mul, type_one, mul_one]
      exact Nat.mod_eq_of_lt hx
  unfold load_elems
  rw [List.map_map]
  apply List.map_congr_left
  intro i _
  exact hmul _ (load_elem_lt _ _ _ _)

/-- C9. For the integer datatypes (INT with 4-byte elements, LONG with 8-byte elements),
every scale `s` (equal to 1 or not) and every source: after a successful `ARMCI_Acc` of
`count = bytes / element_size` elements, the target element `i`, at displacement
`(dst - slice base) + i * element_size` of the window at the target, equals its prior value
plus `s * src[i]` in fixed-width (two's complement) arithmetic, for every `i < count`; no
byte outside these elements changes; and the scratch buffer that the scaling path would fill
for `s = 1` has the contents of the caller's buffer, so that accumulating from it leaves the
same memory as the direct path. -/
theorem C9_integer_acc_adds_scaled_source (env : Env) (st st' : State)
    (datatype : Int) (ty : MPI_Datatype) (w : Nat) (scale src dst bytes proc r : Int)
    (mreg : mem_region_t) (sl : mem_region_slice_t)
    (hty : (datatype = ARMCI_ACC_INT ∧ ty = .MPI_INT ∧ w = 4) ∨
      (datatype = ARMCI_ACC_LNG ∧ ty = .MPI_LONG ∧ w = 8))
    (hreg : int_sizes st.registry = true)
    (hl : mem_region_lookup st.registry dst proc = some mreg)
    (hs : slice_at mreg proc = some sl)
    (hok : ARMCI_Acc env datatype scale src dst bytes proc st = .ok (r, st')) :
    r = 0 ∧
    (∀ i : Nat, i < (Int.tdiv bytes (w : Int)).toNat →
      int_val w (load_elem w st'.mem (env.win_proc mreg.window proc)
          (env.win_base mreg.window proc + (dst - sl.base) + (w : Int) * (i : Int))) =
        wrap w (int_val w (load_elem w st.mem (env.win_proc mreg.window proc)
            (env.win_base mreg.window proc + (dst - sl.base) + (w : Int) * (i : Int))) +
          int_val w (load_elem w st.mem env.self scale) *
            int_val w (load_elem w st.mem env.self (src + (w : Int) * (i : Int))))) ∧
    (∀ q x, ¬ (q = env.win_proc mreg.window proc ∧
        env.win_base mreg.window proc + (dst - sl.base) ≤ x ∧
        x < env.win_base mreg.window proc + (dst - sl.base) +
          (w : Int) * ((Int.tdiv bytes (w : Int)).toNat : Int)) →
      st'.mem q x = st.mem q x) ∧
    (∀ (st1 : State) (count disp : Int) (win : Nat),
      (MPI_Accumulate env
        (.scratch ((load_elems w st1.mem env.self src count.toNat).map
          (fun x => type_mul env ty x (type_one ty))))
        count ty proc disp count ty .MPI_SUM win st1).mem =
      (MPI_Accumulate env (.user src) count ty proc disp count ty .MPI_SUM win st1).mem) := by
  have hw : (ty = .MPI_INT ∧ w = 4) ∨ (ty = .MPI_LONG ∧ w = 8) := by
    rcases hty with ⟨_, h1, h2⟩ | ⟨_, h1, h2⟩
    · exact Or.inl ⟨h1, h2⟩
    · exact Or.inr ⟨h1, h2⟩
  have hw2 : w = 4 ∨ w = 8 := by
    rcases hw with ⟨_, h⟩ | ⟨_, h⟩
    · exact Or.inl h
    · exact Or.inr h
  have hdt : acc_type datatype = some ty := by
    rcases hty with ⟨rfl, rfl, _⟩ | ⟨rfl, rfl, _⟩ <;> decide
  have hsize : MPI_Type_size ty = (w : Int) := by
    rcases hw with ⟨rfl, rfl⟩ | ⟨rfl, rfl⟩ <;> rfl
  obtain ⟨hm, sl1, hs1, _, _⟩ := lookup_sound hl
  rw [hs] at hs1
  cases hs1
  have hsz := int_sizes_slice hreg hm (slice_at_mem hs)
  have ha := ARMCI_Acc_eq env datatype scale src dst bytes proc st hdt hl hs hsz
  rw [hok] at ha
  split at ha
  swap
  · cases ha
  rename_i hc
  obtain ⟨st2, h2, _, hval, hframe⟩ := ARMCI_Acc_int_mem env st datatype ty w scale src dst
    bytes proc mreg sl hdt hw hl hs hsz hc
  rw [hok] at h2
  simp only [Except.ok.injEq, Prod.mk.injEq] at h2
  obtain ⟨hr, hst⟩ := h2
  subst hst
  rw [hsize] at hval hframe
  refine ⟨hr, ?_, hframe, ?_⟩
  · intro i hi
    rw [hval i hi]
    exact int_val_acc w hw2 _ _ _
  · intro st1 count disp win
    rw [scratch_of_one env ty w hw]
    have hsz1 : (MPI_Type_size ty).toNat = w := by
      rw [hsize]
      rfl
    simp only [MPI_Accumulate, hsz1]

/-- Witness of C9 in the example job: the eight 64-bit integers 1, ..., 8 of the initiator
are accumulated with scale 2 onto the eight zero slots of rank 0; slot 0 then holds 2. -/
theorem C9_witness :
    int_sizes ex_state.registry = true ∧
    ∃ st', ARMCI_Acc ex_env ARMCI_ACC_LNG 8 0 1000 64 0 ex_state = .ok (0, st') ∧
      int_val 8 (load_elem 8 st'.mem (ex_env.win_proc 7 0)
        (ex_env.win_base 7 0 + (1000 - 1000) + ((8 : Nat) : Int) * ((0 : Nat) : Int))) = 2 := by
  obtain ⟨st', hok⟩ : ∃ st', ARMCI_Acc ex_env ARMCI_ACC_LNG 8 0 1000 64 0 ex_state =
    .ok (0, st') := ⟨_, rfl⟩
  have h := (C9_integer_acc_adds_scaled_source ex_env ex_state st' ARMCI_ACC_LNG .MPI_LONG 8
    8 0 1000 64 0 0
    { window := 7, slices := [{ base := 1000, size := 64 }, { base := 2000, size := 64 }] }
    { base := 1000, size := 64 } (Or.inr ⟨rfl, rfl, rfl⟩) (by decide) (by decide) (by decide)
    hok).2.1 0 (by decide)
  exact ⟨by decide, st', hok, h.trans (by decide)⟩


/-! ## C10: a sequence of integer accumulates -/

theorem pattern_sum_congr (w : Nat) (m1 m2 : Int → Int → Nat) (p : Int) (i : Nat)
    (cs : List acc_args)
    (h : ∀ c ∈ cs, load_elem w m1 p c.scale = load_elem w m2 p c.scale ∧
      load_elem w m1 p (c.src + (w : Int) * (i : Int)) =
        load_elem w m2 p (c.src + (w : Int) * (i : Int))) :
    pattern_sum w m1 p i cs = pattern_sum w m2 p i cs := by
  unfold pattern_sum
  congr 1
  apply List.map_congr_left
  intro c hc
  rw [(h c hc).1, (h c hc).2]

theorem pattern_sum_perm (w : Nat) (mem : Int → Int → Nat) (p : Int) (i : Nat)
    {cs cs' : List acc_args} (h : cs'.Perm cs) :
    pattern_sum w mem p i cs' = pattern_sum w mem p i cs := by
  unfold pattern_sum
  exact (h.map _).sum_eq

theorem pattern_sum_emod (w : Nat) (hw : w = 4 ∨ w = 8) (mem : Int → Int → Nat) (p : Int)
    (i : Nat) (cs : List acc_args) :
    ((pattern_sum w mem p i cs : Nat) : Int) % ((256 ^ w : Nat) : Int) =
      scaled_sum w mem p i cs % ((256 ^ w : Nat) : Int) := by
  induction cs with
  | nil => simp [pattern_sum, scaled_sum]
  | cons c cs ih =>
    have e1 : pattern_sum w mem p i (c :: cs) =
        load_elem w mem p (c.src + (w : Int) * (i : Int)) * load_elem w mem p c.scale +
          pattern_sum w mem p i cs := by
      simp [pattern_sum]
    have e2 : scaled_sum w mem p i (c :: cs) =
        int_val w (load_elem w mem p c.scale) *
          int_val w (load_elem w mem p (c.src + (w : Int) * (i : Int))) +
          scaled_sum w mem p i cs := by
      simp [scaled_sum]
    rw [e1, e2]
    push_cast
    have h2 := int_val_emod w hw (load_elem w mem p (c.src + (w : Int) * (i : Int)))
    have h3 := int_val_emod w hw (load_elem w mem p c.scale)
    have hm : ((load_elem w mem p (c.src + (w : Int) * (i : Int)) : Nat) : Int) *
        ((load_elem w mem p c.scale : Nat) : Int) % ((256 ^ w : Nat) : Int) =
        int_val w (load_elem w mem p c.scale) *
          int_val w (load_elem w mem p (c.src + (w : Int) * (i : Int))) %
            ((256 ^ w : Nat) : Int) := by
      rw [mul_comm]
      exact (Int.ModEq.mul h3 h2).symm
    have := Int.ModEq.add hm ih
    push_cast at this
    exact this

theorem int_val_sum (w : Nat) (hw : w = 4 ∨ w = 8) (mem : Int → Int → Nat) (p : Int)
    (i : Nat) (cs : List acc_args) (old : Nat) :
    int_val w ((old + pattern_sum w mem p i cs) % 256 ^ w) =
      wrap w (int_val w old + scaled_sum w mem p i cs) := by
  rw [int_val_eq_wrap w hw]
  apply wrap_congr
  have h1 := int_val_emod w hw old
  have h2 := pattern_sum_emod w hw mem p i cs
  have e : (((old + pattern_sum w mem p i cs) % 256 ^ w : Nat) : Int) %
      ((256 ^ w : Nat) : Int) =
      ((old : Int) + (pattern_sum w mem p i cs : Int)) % ((256 ^ w : Nat) : Int) := by
    push_cast
    rw [Int.emod_emod_of_dvd _ (dvd_refl _)]
  rw [e]
  exact (Int.ModEq.add h1 h2.symm).symm

theorem clear_loads (env : Env) (p a : Int) (w n : Nat) (c : acc_args)
    (hclear : acc_buffers_clear env p a w n c) (m1 m2 : Int → Int → Nat)
    (hframe : ∀ q x, ¬ (q = p ∧ a ≤ x ∧ x < a + (w : Int) * (n : Int)) → m1 q x = m2 q x)
    (i : Nat) (hi : i < n) :
    load_elem w m1 env.self c.scale = load_elem w m2 env.self c.scale ∧
    load_elem w m1 env.self (c.src + (w : Int) * (i : Int)) =
      load_elem w m2 env.self (c.src + (w : Int) * (i : Int)) := by
  have hwi : (w : Int) * (i : Int) + (w : Int) ≤ (w : Int) * (n : Int) := by
    have : (i : Int) + 1 ≤ (n : Int) := by omega
    nlinarith [Int.natCast_nonneg w]
  have hwi0 : (0 : Int) ≤ (w : Int) * (i : Int) := by positivity
  constructor
  · apply load_elem_congr
    intro x h1 h2
    apply hframe
    rintro ⟨hq, h3, h4⟩
    rcases hclear with hne | ⟨hsc, _⟩
    · exact hne hq
    · omega
  · apply load_elem_congr
    intro x h1 h2
    apply hframe
    rintro ⟨hq, h3, h4⟩
    rcases hclear with hne | ⟨_, hsr⟩
    · exact hne hq
    · omega

/-- A sequence of integer accumulates onto one destination that passes the checks of
`ARMCI_Acc` runs to its end; on bit patterns, each target element ends as its initial value
plus the sum of `src_k[i] * s_k`, modulo `256 ^ w`, and nothing else changes. -/
theorem run_acc_calls (env : Env) (datatype : Int) (ty : MPI_Datatype)
    (w : Nat) (dst bytes proc : Int) (mreg : mem_region_t) (sl : mem_region_slice_t)
    (hdt : acc_type datatype = some ty)
    (hw : (ty = .MPI_INT ∧ w = 4) ∨ (ty = .MPI_LONG ∧ w = 8))
    (hs : slice_at mreg proc = some sl) (hsz : sl.size < 2147483648)
    (hc : Int.tmod bytes (MPI_Type_size ty) = 0 ∧ dst + bytes ≤ sl.base + sl.size)
    (cs : List acc_args) (st : State)
    (hl : mem_region_lookup st.registry dst proc = some mreg)
    (hclear : ∀ c ∈ cs, acc_buffers_clear env (env.win_proc mreg.window proc)
      (env.win_base mreg.window proc + (dst - sl.base)) w
      (Int.tdiv bytes (MPI_Type_size ty)).toNat c) :
    ∃ st', run env (acc_calls datatype dst bytes proc cs) st = .ok st' ∧
      st'.registry = st.registry ∧
      (∀ q x, ¬ (q = env.win_proc mreg.window proc ∧
          env.win_base mreg.window proc + (dst - sl.base) ≤ x ∧
          x < env.win_base mreg.window proc + (dst - sl.base) +
            (w : Int) * ((Int.tdiv bytes (MPI_Type_size ty)).toNat : Int)) →
        st'.mem q x = st.mem q x) ∧
      (∀ i : Nat, i < (Int.tdiv bytes (MPI_Type_size ty)).toNat →
        load_elem w st'.mem (env.win_proc mreg.window proc)
            (env.win_base mreg.window proc + (dst - sl.base) + (w : Int) * (i : Int)) =
          (load_elem w st.mem (env.win_proc mreg.window proc)
              (env.win_base mreg.window proc + (dst - sl.base) + (w : Int) * (i : Int)) +
            pattern_sum w st.mem env.self i cs) % 256 ^ w) := by
  induction cs generalizing st with
  | nil =>
    refine ⟨st, rfl, rfl, fun _ _ _ => rfl, ?_⟩
    intro i _
    simp only [pattern_sum, List.map_nil, List.sum_nil, add_zero]
    exact (Nat.mod_eq_of_lt (load_elem_lt _ _ _ _)).symm
  | cons c cs ih =>
    obtain ⟨st1, hok, hreg1, hval1, hframe1⟩ := ARMCI_Acc_int_mem env st datatype ty w
      c.scale c.src dst bytes proc mreg sl hdt hw hl hs hsz hc
    obtain ⟨st', hrun, hreg', hframe', hval'⟩ := ih st1 (by rw [hreg1]; exact hl)
      (fun c' hc' => hclear c' (List.mem_cons_of_mem _ hc'))
    refine ⟨st', ?_, by rw [hreg', hreg1], ?_, ?_⟩
    · simp only [acc_calls, List.map_cons, run, step, hok]
      exact hrun
    · intro q x hq
      rw [hframe' q x hq, hframe1 q x hq]
    · intro i hi
      rw [hval' i hi, hval1 i hi]
      have hps : pattern_sum w st1.mem env.self i cs = pattern_sum w st.mem env.self i cs := by
        apply pattern_sum_congr
        intro c' hc'
        exact clear_loads env _ _ w _ c' (hclear c' (List.mem_cons_of_mem _ hc')) st1.mem
          st.mem hframe1 i hi
      have e : pattern_sum w st.mem env.self i (c :: cs) =
          load_elem w st.mem env.self (c.src + (w : Int) * (i : Int)) *
            load_elem w st.mem env.self c.scale + pattern_sum w st.mem env.self i cs := by
        simp [pattern_sum]
      rw [hps, e, Nat.mod_add_mod, add_assoc]
theorem acc_calls_checks (env : Env) (datatype : Int) (ty : MPI_Datatype)
    (dst bytes proc : Int) (mreg : mem_region_t) (sl : mem_region_slice_t)
    (hdt : acc_type datatype = some ty) (hs : slice_at mreg proc = some sl)
    (hsz : sl.size < 2147483648) (c : acc_args) (cs : List acc_args) (st st' : State)
    (hl : mem_region_lookup st.registry dst proc = some mreg)
    (hrun : run env (acc_calls datatype dst bytes proc (c :: cs)) st = .ok st') :
    Int.tmod bytes (MPI_Type_size ty) = 0 ∧ dst + bytes ≤ sl.base + sl.size := by
  by_contra hc
  have ha := ARMCI_Acc_eq env datatype c.scale c.src dst bytes proc st hdt hl hs hsz
  rw [if_neg hc] at ha
  simp [acc_calls, run, step, ha] at hrun

/-- C10. For any finite sequence of successful integer `ARMCI_Acc` calls (scales `s_k`,
sources `src_k`, read from buffers of the initiator that do not overlap the target elements)
onto the same target elements, the final value of each element equals, in fixed-width (two's
complement) arithmetic, its initial value plus the sum over `k` of `s_k * src_k[i]`; and every
permutation of the calls also succeeds and leaves the same value in each element. -/
theorem C10_integer_acc_sequence_sum (env : Env) (st st' : State)
    (datatype : Int) (ty : MPI_Datatype) (w : Nat) (dst bytes proc : Int)
    (mreg : mem_region_t) (sl : mem_region_slice_t) (calls calls' : List acc_args)
    (hty : (datatype = ARMCI_ACC_INT ∧ ty = .MPI_INT ∧ w = 4) ∨
      (datatype = ARMCI_ACC_LNG ∧ ty = .MPI_LONG ∧ w = 8))
    (hreg : int_sizes st.registry = true)
    (hl : mem_region_lookup st.registry dst proc = some mreg)
    (hs : slice_at mreg proc = some sl)
    (hclear : ∀ c ∈ calls, acc_buffers_clear env (env.win_proc mreg.window proc)
      (env.win_base mreg.window proc + (dst - sl.base)) w (Int.tdiv bytes (w : Int)).toNat c)
    (hrun : run env (acc_calls datatype dst bytes proc calls) st = .ok st')
    (hperm : calls'.Perm calls) :
    (∀ i : Nat, i < (Int.tdiv bytes (w : Int)).toNat →
      int_val w (load_elem w st'.mem (env.win_proc mreg.window proc)
          (env.win_base mreg.window proc + (dst - sl.base) + (w : Int) * (i : Int))) =
        wrap w (int_val w (load_elem w st.mem (env.win_proc mreg.window proc)
            (env.win_base mreg.window proc + (dst - sl.base) + (w : Int) * (i : Int))) +
          scaled_sum w st.mem env.self i calls)) ∧
    (∃ st'', run env (acc_calls datatype dst bytes proc calls') st = .ok st'' ∧
      ∀ i : Nat, i < (Int.tdiv bytes (w : Int)).toNat →
        load_elem w st''.mem (env.win_proc mreg.window proc)
            (env.win_base mreg.window proc + (dst - sl.base) + (w : Int) * (i : Int)) =
          load_elem w st'.mem (env.win_proc mreg.window proc)
            (env.win_base mreg.window proc + (dst - sl.base) + (w : Int) * (i : Int))) := by
  have hw : (ty = .MPI_INT ∧ w = 4) ∨ (ty = .MPI_LONG ∧ w = 8) := by
    rcases hty with ⟨_, h1, h2⟩ | ⟨_, h1, h2⟩
    · exact Or.inl ⟨h1, h2⟩
    · exact Or.inr ⟨h1, h2⟩
  have hw2 : w = 4 ∨ w = 8 := by
    rcases hw with ⟨_, h⟩ | ⟨_, h⟩
    · exact Or.inl h
    · exact Or.inr h
  have hdt : acc_type datatype = some ty := by
    rcases hty with ⟨rfl, rfl, _⟩ | ⟨rfl, rfl, _⟩ <;> decide
  have hsize : MPI_Type_size ty = (w : Int) := by
    rcases hw with ⟨rfl, rfl⟩ | ⟨rfl, rfl⟩ <;> rfl
  obtain ⟨hm, sl1, hs1, _, _⟩ := lookup_sound hl
  rw [hs] at hs1
  cases hs1
  have hsz := int_sizes_slice hreg hm (slice_at_mem hs)
  have key : ∀ cs : List acc_args, cs.Perm calls →
      ∃ st2, run env (acc_calls datatype dst bytes proc cs) st = .ok st2 ∧
        ∀ i : Nat, i < (Int.tdiv bytes (w : Int)).toNat →
          load_elem w st2.mem (env.win_proc mreg.window proc)
              (env.win_base mreg.window proc + (dst - sl.base) + (w : Int) * (i : Int)) =
            (load_elem w st.mem (env.win_proc mreg.window proc)
                (env.win_base mreg.window proc + (dst - sl.base) + (w : Int) * (i : Int)) +
              pattern_sum w st.mem env.self i calls) % 256 ^ w := by
    intro cs hcs
    cases calls with
    | nil =>
      have : cs = [] := List.Perm.eq_nil hcs
      subst this
      refine ⟨st, rfl, ?_⟩
      intro i _
      simp only [pattern_sum, List.map_nil, List.sum_nil, add_zero]
      exact (Nat.mod_eq_of_lt (load_elem_lt _ _ _ _)).symm
    | cons c rest =>
      have hc := acc_calls_checks env datatype ty dst bytes proc mreg sl hdt hs hsz c rest st
        st' hl hrun
      have hcl : ∀ c' ∈ cs, acc_buffers_clear env (env.win_proc mreg.window proc)
          (env.win_base mreg.window proc + (dst - sl.base)) w
          (Int.tdiv bytes (MPI_Type_size ty)).toNat c' := by
        intro c' hc'
        rw [hsize]
        exact hclear c' ((List.Perm.mem_iff hcs).mp hc')
      obtain ⟨st2, h1, _, _, h4⟩ := run_acc_calls env datatype ty w dst bytes proc mreg sl
        hdt hw hs hsz hc cs st hl hcl
      rw [hsize] at h4
      refine ⟨st2, h1, ?_⟩
      intro i hi
      rw [h4 i hi, pattern_sum_perm w st.mem env.self i hcs]
  obtain ⟨st2, h1, h2⟩ := key calls (List.Perm.refl _)
  rw [hrun] at h1
  cases h1
  obtain ⟨st3, h3, h4⟩ := key calls' hperm
  refine ⟨?_, st3, h3, ?_⟩
  · intro i hi
    rw [h2 i hi]
    exact int_val_sum w hw2 st.mem env.self i calls _
  · intro i hi
    rw [h4 i hi, h2 i hi]

/-- Witness of C10 in the example job: eight calls with scale 1 and source 1, ..., 8 onto the
eight zero-initialised 64-bit slots of rank 0 leave slot `i` holding `8 * (i + 1)`. -/
theorem C10_witness :
    int_sizes ex_state.registry = true ∧
    (∀ c ∈ List.replicate 8 ({ scale := 100, src := 0 } : acc_args),
      acc_buffers_clear ex_env 0 1000 8 8 c) ∧
    ∃ st', run ex_env (acc_calls ARMCI_ACC_LNG 1000 64 0
        (List.replicate 8 { scale := 100, src := 0 })) ex_state = .ok st' ∧
      ∀ i : Nat, i < 8 → int_val 8 (load_elem 8 st'.mem 0 (1000 + 8 * (i : Int))) =
        8 * ((i : Int) + 1) := by
  obtain ⟨st', hrun⟩ : ∃ st', run ex_env (acc_calls ARMCI_ACC_LNG 1000 64 0
      (List.replicate 8 { scale := 100, src := 0 })) ex_state = .ok st' := ⟨_, rfl⟩
  have h := (C10_integer_acc_sequence_sum ex_env ex_state st' ARMCI_ACC_LNG .MPI_LONG 8
    1000 64 0
    { window := 7, slices := [{ base := 1000, size := 64 }, { base := 2000, size := 64 }] }
    { base := 1000, size := 64 } (List.replicate 8 { scale := 100, src := 0 })
    (List.replicate 8 { scale := 100, src := 0 }) (Or.inr ⟨rfl, rfl, rfl⟩) (by decide)
    (by decide) (by decide) (by decide) hrun (List.Perm.refl _)).1
  refine ⟨by decide, by decide, st', hrun, ?_⟩
  intro i hi
  interval_cases i
  · exact (h 0 (by decide)).trans (by decide)
  · exact (h 1 (by decide)).trans (by decide)
  · exact (h 2 (by decide)).trans (by decide)
  · exact (h 3 (by decide)).trans (by decide)
  · exact (h 4 (by decide)).trans (by decide)
  · exact (h 5 (by decide)).trans (by decide)
  · exact (h 6 (by decide)).trans (by decide)
  · exact (h 7 (by decide)).trans (by decide)


/-! ## C11: the fences -/

/-- C11. `ARMCI_Fence (proc)`, for every `proc` (a valid rank or not), and `ARMCI_AllFence ()`
are no-ops: they return in the state in which they were called, so without any transport call
and with the world group, the registry, the open epochs, the memory of every process and
hence the contents of every window unchanged. -/
theorem C11_fences_are_no_ops (env : Env) (proc : Int) (st : State) :
    (∃ st', ARMCI_Fence proc st = .ok ((), st') ∧ st' = st ∧ st'.calls = st.calls ∧
      st'.ARMCI_GROUP_WORLD = st.ARMCI_GROUP_WORLD ∧ st'.registry = st.registry ∧
      st'.epochs = st.epochs ∧
      ∀ win rank k, window_content env st' win rank k = window_content env st win rank k) ∧
    (∃ st', ARMCI_AllFence st = .ok ((), st') ∧ st' = st ∧ st'.calls = st.calls ∧
      st'.ARMCI_GROUP_WORLD = st.ARMCI_GROUP_WORLD ∧ st'.registry = st.registry ∧
      st'.epochs = st.epochs ∧
      ∀ win rank k, window_content env st' win rank k = window_content env st win rank k) :=
  ⟨⟨st, rfl, rfl, rfl, rfl, rfl, rfl, fun _ _ _ => rfl⟩,
    ⟨st, rfl, rfl, rfl, rfl, rfl, rfl, fun _ _ _ => rfl⟩⟩

/-! ## C12: the barrier -/

/-- C12 fails as stated.  In the example job, after the default group has been set to a
proper sub-group (the initiator alone, on communicator 5), `ARMCI_Barrier` makes its one
barrier on `MPI_COMM_WORLD`, not on the communicator of the default group. -/
theorem C12_counterexample :
    ∃ st', ARMCI_Barrier (ARMCI_Group_set_default ex_subgroup ex_runtime).st = .ok ((), st') ∧
      st'.calls = [MPI_Call.Barrier MPI_COMM_WORLD] ∧
      (ARMCI_Group_set_default ex_subgroup ex_runtime).ARMCI_GROUP_DEFAULT.comm = 5 ∧
      MPI_Call.Barrier (ARMCI_Group_set_default ex_subgroup ex_runtime).ARMCI_GROUP_DEFAULT.comm
        ∉ st'.calls :=
  ⟨_, rfl, rfl, rfl, by decide⟩

/-- C12 (as amended). `ARMCI_Barrier ()` is `ARMCI_AllFence ()` followed by exactly one
collective transport barrier, and that barrier is performed over `MPI_COMM_WORLD`, whatever
the current default group: it synchronises all the processes of the job. -/
theorem C12_barrier_is_allfence_then_world_barrier (rt : Runtime) :
    ARMCI_AllFence rt.st = .ok ((), rt.st) ∧
    ARMCI_Barrier rt.st = .ok ((), MPI_Barrier MPI_COMM_WORLD rt.st) ∧
    (MPI_Barrier MPI_COMM_WORLD rt.st).calls =
      rt.st.calls ++ [MPI_Call.Barrier MPI_COMM_WORLD] ∧
    ∀ group : ARMCI_Group,
      ARMCI_Barrier (ARMCI_Group_set_default group rt).st =
        .ok ((), MPI_Barrier MPI_COMM_WORLD rt.st) :=
  ⟨rfl, rfl, rfl, fun _ => rfl⟩

/-! ## C13, C14: initialisation and shutdown -/

/-- C13 (the code departs from the claim). `ARMCI_Init_args (argc, argv)` returns 0 in the
state in which it was called: it makes no transport call and leaves the world group as it
was.  `ARMCI_Init ()` returns 0 after duplicating `MPI_COMM_WORLD` and storing the duplicate,
the caller's rank in it and its size in the world group.  In a process that has called
nothing yet the two leave different world groups. -/
theorem C13_init_args_leaves_world_group (env : Env) (argc argv : Int) (st : State) :
    ARMCI_Init_args argc argv st = .ok (0, st) ∧
    (∃ st1, ARMCI_Init env st = .ok (0, st1) ∧
      st1.ARMCI_GROUP_WORLD =
        { comm := env.comm_dup MPI_COMM_WORLD,
          rank := env.comm_rank (env.comm_dup MPI_COMM_WORLD),
          size := env.comm_size (env.comm_dup MPI_COMM_WORLD) } ∧
      st1.calls = st.calls ++
        [MPI_Call.Comm_dup MPI_COMM_WORLD (env.comm_dup MPI_COMM_WORLD)]) ∧
    (∃ st1 st2, ARMCI_Init ex_env ex_fresh = .ok (0, st1) ∧
      ARMCI_Init_args argc argv ex_fresh = .ok (0, st2) ∧
      st1.ARMCI_GROUP_WORLD = { comm := 1, rank := 1, size := 2 } ∧
      st2.ARMCI_GROUP_WORLD = { comm := 0, rank := 0, size := 0 } ∧
      st1.calls = [MPI_Call.Comm_dup MPI_COMM_WORLD 1] ∧ st2.calls = []) :=
  ⟨rfl, ⟨_, rfl, rfl, rfl⟩, ⟨_, _, rfl, rfl, rfl, rfl, rfl, rfl⟩⟩

/-- C14 fails as stated.  In a process that has called nothing yet, after `ARMCI_Init ()` and
`ARMCI_Finalize ()` the world group still holds the duplicate of `MPI_COMM_WORLD`, and that
communicator has not been released. -/
theorem C14_counterexample :
    ∃ st1 st2, ARMCI_Init ex_env ex_fresh = .ok (0, st1) ∧
      ARMCI_Finalize st1 = .ok (0, st2) ∧
      st2.ARMCI_GROUP_WORLD = { comm := 1, rank := 1, size := 2 } ∧
      st2.calls = [MPI_Call.Comm_dup MPI_COMM_WORLD 1] ∧
      st2.ARMCI_GROUP_WORLD.comm ∈ held_comms st2.calls :=
  ⟨_, _, rfl, rfl, rfl, rfl, by decide⟩

/-- C14 (as amended). `ARMCI_Finalize ()` returns 0 in the state in which it was called and
makes no transport call.  After `ARMCI_Init ()` and `ARMCI_Finalize ()` the registry holds
the records it held before the two calls (none, if it held none), the world group holds the
duplicate of `MPI_COMM_WORLD` made by `ARMCI_Init`, and the only transport call made is that
duplication. -/
theorem C14_finalize_changes_nothing (env : Env) (st : State) :
    ARMCI_Finalize st = .ok (0, st) ∧
    ∃ st1, ARMCI_Init env st = .ok (0, st1) ∧ ARMCI_Finalize st1 = .ok (0, st1) ∧
      st1.registry = st.registry ∧
      st1.ARMCI_GROUP_WORLD.comm = env.comm_dup MPI_COMM_WORLD ∧
      st1.calls = st.calls ++
        [MPI_Call.Comm_dup MPI_COMM_WORLD (env.comm_dup MPI_COMM_WORLD)] :=
  ⟨rfl, _, rfl, rfl, rfl, rfl, rfl⟩

/-! ## C15: local access epochs -/

/-- C15. For every pointer that resolves in the registry at the caller's own rank,
`ARMCI_Access_start` issues an exclusive lock on, and so opens an epoch on, (record.window,
caller's rank in the window's group), and `ARMCI_Access_end` issues the matching unlock and
closes exactly that epoch, so that `ARMCI_Access_start` followed by `ARMCI_Access_end` on the
same pointer restores the open epochs; for a pointer that does not resolve at the caller's
rank both fail by assertion in the unchanged state, without a lock or an unlock. -/
theorem C15_access_start_end_bracket (env : Env) (st : State) (ptr : Int) :
    (∀ mreg, mem_region_lookup st.registry ptr (env.comm_rank st.ARMCI_GROUP_WORLD.comm) =
        some mreg →
      (∃ st1 st2, ARMCI_Access_start env ptr st = .ok ((), st1) ∧
        st1.calls = st.calls ++ [MPI_Call.Win_lock .MPI_LOCK_EXCLUSIVE
          (env.win_group_rank mreg.window) 0 mreg.window] ∧
        st1.epochs = (mreg.window, env.win_group_rank mreg.window) :: st.epochs ∧
        ARMCI_Access_end env ptr st1 = .ok ((), st2) ∧
        st2.calls = st1.calls ++
          [MPI_Call.Win_unlock (env.win_group_rank mreg.window) mreg.window] ∧
        st2.epochs = st1.epochs.erase (mreg.window, env.win_group_rank mreg.window) ∧
        st2.epochs = st.epochs) ∧
      (∃ st3, ARMCI_Access_end env ptr st = .ok ((), st3) ∧
        st3.calls = st.calls ++
          [MPI_Call.Win_unlock (env.win_group_rank mreg.window) mreg.window] ∧
        st3.epochs = st.epochs.erase (mreg.window, env.win_group_rank mreg.window))) ∧
    (mem_region_lookup st.registry ptr (env.comm_rank st.ARMCI_GROUP_WORLD.comm) = none →
      ARMCI_Access_start env ptr st = .error (.assertion, st) ∧
      ARMCI_Access_end env ptr st = .error (.assertion, st)) := by
  constructor
  · intro mreg hl
    have hs : ARMCI_Access_start env ptr st = .ok ((), MPI_Win_lock .MPI_LOCK_EXCLUSIVE
        (env.win_group_rank mreg.window) 0 mreg.window st) := by
      unfold ARMCI_Access_start
      simp only [hl]
    have he : ∀ s : State, s.registry = st.registry →
        s.ARMCI_GROUP_WORLD = st.ARMCI_GROUP_WORLD →
        ARMCI_Access_end env ptr s =
          .ok ((), MPI_Win_unlock (env.win_group_rank mreg.window) mreg.window s) := by
      intro s h1 h2
      unfold ARMCI_Access_end
      simp only [h1, h2, hl]
    refine ⟨⟨_, _, hs, rfl, rfl, he _ rfl rfl, rfl, rfl, ?_⟩, ⟨_, he st rfl rfl, rfl, rfl⟩⟩
    simp [MPI_Win_unlock, MPI_Win_lock]
  · intro hl
    constructor
    · unfold ARMCI_Access_start
      simp only [hl]
    · unfold ARMCI_Access_end
      simp only [hl]

/-- Witness of C15 in the example job: the pointer 2000, in the initiator's own slice. -/
theorem C15_witness :
    mem_region_lookup ex_state.registry 2000
        (ex_env.comm_rank ex_state.ARMCI_GROUP_WORLD.comm) = some
      { window := 7, slices := [{ base := 1000, size := 64 }, { base := 2000, size := 64 }] } ∧
    ∃ st1 st2, ARMCI_Access_start ex_env 2000 ex_state = .ok ((), st1) ∧
      st1.epochs = [(7, 1)] ∧
      ARMCI_Access_end ex_env 2000 st1 = .ok ((), st2) ∧ st2.epochs = ex_state.epochs := by
  have hl : mem_region_lookup ex_state.registry 2000
      (ex_env.comm_rank ex_state.ARMCI_GROUP_WORLD.comm) = some
      { window := 7, slices := [{ base := 1000, size := 64 }, { base := 2000, size := 64 }] } := by
    decide
  obtain ⟨st1, st2, h1, _, h3, h4, _, _, h7⟩ :=
    ((C15_access_start_end_bracket ex_env ex_state 2000).1 _ hl).1
  exact ⟨hl, st1, st2, h1, h3, h4, h7⟩


/-! ## C16, C17: the binary tree of `armci_msg_bintree` -/

theorem bintree_fields (SCOPE_NODE scope me nproc : Int) (out : bintree_out)
    (hscope : scope ≠ SCOPE_NODE) (hn : nproc < 1073741824) (h0 : 0 ≤ me) (h1 : me < nproc) :
    (armci_msg_bintree SCOPE_NODE scope me nproc out).root = 0 ∧
    (armci_msg_bintree SCOPE_NODE scope me nproc out).up =
      (if me = 0 then -1 else (me - 1) / 2) ∧
    (armci_msg_bintree SCOPE_NODE scope me nproc out).left =
      (if 2 * me + 1 ≥ nproc then -1 else 2 * me + 1) ∧
    (armci_msg_bintree SCOPE_NODE scope me nproc out).right =
      (if 2 * me + 2 ≥ nproc then -1 else 2 * me + 2) := by
  have e0 : to_int (me - 1) = me - 1 ∨ me = 0 := by
    by_cases h : me = 0
    · exact Or.inr h
    · exact Or.inl (to_int_of_range _ (by omega) (by omega))
  have e1 : to_int (2 * me) = 2 * me := to_int_of_range _ (by omega) (by omega)
  have e2 : to_int (2 * me + 1) = 2 * me + 1 := to_int_of_range _ (by omega) (by omega)
  have e3 : to_int (2 * me + 2) = 2 * me + 2 := to_int_of_range _ (by omega) (by omega)
  unfold armci_msg_bintree
  rw [if_neg hscope]
  simp only [e1, e2, e3]
  refine ⟨trivial, ?_, trivial, trivial⟩
  by_cases h : me = 0
  · simp [h]
  · rcases e0 with e0 | e0
    · simp only [h, if_false, e0]
      have hm : (0 : Int) ≤ me - 1 := by omega
      exact Int.tdiv_eq_ediv hm (by decide)
    · exact absurd e0 h

/-- C16 fails as stated.  With `nproc = 2^30` and a scope other than `SCOPE_NODE`, at rank
`me = 2^30 - 1` the sum `2*me + 2` does not fit an `int`: the right child computed is
`-2^31`, which is neither -1 nor a rank. -/
theorem C16_counterexample :
    (armci_msg_bintree 337 333 1073741823 1073741824
      { root := 0, up := 0, left := 0, right := 0 }).right = -2147483648 ∧
    ¬ ((armci_msg_bintree 337 333 1073741823 1073741824
        { root := 0, up := 0, left := 0, right := 0 }).right = -1 ∨
      (1073741823 < (armci_msg_bintree 337 333 1073741823 1073741824
        { root := 0, up := 0, left := 0, right := 0 }).right ∧
       (armci_msg_bintree 337 333 1073741823 1073741824
        { root := 0, up := 0, left := 0, right := 0 }).right < 1073741824)) := by
  decide

/-- C16 (as amended). For every `nproc` with `1 <= nproc < 2^30` and every scope other than
`SCOPE_NODE`, the outputs of `armci_msg_bintree` over the ranks `me` in `[0, nproc)` form one
binary tree rooted at 0 on exactly those ranks: root = 0; up = -1 exactly when `me = 0` and
otherwise `0 <= up < me`; each of left and right is either -1 or a rank in `(me, nproc)`;
whenever left or right at `me` is a rank `c`, up computed at rank `c` equals `me`; and every
`me > 0` is the left or the right child of its parent. -/
theorem C16_bintree_is_a_tree (SCOPE_NODE scope nproc me : Int) (out : bintree_out)
    (hscope : scope ≠ SCOPE_NODE) (hn1 : 1 ≤ nproc) (hn : nproc < 1073741824)
    (h0 : 0 ≤ me) (h1 : me < nproc) :
    (armci_msg_bintree SCOPE_NODE scope me nproc out).root = 0 ∧
    ((armci_msg_bintree SCOPE_NODE scope me nproc out).up = -1 ↔ me = 0) ∧
    (me ≠ 0 → 0 ≤ (armci_msg_bintree SCOPE_NODE scope me nproc out).up ∧
      (armci_msg_bintree SCOPE_NODE scope me nproc out).up < me) ∧
    ((armci_msg_bintree SCOPE_NODE scope me nproc out).left = -1 ∨
      (me < (armci_msg_bintree SCOPE_NODE scope me nproc out).left ∧
        (armci_msg_bintree SCOPE_NODE scope me nproc out).left < nproc)) ∧
    ((armci_msg_bintree SCOPE_NODE scope me nproc out).right = -1 ∨
      (me < (armci_msg_bintree SCOPE_NODE scope me nproc out).right ∧
        (armci_msg_bintree SCOPE_NODE scope me nproc out).right < nproc)) ∧
    (∀ c out', ((armci_msg_bintree SCOPE_NODE scope me nproc out).left = c ∨
        (armci_msg_bintree SCOPE_NODE scope me nproc out).right = c) → c ≠ -1 →
      (armci_msg_bintree SCOPE_NODE scope c nproc out').up = me) ∧
    (me > 0 → ∀ out',
      (armci_msg_bintree SCOPE_NODE scope
          (armci_msg_bintree SCOPE_NODE scope me nproc out).up nproc out').left = me ∨
      (armci_msg_bintree SCOPE_NODE scope
          (armci_msg_bintree SCOPE_NODE scope me nproc out).up nproc out').right = me) := by
  obtain ⟨hr, hu, hl, hrt⟩ := bintree_fields SCOPE_NODE scope me nproc out hscope hn h0 h1
  rw [hr, hu, hl, hrt]
  refine ⟨rfl, ?_, ?_, ?_, ?_, ?_, ?_⟩
  · split_ifs <;> omega
  · intro hme
    rw [if_neg hme]
    omega
  · split_ifs <;> omega
  · split_ifs <;> omega
  · intro c out' hc hne
    have hc0 : 0 ≤ c ∧ c < nproc ∧ (c = 2 * me + 1 ∨ c = 2 * me + 2) := by
      rcases hc with hc | hc
      · split_ifs at hc <;> omega
      · split_ifs at hc <;> omega
    obtain ⟨_, hu', _, _⟩ := bintree_fields SCOPE_NODE scope c nproc out' hscope hn hc0.1
      hc0.2.1
    rw [hu']
    split_ifs <;> omega
  · intro hpos out'
    have hme : me ≠ 0 := by omega
    rw [if_neg hme]
    obtain ⟨_, _, hl', hr'⟩ := bintree_fields SCOPE_NODE scope ((me - 1) / 2) nproc out' hscope
      hn (by omega) (by omega)
    rw [hl', hr']
    split_ifs <;> omega

/-- Witness of C16 (as amended): four processes, rank 1, a scope other than `SCOPE_NODE`. -/
theorem C16_witness :
    (333 : Int) ≠ 337 ∧ (1 : Int) ≤ 4 ∧ (4 : Int) < 1073741824 ∧ (0 : Int) ≤ 1 ∧
    (1 : Int) < 4 ∧
    (armci_msg_bintree 337 333 1 4 { root := 9, up := 9, left := 9, right := 9 }).root = 0 ∧
    (armci_msg_bintree 337 333 1 4 { root := 9, up := 9, left := 9, right := 9 }).up = 0 ∧
    (armci_msg_bintree 337 333 1 4 { root := 9, up := 9, left := 9, right := 9 }).left = 3 ∧
    (armci_msg_bintree 337 333 1 4 { root := 9, up := 9, left := 9, right := 9 }).right = -1 :=
  ⟨by decide, by decide, by decide, by decide, by decide,
    (C16_bintree_is_a_tree 337 333 4 1 { root := 9, up := 9, left := 9, right := 9 }
      (by decide) (by decide) (by decide) (by decide) (by decide)).1,
    by decide, by decide, by decide⟩

/-- C17 (the code departs from the claim). For the scope `SCOPE_NODE`, `armci_msg_bintree`
assigns root = 0, left = -1 and right = -1 and does not assign `up`: on return the location
of `up` holds the value it held before the call (5 in the instance, not -1). -/
theorem C17_scope_node_leaves_up (SCOPE_NODE me nproc : Int) (out : bintree_out) :
    (armci_msg_bintree SCOPE_NODE SCOPE_NODE me nproc out).root = 0 ∧
    (armci_msg_bintree SCOPE_NODE SCOPE_NODE me nproc out).left = -1 ∧
    (armci_msg_bintree SCOPE_NODE SCOPE_NODE me nproc out).right = -1 ∧
    (armci_msg_bintree SCOPE_NODE SCOPE_NODE me nproc out).up = out.up ∧
    (armci_msg_bintree 337 337 0 1 { root := 7, up := 5, left := 7, right := 7 }).up = 5 := by
  unfold armci_msg_bintree
  simp


/-! ## C18: the processor grid of the LU test -/

theorem lu_grid_loop_spec (nproc : Int) (r : Nat) (hr : 1 ≤ r) :
    ∃ num_rows num_cols, lu_grid_loop nproc r = some (num_rows, num_cols) ∧
      1 ≤ num_rows ∧ num_rows ≤ (r : Int) ∧ num_rows * num_cols = nproc ∧
      num_cols = Int.tdiv nproc num_rows := by
  induction r with
  | zero => omega
  | succ r ih =>
    unfold lu_grid_loop
    dsimp only
    by_cases h : ((r + 1 : Nat) : Int) * Int.tdiv nproc ((r + 1 : Nat) : Int) = nproc
    · rw [if_pos h]
      exact ⟨_, _, rfl, by omega, le_refl _, h, rfl⟩
    · rw [if_neg h]
      have hr1 : 1 ≤ r := by
        by_contra hc
        have hr0 : r = 0 := by omega
        subst hr0
        apply h
        simp
      obtain ⟨a, b, h1, h2, h3, h4, h5⟩ := ih hr1
      exact ⟨a, b, h1, h2, by push_cast at h3 ⊢; omega, h4, h5⟩

theorem lu_sqrt_pos (nproc : Int) (hp : 1 ≤ nproc) : 1 ≤ lu_sqrt nproc := by
  unfold lu_sqrt
  have : 0 < nproc.toNat := by omega
  exact Nat.sqrt_pos.mpr this

theorem block_owner_range (num_rows num_cols nproc I J : Int) (hr : 1 ≤ num_rows)
    (hp : 1 ≤ nproc) (hg : num_rows * num_cols = nproc) (hI : 0 ≤ I) (hJ : 0 ≤ J) :
    0 ≤ block_owner num_rows num_cols I J ∧ block_owner num_rows num_cols I J < nproc := by
  have hc : 1 ≤ num_cols := by
    by_contra hc
    have : num_rows * num_cols ≤ 0 := by nlinarith
    omega
  unfold block_owner
  rw [Int.tmod_eq_emod hJ (by omega), Int.tmod_eq_emod hI (by omega)]
  have h1 : 0 ≤ J % num_cols := Int.emod_nonneg _ (by omega)
  have h2 : J % num_cols < num_cols := Int.emod_lt_of_pos _ (by omega)
  have h3 : 0 ≤ I % num_rows := Int.emod_nonneg _ (by omega)
  have h4 : I % num_rows < num_rows := Int.emod_lt_of_pos _ (by omega)
  constructor
  · positivity
  · nlinarith

theorem lu_grid_of_sqrt (nproc : Int) (q : Nat)
    (h1 : q * q ≤ nproc.toNat) (h2 : nproc.toNat < (q + 1) * (q + 1)) :
    lu_grid nproc = lu_grid_loop nproc q := by
  unfold lu_grid lu_sqrt
  rw [← Nat.eq_sqrt.mpr ⟨h1, h2⟩]

/-- C18. In the LU test, for every process count `nproc >= 1` the processor-grid search of
`main` (start at `num_rows = floor (sqrt nproc)`, decrement until
`num_rows * (nproc / num_rows) == nproc`) ends without dividing by zero, with
`num_rows >= 1` and `num_rows * num_cols == nproc`, and consequently
`block_owner (I, J) = (J mod num_cols) + (I mod num_rows) * num_cols` is a rank in
`[0, nproc)` for all block indices `I, J >= 0`. -/
theorem C18_grid_search_ends_and_owner_is_a_rank (nproc : Int) (hp : 1 ≤ nproc) :
    ∃ num_rows num_cols, lu_grid nproc = some (num_rows, num_cols) ∧
      1 ≤ num_rows ∧ num_rows * num_cols = nproc ∧ num_cols = Int.tdiv nproc num_rows ∧
      ∀ I J : Int, 0 ≤ I → 0 ≤ J →
        block_owner num_rows num_cols I J =
          Int.tmod J num_cols + Int.tmod I num_rows * num_cols ∧
        0 ≤ block_owner num_rows num_cols I J ∧ block_owner num_rows num_cols I J < nproc := by
  obtain ⟨a, b, h1, h2, _, h4, h5⟩ := lu_grid_loop_spec nproc (lu_sqrt nproc)
    (lu_sqrt_pos nproc hp)
  exact ⟨a, b, h1, h2, h4, h5, fun I J hI hJ =>
    ⟨rfl, block_owner_range a b nproc I J h2 hp h4 hI hJ⟩⟩

/-- Witness of C18: six processes give a grid of 2 rows and 3 columns. -/
theorem C18_witness :
    (1 : Int) ≤ 6 ∧ lu_grid 6 = some (2, 3) ∧
    ∃ num_rows num_cols, lu_grid 6 = some (num_rows, num_cols) ∧
      1 ≤ num_rows ∧ num_rows * num_cols = 6 ∧ num_cols = Int.tdiv 6 num_rows ∧
      ∀ I J : Int, 0 ≤ I → 0 ≤ J →
        block_owner num_rows num_cols I J =
          Int.tmod J num_cols + Int.tmod I num_rows * num_cols ∧
        0 ≤ block_owner num_rows num_cols I J ∧ block_owner num_rows num_cols I J < 6 :=
  ⟨by decide, (lu_grid_of_sqrt 6 2 (by decide) (by decide)).trans (by decide),
    C18_grid_search_ends_and_owner_is_a_rank 6 (by decide)⟩


/-! ## C19: the layout of the blocks of the LU test -/

theorem lu_proc_bytes_loop_eq (g : lu_globals) (me B : Int) (hB : 0 ≤ B)
    (blocks : List (Nat × Nat))
    (hsize : ∀ b ∈ blocks, lu_size g (b.1 : Int) (b.2 : Int) * 8 = B) (pb : Int)
    (hpb : 0 ≤ pb)
    (hfit : pb + B * ((blocks.countP (fun b =>
      decide (block_owner g.num_rows g.num_cols (b.1 : Int) (b.2 : Int) = me)) : Nat) : Int) <
        2147483648) :
    lu_proc_bytes_loop g me blocks pb =
      pb + B * ((blocks.countP (fun b =>
        decide (block_owner g.num_rows g.num_cols (b.1 : Int) (b.2 : Int) = me)) : Nat) : Int) := by
  induction blocks generalizing pb with
  | nil => simp [lu_proc_bytes_loop]
  | cons b bs ih =>
    have hs := hsize b (List.mem_cons_self _ _)
    have hrest : ∀ b' ∈ bs, lu_size g (b'.1 : Int) (b'.2 : Int) * 8 = B :=
      fun b' hb' => hsize b' (List.mem_cons_of_mem _ hb')
    have hcnt : (0 : Int) ≤ B * ((bs.countP (fun b =>
      decide (block_owner g.num_rows g.num_cols (b.1 : Int) (b.2 : Int) = me)) : Nat) : Int) := by
      positivity
    unfold lu_proc_bytes_loop at ih ⊢
    rw [List.foldl_cons]
    by_cases ho : block_owner g.num_rows g.num_cols (b.1 : Int) (b.2 : Int) = me
    · rw [List.countP_cons_of_pos _ _ (by simpa using ho)] at hfit ⊢
      push_cast at hfit ⊢
      rw [if_pos ho, hs, to_int_of_range _ (by omega) (by nlinarith), ih hrest _ (by omega)
        (by nlinarith)]
      ring
    · rw [List.countP_cons_of_neg _ _ (by simpa using ho)] at hfit ⊢
      rw [if_neg ho, ih hrest _ hpb hfit]
theorem lu_layout_loop_cons (g : lu_globals) (b : Nat × Nat) (bs : List (Nat × Nat))
    (s : lu_arrays) :
    lu_layout_loop g (b :: bs) s = lu_layout_loop g bs
      { a := Function.update s.a (lu_index g (b.1 : Int) (b.2 : Int))
          (s.ptr_loc (block_owner g.num_rows g.num_cols (b.1 : Int) (b.2 : Int))),
        ptr_loc := Function.update s.ptr_loc
          (block_owner g.num_rows g.num_cols (b.1 : Int) (b.2 : Int))
          (s.ptr_loc (block_owner g.num_rows g.num_cols (b.1 : Int) (b.2 : Int)) +
            lu_size g (b.1 : Int) (b.2 : Int) * 8) } := rfl

theorem lu_layout_loop_append (g : lu_globals) (l1 l2 : List (Nat × Nat)) (s : lu_arrays) :
    lu_layout_loop g (l1 ++ l2) s = lu_layout_loop g l2 (lu_layout_loop g l1 s) := by
  unfold lu_layout_loop
  rw [List.foldl_append]

theorem lu_layout_ptr_loc (g : lu_globals) (B : Int) (blocks : List (Nat × Nat))
    (hsize : ∀ b ∈ blocks, lu_size g (b.1 : Int) (b.2 : Int) * 8 = B) (s : lu_arrays)
    (q : Int) :
    (lu_layout_loop g blocks s).ptr_loc q =
      s.ptr_loc q + B * ((blocks.countP (fun b =>
        decide (block_owner g.num_rows g.num_cols (b.1 : Int) (b.2 : Int) = q)) : Nat) : Int) := by
  induction blocks generalizing s with
  | nil => simp [lu_layout_loop]
  | cons b bs ih =>
    have hs := hsize b (List.mem_cons_self _ _)
    have hrest : ∀ b' ∈ bs, lu_size g (b'.1 : Int) (b'.2 : Int) * 8 = B :=
      fun b' hb' => hsize b' (List.mem_cons_of_mem _ hb')
    rw [lu_layout_loop_cons, ih hrest]
    by_cases ho : block_owner g.num_rows g.num_cols (b.1 : Int) (b.2 : Int) = q
    · rw [List.countP_cons_of_pos _ _ (by simpa using ho)]
      subst ho
      simp only [Function.update_same, hs]
      push_cast
      ring
    · rw [List.countP_cons_of_neg _ _ (by simpa using ho)]
      simp only [Function.update_noteq (Ne.symm ho)]

theorem lu_layout_a_frame (g : lu_globals) (blocks : List (Nat × Nat)) (s : lu_arrays)
    (k : Int) (hk : ∀ b ∈ blocks, lu_index g (b.1 : Int) (b.2 : Int) ≠ k) :
    (lu_layout_loop g blocks s).a k = s.a k := by
  induction blocks generalizing s with
  | nil => rfl
  | cons b bs ih =>
    rw [lu_layout_loop_cons, ih _ (fun b' hb' => hk b' (List.mem_cons_of_mem _ hb'))]
    exact Function.update_noteq (Ne.symm (hk b (List.mem_cons_self _ _))) _ _

/-- The address given to a block by the layout loop: the base of its owner plus the bytes
of the blocks of the same owner that precede it. -/
theorem lu_layout_a_at (g : lu_globals) (B : Int) (pre post : List (Nat × Nat))
    (b : Nat × Nat)
    (hsize : ∀ b' ∈ pre, lu_size g (b'.1 : Int) (b'.2 : Int) * 8 = B)
    (hpost : ∀ b' ∈ post, lu_index g (b'.1 : Int) (b'.2 : Int) ≠
      lu_index g (b.1 : Int) (b.2 : Int)) (s : lu_arrays) :
    (lu_layout_loop g (pre ++ b :: post) s).a (lu_index g (b.1 : Int) (b.2 : Int)) =
      s.ptr_loc (block_owner g.num_rows g.num_cols (b.1 : Int) (b.2 : Int)) +
        B * ((pre.countP (fun b' => decide (block_owner g.num_rows g.num_cols (b'.1 : Int)
          (b'.2 : Int) = block_owner g.num_rows g.num_cols (b.1 : Int) (b.2 : Int))) : Nat) :
            Int) := by
  rw [lu_layout_loop_append, lu_layout_loop_cons, lu_layout_a_frame _ _ _ _ hpost]
  simp only [Function.update_same]
  exact lu_layout_ptr_loc g B pre hsize s _

theorem lu_index_eq (g : lu_globals) (i j : Nat) (N : Nat) (hN : g.nblocks = (N : Int))
    (hfit : (N : Int) * (N : Int) < 2147483648) (hi : i < N) (hj : j < N) :
    lu_index g (i : Int) (j : Int) = (i : Int) + (j : Int) * (N : Int) := by
  have h0 : (0 : Int) ≤ (j : Int) * (N : Int) := by positivity
  have h1 : (j : Int) * (N : Int) + (N : Int) ≤ (N : Int) * (N : Int) := by
    have : (j : Int) + 1 ≤ (N : Int) := by omega
    nlinarith
  unfold lu_index
  rw [hN, to_int_of_range _ h0 (by omega), to_int_of_range _ (by omega) (by omega)]

theorem lu_index_inj (g : lu_globals) (b b' : Nat × Nat) (N : Nat)
    (hN : g.nblocks = (N : Int)) (hfit : (N : Int) * (N : Int) < 2147483648)
    (h1 : b.1 < N) (h2 : b.2 < N) (h1' : b'.1 < N) (h2' : b'.2 < N)
    (h : lu_index g (b.1 : Int) (b.2 : Int) = lu_index g (b'.1 : Int) (b'.2 : Int)) :
    b = b' := by
  rw [lu_index_eq g _ _ N hN hfit h1 h2, lu_index_eq g _ _ N hN hfit h1' h2'] at h
  have hj : b.2 = b'.2 := by
    by_contra hne
    rcases Nat.lt_or_gt_of_ne hne with hlt | hlt
    · have : (b.2 : Int) + 1 ≤ (b'.2 : Int) := by omega
      nlinarith
    · have : (b'.2 : Int) + 1 ≤ (b.2 : Int) := by omega
      nlinarith
  have hi : b.1 = b'.1 := by
    rw [hj] at h
    omega
  exact Prod.ext hi hj

theorem mem_lu_blocks (nblocks : Int) (b : Nat × Nat) :
    b ∈ lu_blocks nblocks ↔ b.1 < nblocks.toNat ∧ b.2 < nblocks.toNat := by
  unfold lu_blocks
  obtain ⟨i, j⟩ := b
  show (i, j) ∈ List.range nblocks.toNat ×ˢ List.range nblocks.toNat ↔ _
  rw [List.mem_product, List.mem_range, List.mem_range]

theorem lu_blocks_nodup (nblocks : Int) : (lu_blocks nblocks).Nodup := by
  unfold lu_blocks
  exact List.Nodup.product (List.nodup_range _) (List.nodup_range _)
theorem lu_a_of_split (g : lu_globals) (B : Int) (N : Nat) (ptr a0 : Int → Int)
    (hN : g.nblocks = (N : Int)) (hfit : (N : Int) * (N : Int) < 2147483648)
    (hsize : ∀ i j : Int, lu_size g i j * 8 = B) (pre post : List (Nat × Nat))
    (b : Nat × Nat) (hL : lu_blocks g.nblocks = pre ++ b :: post) :
    lu_a g ptr a0 (lu_index g (b.1 : Int) (b.2 : Int)) =
      ptr (block_owner g.num_rows g.num_cols (b.1 : Int) (b.2 : Int)) +
        B * ((pre.countP (fun b' => decide (block_owner g.num_rows g.num_cols (b'.1 : Int)
          (b'.2 : Int) = block_owner g.num_rows g.num_cols (b.1 : Int) (b.2 : Int))) : Nat) :
            Int) := by
  have hnd := lu_blocks_nodup g.nblocks
  rw [hL] at hnd
  have hmem : ∀ x, x ∈ pre ++ b :: post → x.1 < N ∧ x.2 < N := by
    intro x hx
    rw [← hL, mem_lu_blocks, hN] at hx
    simpa using hx
  have hb := hmem b (by simp)
  have hbpost : b ∉ post := by
    have h1 := (List.nodup_append.mp hnd).2.1
    exact (List.nodup_cons.mp h1).1
  unfold lu_a
  rw [hL]
  apply lu_layout_a_at g B pre post b (fun b' _ => hsize _ _)
  intro b' hb' heq
  have hb'm := hmem b' (by simp [hb'])
  have := lu_index_inj g b' b N hN hfit hb'm.1 hb'm.2 hb.1 hb.2 heq
  rw [this] at hb'
  exact hbpost hb'

theorem lu_size_of_multiple (n block_size nproc : Int) (g : lu_globals)
    (hg : lu_setup n block_size nproc = some g) (hbs : 1 ≤ block_size) (hn : 1 ≤ n)
    (hnint : n < 2147483648) (hmul : Int.tmod n block_size = 0) :
    g.nblocks = Int.tdiv n block_size ∧ g.nproc = nproc ∧
    lu_grid nproc = some (g.num_rows, g.num_cols) ∧
    (block_size * block_size < 2147483648 →
      ∀ i j : Int, lu_size g i j * 8 = block_size * block_size * 8) := by
  unfold lu_setup at hg
  rw [if_neg (by simpa using hmul)] at hg
  cases hgr : lu_grid nproc with
  | none => simp [hgr] at hg
  | some rc =>
    obtain ⟨r, c⟩ := rc
    simp only [hgr, Option.some.injEq] at hg
    subst hg
    have hnb : lu_nblocks n block_size = Int.tdiv n block_size := by
      have hdiv : block_size * Int.tdiv n block_size = n := by
        have := Int.tmod_add_tdiv n block_size
        rw [hmul] at this
        omega
      unfold lu_nblocks
      simp only [hdiv, to_int_of_range n (by omega) hnint, ne_eq, not_true_eq_false, if_false]
    have hedge : lu_edge n block_size = block_size := by
      unfold lu_edge
      simp [hmul]
    refine ⟨hnb, rfl, rfl, ?_⟩
    intro hsq i j
    have hpos : 0 ≤ block_size * block_size := by positivity
    unfold lu_size
    simp only [hedge, to_int_of_range _ hpos hsq]
    split_ifs <;> rfl
theorem lu_registry_lookup (g : lu_globals) (win : Nat) (ptr : Int → Int) (p addr : Int)
    (hp0 : 0 ≤ p) (hp1 : p < g.nproc) (h0 : ptr p ≤ addr)
    (h1 : addr < ptr p + lu_proc_bytes g p) :
    ∃ mreg, mem_region_lookup (lu_registry g win ptr) addr p = some mreg ∧
      mreg.window = win ∧
      slice_at mreg p = some { base := ptr p, size := lu_proc_bytes g p } := by
  have hs : slice_at
      { window := win,
        slices := (List.range g.nproc.toNat).map (fun (p : Nat) =>
          ({ base := ptr (p : Int), size := lu_proc_bytes g (p : Int) } :
            mem_region_slice_t)) } p =
      some { base := ptr p, size := lu_proc_bytes g p } := by
    unfold slice_at
    rw [if_pos hp0]
    have hlt : p.toNat < g.nproc.toNat := by omega
    simp only [List.getElem?_map, List.getElem?_range hlt, Option.map_some',
      Int.toNat_of_nonneg hp0]
  refine ⟨_, ?_, rfl, hs⟩
  unfold mem_region_lookup lu_registry
  apply List.find?_cons_of_pos
  unfold brackets
  rw [hs]
  exact decide_eq_true ⟨h0, h1⟩

theorem lu_setup_of_multiple (n block_size nproc : Int)
    (hmul : Int.tmod n block_size = 0) (hp : 1 ≤ nproc) :
    ∃ g, lu_setup n block_size nproc = some g ∧ 1 ≤ g.num_rows ∧
      g.num_rows * g.num_cols = nproc := by
  obtain ⟨r, c, hgrid, hr1, _, hrc, _⟩ := lu_grid_loop_spec nproc (lu_sqrt nproc)
    (lu_sqrt_pos nproc hp)
  have hg : lu_grid nproc = some (r, c) := hgrid
  refine ⟨{ n := n, block_size := block_size, nproc := nproc, num_rows := r, num_cols := c,
            nblocks := lu_nblocks n block_size, edge := lu_edge n block_size }, ?_, hr1, hrc⟩
  unfold lu_setup
  rw [if_neg (by simpa using hmul)]
  simp only [hg]

/-- C19 (as amended). In the LU test, for every `n` that is a positive multiple of
`block_size` and every block `(I, J)` with `0 <= I, J < nblocks`, provided the arithmetic
stays within `int` (`nblocks * nblocks` fits, and so do the bytes of all the blocks of the
owner of `(I, J)`): the byte offset of `a[I + J*nblocks]` from the base of its owner's
allocation, plus the byte size `get_remote` requests for that block, is at most the number of
bytes (`proc_bytes`) the owner allocated; blocks owned by the same process do not overlap;
and the `ARMCI_Get` issued by `get_remote` for the block passes the assertions of `ARMCI_Get`
at the owner and returns. -/
theorem C19_lu_blocks_inside_owner_allocation (n block_size nproc : Int) (I J : Nat)
    (ptr a0 : Int → Int)
    (hbs : 1 ≤ block_size) (hn : 1 ≤ n) (hnint : n < 2147483648)
    (hmul : Int.tmod n block_size = 0) (hp : 1 ≤ nproc) :
    ∃ g, lu_setup n block_size nproc = some g ∧ g.nblocks = Int.tdiv n block_size ∧
      ((I : Int) < g.nblocks → (J : Int) < g.nblocks →
        g.nblocks * g.nblocks < 2147483648 →
        8 * block_size * block_size *
            (lu_owned g (block_owner g.num_rows g.num_cols (I : Int) (J : Int)) : Int) <
          2147483648 →
        (0 ≤ block_owner g.num_rows g.num_cols (I : Int) (J : Int) ∧
          block_owner g.num_rows g.num_cols (I : Int) (J : Int) < nproc ∧
          0 ≤ lu_a g ptr a0 (lu_index g (I : Int) (J : Int)) -
            ptr (block_owner g.num_rows g.num_cols (I : Int) (J : Int)) ∧
          lu_a g ptr a0 (lu_index g (I : Int) (J : Int)) -
              ptr (block_owner g.num_rows g.num_cols (I : Int) (J : Int)) +
              to_int (lu_size g (I : Int) (J : Int) * 8) ≤
            lu_proc_bytes g (block_owner g.num_rows g.num_cols (I : Int) (J : Int))) ∧
        (∀ I' J' : Nat, (I' : Int) < g.nblocks → (J' : Int) < g.nblocks →
          (I', J') ≠ (I, J) →
          block_owner g.num_rows g.num_cols (I' : Int) (J' : Int) =
            block_owner g.num_rows g.num_cols (I : Int) (J : Int) →
          lu_a g ptr a0 (lu_index g (I : Int) (J : Int)) +
              to_int (lu_size g (I : Int) (J : Int) * 8) ≤
            lu_a g ptr a0 (lu_index g (I' : Int) (J' : Int)) ∨
          lu_a g ptr a0 (lu_index g (I' : Int) (J' : Int)) +
              to_int (lu_size g (I' : Int) (J' : Int) * 8) ≤
            lu_a g ptr a0 (lu_index g (I : Int) (J : Int))) ∧
        (∀ (env : Env) (win : Nat) (buf : Int) (st : State),
          st.registry = lu_registry g win ptr →
          ∃ st', get_remote env g (lu_a g ptr a0) buf (I : Int) (J : Int) st =
            .ok ((), st'))) := by
  obtain ⟨g, hset, hr1, hrc⟩ := lu_setup_of_multiple n block_size nproc hmul hp
  obtain ⟨hnb, hnp, _, hsz⟩ := lu_size_of_multiple n block_size nproc g hset hbs hn hnint hmul
  refine ⟨g, hset, hnb, ?_⟩
  intro hI hJ hidx hbytes
  -- the number of blocks, as a natural number
  have hnb0 : 0 ≤ g.nblocks := by omega
  obtain ⟨N, hN⟩ : ∃ N : Nat, g.nblocks = (N : Int) := ⟨g.nblocks.toNat, by omega⟩
  have hIN : I < N := by omega
  have hJN : J < N := by omega
  have hfit : (N : Int) * (N : Int) < 2147483648 := by rw [← hN]; exact hidx
  have hmemL : ∀ x : Nat × Nat, x ∈ lu_blocks g.nblocks ↔ x.1 < N ∧ x.2 < N := by
    intro x
    rw [mem_lu_blocks, hN]
    simp
  have hbL : (I, J) ∈ lu_blocks g.nblocks := (hmemL (I, J)).mpr ⟨hIN, hJN⟩
  -- the owner is a rank
  have hown : ∀ i j : Nat, 0 ≤ block_owner g.num_rows g.num_cols (i : Int) (j : Int) ∧
      block_owner g.num_rows g.num_cols (i : Int) (j : Int) < nproc := by
    intro i j
    exact block_owner_range g.num_rows g.num_cols nproc _ _ hr1 hp hrc (by positivity)
      (by positivity)
  -- the owner owns at least this block, so one block fits an `int`
  have hcnt1 : 1 ≤ lu_owned g (block_owner g.num_rows g.num_cols (I : Int) (J : Int)) := by
    unfold lu_owned
    apply List.countP_pos_iff.mpr
    exact ⟨(I, J), hbL, by simp⟩
  have hB0 : 0 < block_size * block_size * 8 := by positivity
  have hBfit : block_size * block_size * 8 *
      (lu_owned g (block_owner g.num_rows g.num_cols (I : Int) (J : Int)) : Int) <
        2147483648 := by
    have e : block_size * block_size * 8 *
        (lu_owned g (block_owner g.num_rows g.num_cols (I : Int) (J : Int)) : Int) =
        8 * block_size * block_size *
          (lu_owned g (block_owner g.num_rows g.num_cols (I : Int) (J : Int)) : Int) := by
      ring
    rw [e]
    exact hbytes
  have hB1 : block_size * block_size * 8 < 2147483648 := by
    have : (1 : Int) ≤
        (lu_owned g (block_owner g.num_rows g.num_cols (I : Int) (J : Int)) : Int) := by
      exact_mod_cast hcnt1
    nlinarith
  have hsize := hsz (by omega)
  have hreq : ∀ i j : Int, to_int (lu_size g i j * 8) = block_size * block_size * 8 := by
    intro i j
    rw [hsize, to_int_of_range _ (by omega) hB1]
  -- `proc_bytes` of the owner
  have hpb : lu_proc_bytes g (block_owner g.num_rows g.num_cols (I : Int) (J : Int)) =
      block_size * block_size * 8 *
        (lu_owned g (block_owner g.num_rows g.num_cols (I : Int) (J : Int)) : Int) := by
    unfold lu_proc_bytes
    rw [lu_proc_bytes_loop_eq g _ (block_size * block_size * 8) (by omega) _
      (fun b _ => hsize _ _) 0 (le_refl _) (by rw [zero_add]; exact hBfit), zero_add]
    rfl
  -- the place of the block in the order of the loops
  obtain ⟨pre, post, hL⟩ := List.append_of_mem hbL
  have hcount : lu_owned g (block_owner g.num_rows g.num_cols (I : Int) (J : Int)) =
      pre.countP (fun b' => decide (block_owner g.num_rows g.num_cols (b'.1 : Int)
        (b'.2 : Int) = block_owner g.num_rows g.num_cols (I : Int) (J : Int))) + 1 +
      post.countP (fun b' => decide (block_owner g.num_rows g.num_cols (b'.1 : Int)
        (b'.2 : Int) = block_owner g.num_rows g.num_cols (I : Int) (J : Int))) := by
    unfold lu_owned
    rw [hL, List.countP_append, List.countP_cons_of_pos _ _ (by simp)]
    omega
  have ha := lu_a_of_split g (block_size * block_size * 8) N ptr a0 hN hfit hsize pre post
    (I, J) hL
  simp only at ha
  have hnd := lu_blocks_nodup g.nblocks
  rw [hL] at hnd
  -- (1) the block lies inside the allocation of its owner
  have part1 : 0 ≤ lu_a g ptr a0 (lu_index g (I : Int) (J : Int)) -
        ptr (block_owner g.num_rows g.num_cols (I : Int) (J : Int)) ∧
      lu_a g ptr a0 (lu_index g (I : Int) (J : Int)) -
          ptr (block_owner g.num_rows g.num_cols (I : Int) (J : Int)) +
          to_int (lu_size g (I : Int) (J : Int) * 8) ≤
        lu_proc_bytes g (block_owner g.num_rows g.num_cols (I : Int) (J : Int)) := by
    rw [ha, hreq, hpb, hcount]
    push_cast
    constructor
    · have : (0 : Int) ≤ block_size * block_size * 8 *
          ((pre.countP (fun b' => decide (block_owner g.num_rows g.num_cols (b'.1 : Int)
            (b'.2 : Int) = block_owner g.num_rows g.num_cols (I : Int) (J : Int))) : Nat) :
              Int) := by positivity
      omega
    · have : (0 : Int) ≤ block_size * block_size * 8 *
          ((post.countP (fun b' => decide (block_owner g.num_rows g.num_cols (b'.1 : Int)
            (b'.2 : Int) = block_owner g.num_rows g.num_cols (I : Int) (J : Int))) : Nat) :
              Int) := by positivity
      linarith
  refine ⟨⟨(hown I J).1, (hown I J).2, part1.1, part1.2⟩, ?_, ?_⟩
  · -- (2) two blocks of the same owner do not overlap
    intro I' J' hI' hJ' hne hsame
    have hb'L : (I', J') ∈ lu_blocks g.nblocks := (hmemL (I', J')).mpr ⟨by omega, by omega⟩
    rw [hL] at hb'L
    rw [hreq, hreq]
    rcases List.mem_append.mp hb'L with hin | hin
    · -- the other block comes earlier
      right
      obtain ⟨m, q, hpre⟩ := List.append_of_mem hin
      have hL' : lu_blocks g.nblocks = m ++ (I', J') :: (q ++ (I, J) :: post) := by
        rw [hL, hpre]
        simp
      have ha' := lu_a_of_split g (block_size * block_size * 8) N ptr a0 hN hfit hsize m
        (q ++ (I, J) :: post) (I', J') hL'
      simp only at ha'
      rw [ha', ha, hsame, hpre, List.countP_append, List.countP_cons_of_pos _ _
        (by simpa using hsame)]
      push_cast
      have : (0 : Int) ≤ block_size * block_size * 8 *
          ((q.countP (fun b' => decide (block_owner g.num_rows g.num_cols (b'.1 : Int)
            (b'.2 : Int) = block_owner g.num_rows g.num_cols (I : Int) (J : Int))) : Nat) :
              Int) := by positivity
      linarith
    · -- the other block comes later
      left
      have hin' : (I', J') ∈ post := by
        rcases List.mem_cons.mp hin with h | h
        · exact absurd h hne
        · exact h
      obtain ⟨m, q, hpost⟩ := List.append_of_mem hin'
      have hL' : lu_blocks g.nblocks = (pre ++ (I, J) :: m) ++ (I', J') :: q := by
        rw [hL, hpost]
        simp
      have ha' := lu_a_of_split g (block_size * block_size * 8) N ptr a0 hN hfit hsize
        (pre ++ (I, J) :: m) q (I', J') hL'
      simp only at ha'
      rw [ha', ha, hsame, List.countP_append, List.countP_cons_of_pos _ _ (by simp)]
      push_cast
      have : (0 : Int) ≤ block_size * block_size * 8 *
          ((m.countP (fun b' => decide (block_owner g.num_rows g.num_cols (b'.1 : Int)
            (b'.2 : Int) = block_owner g.num_rows g.num_cols (I : Int) (J : Int))) : Nat) :
              Int) := by positivity
      linarith
  · -- (3) the get of `get_remote` passes the assertions
    intro env win buf st hreg
    have hp1 : block_owner g.num_rows g.num_cols (I : Int) (J : Int) < g.nproc := by
      rw [hnp]
      exact (hown I J).2
    have hreq1 := hreq (I : Int) (J : Int)
    obtain ⟨mreg, hl, _, hs⟩ := lu_registry_lookup g win ptr
      (block_owner g.num_rows g.num_cols (I : Int) (J : Int))
      (lu_a g ptr a0 (lu_index g (I : Int) (J : Int))) (hown I J).1 hp1 (by omega) (by omega)
    rw [← hreg] at hl
    have hget := ARMCI_Get_eq env (lu_a g ptr a0 (lu_index g (I : Int) (J : Int))) buf
      (to_int (lu_size g (I : Int) (J : Int) * 8))
      (block_owner g.num_rows g.num_cols (I : Int) (J : Int)) st hl hs
      (by show lu_proc_bytes g _ < 2147483648; rw [hpb]; exact hBfit)
    rw [if_pos (by show _ ≤ ptr _ + lu_proc_bytes g _; omega)] at hget
    unfold get_remote
    simp only [hget]
    exact ⟨_, rfl⟩

/-- C19 at a concrete input: `n = 20`, `block_size = 10`, two processes (a grid of one row
and two columns, two blocks of 800 bytes per process), the block `(0, 1)`. -/
theorem C19_witness :
    ((1 : Int) ≤ 10 ∧ (1 : Int) ≤ 20 ∧ (20 : Int) < 2147483648 ∧ Int.tmod 20 10 = 0 ∧
      (1 : Int) ≤ 2) ∧
    ∃ g, lu_setup 20 10 2 = some g ∧ g.nblocks = 2 ∧
      block_owner g.num_rows g.num_cols 0 1 = 1 ∧ lu_proc_bytes g 1 = 1600 ∧
      to_int (lu_size g 0 1 * 8) = 800 ∧
      (0 ≤ block_owner g.num_rows g.num_cols ((0 : Nat) : Int) ((1 : Nat) : Int) ∧
        block_owner g.num_rows g.num_cols ((0 : Nat) : Int) ((1 : Nat) : Int) < 2 ∧
        0 ≤ lu_a g (fun p => 1000 * (p + 1)) (fun _ => 0)
              (lu_index g ((0 : Nat) : Int) ((1 : Nat) : Int)) -
            (fun p => 1000 * (p + 1))
              (block_owner g.num_rows g.num_cols ((0 : Nat) : Int) ((1 : Nat) : Int)) ∧
        lu_a g (fun p => 1000 * (p + 1)) (fun _ => 0)
              (lu_index g ((0 : Nat) : Int) ((1 : Nat) : Int)) -
            (fun p => 1000 * (p + 1))
              (block_owner g.num_rows g.num_cols ((0 : Nat) : Int) ((1 : Nat) : Int)) +
            to_int (lu_size g ((0 : Nat) : Int) ((1 : Nat) : Int) * 8) ≤
          lu_proc_bytes g
            (block_owner g.num_rows g.num_cols ((0 : Nat) : Int) ((1 : Nat) : Int))) ∧
      (∀ I' J' : Nat, (I' : Int) < g.nblocks → (J' : Int) < g.nblocks →
        (I', J') ≠ (0, 1) →
        block_owner g.num_rows g.num_cols (I' : Int) (J' : Int) =
          block_owner g.num_rows g.num_cols ((0 : Nat) : Int) ((1 : Nat) : Int) →
        lu_a g (fun p => 1000 * (p + 1)) (fun _ => 0)
              (lu_index g ((0 : Nat) : Int) ((1 : Nat) : Int)) +
            to_int (lu_size g ((0 : Nat) : Int) ((1 : Nat) : Int) * 8) ≤
          lu_a g (fun p => 1000 * (p + 1)) (fun _ => 0) (lu_index g (I' : Int) (J' : Int)) ∨
        lu_a g (fun p => 1000 * (p + 1)) (fun _ => 0) (lu_index g (I' : Int) (J' : Int)) +
            to_int (lu_size g (I' : Int) (J' : Int) * 8) ≤
          lu_a g (fun p => 1000 * (p + 1)) (fun _ => 0)
            (lu_index g ((0 : Nat) : Int) ((1 : Nat) : Int))) ∧
      (∀ (env : Env) (win : Nat) (buf : Int) (st : State),
        st.registry = lu_registry g win (fun p => 1000 * (p + 1)) →
        ∃ st', get_remote env g (lu_a g (fun p => 1000 * (p + 1)) (fun _ => 0)) buf
          ((0 : Nat) : Int) ((1 : Nat) : Int) st = .ok ((), st')) := by
  refine ⟨by decide, ?_⟩
  obtain ⟨g, hset, _, h⟩ := C19_lu_blocks_inside_owner_allocation 20 10 2 0 1
    (fun p => 1000 * (p + 1)) (fun _ => 0) (by decide) (by decide) (by decide) (by decide)
    (by decide)
  have hgrid : lu_grid 2 = some (1, 2) :=
    (lu_grid_of_sqrt 2 1 (by decide) (by decide)).trans (by decide)
  have hg : lu_setup 20 10 2 = some
      { n := 20, block_size := 10, nproc := 2, num_rows := 1, num_cols := 2, nblocks := 2,
        edge := 10 } := by
    unfold lu_setup
    rw [if_neg (by decide)]
    simp only [hgrid]
    rfl
  have e : g =
      { n := 20, block_size := 10, nproc := 2, num_rows := 1, num_cols := 2, nblocks := 2,
        edge := 10 } := Option.some.inj (hset.symm.trans hg)
  subst e
  exact ⟨_, hg, by decide, by decide, by decide, by decide,
    h (by decide) (by decide) (by decide) (by decide)⟩

/-- C19 fails as stated.  With `n = 32768`, `block_size = 8192` and two processes (`n` is a
positive multiple of `block_size`, four by four blocks, eight blocks of `2^29` bytes per
process) the sum `proc_bytes` is `2^32`, which the `int` holds as 0: each process allocates
0 bytes.  For the block `(0, 0)`, owned by process 0 at offset 0, offset plus requested size
is `2^29`, more than the 0 bytes allocated, and the `ARMCI_Get` of `get_remote` fails its
first assertion (the address is in no slice). -/
theorem C19_counterexample :
    ((1 : Int) ≤ 32768 ∧ Int.tmod 32768 8192 = 0) ∧
    ∃ g, lu_setup 32768 8192 2 = some g ∧ g.nblocks = 4 ∧
      block_owner g.num_rows g.num_cols 0 0 = 0 ∧
      lu_proc_bytes g 0 = 0 ∧
      lu_a g (fun _ => 4096) (fun _ => 0) (lu_index g 0 0) - 4096 = 0 ∧
      to_int (lu_size g 0 0 * 8) = 536870912 ∧
      ¬ (lu_a g (fun _ => 4096) (fun _ => 0) (lu_index g 0 0) - 4096 +
          to_int (lu_size g 0 0 * 8) ≤ lu_proc_bytes g 0) ∧
      get_remote ex_env g (lu_a g (fun _ => 4096) (fun _ => 0)) 0 0 0
          { ex_fresh with registry := lu_registry g 7 (fun _ => 4096) } =
        .error (.assertion, { ex_fresh with registry := lu_registry g 7 (fun _ => 4096) }) := by
  refine ⟨by decide, ?_⟩
  have hgrid : lu_grid 2 = some (1, 2) :=
    (lu_grid_of_sqrt 2 1 (by decide) (by decide)).trans (by decide)
  have hg : lu_setup 32768 8192 2 = some
      { n := 32768, block_size := 8192, nproc := 2, num_rows := 1, num_cols := 2,
        nblocks := 4, edge := 8192 } := by
    unfold lu_setup
    rw [if_neg (by decide)]
    simp only [hgrid]
    rfl
  exact ⟨_, hg, by decide, by decide, by decide, by decide, by decide, by decide, rfl⟩

end ARMCI
